import Mathlib

/-!
# hodctl: the micro-batch aggregation pipeline

A shallow embedding of `pkg/worker/extract.go`, `pkg/worker/agg.go`, `pkg/worker/parallel.go`,
`pkg/io/csvsource.go`, `ReadCurrencyValues` of `pkg/io/coingecko.go` and
`pkg/pipeline/aggpipeline.go`.

Conventions of the embedding
* A Go `error` is its message: `Option String`, `none` being `nil`.
* A Go function returning `(T, error)` returns a pair here, so that what is returned next to a
  non-nil error can be stated.
* The values of `float64` are `F64`: rationals for the finite values together with `+Inf`, `-Inf`
  and `NaN`, which follow the IEEE-754 rules for comparison and arithmetic; `-0` is not told from
  `0`, which `==` does not tell apart either. The operations `+` and `*` of `F64` are those of
  exact arithmetic: they do not round.
* The values of `int` are `Int`, and `+` on them is exact. A counter of records stays below the
  length of a slice, which an `int` holds.
* The functions of `agg.go` are given twice. `worker.machine.DoAgg` and
  `worker.machine.DoAggReducer` take the arithmetic of the machine as a parameter `Arith`, the
  `float64` sum and product and the `int` sum: what is proved of them for every `Arith` holds
  for the rounding `float64` and the wrapping `int` of Go. `worker.DoAgg` and
  `worker.DoAggReducer` are the same functions in exact arithmetic (`machine.DoAgg_ideal`,
  `machine.DoAggReducer_ideal`): the statements made in exact arithmetic, and those in which the
  arithmetic plays no part, are about them.
* `map[string]T` is `GoMap T`, an association list with at most one entry per key after a
  `store`. Go leaves the iteration order of a map unspecified: the slices built by iterating a
  map are given in insertion order and the theorems only speak of membership.
* A channel that is only received from is the list of values it delivers before it is closed; a
  channel that is only sent to is the list of values sent so far.
* Calls into the Go standard library (`time.Parse`, `json.Unmarshal`, `strconv.ParseFloat`,
  `fmt.Sprintf("%f", _)`) are the fields of a `GoStd` record. General theorems hold for every
  such record; `goStd` is a concrete model of the library used to run the code on inputs.
* Calls into `gocsv` are given by their outcome: the coins or the error that `gocsv.Unmarshal`
  yields, the records that `gocsv.UnmarshalToCallbackWithError` passes to its callback and the
  error it returns.
* The goroutines of `ParallelProcessing` are given by what they deliver: one result per batch,
  in an arrival order that is a parameter.
-/

deriving instance DecidableEq for Except

namespace Hodctl

/-! ## float64 -/

/-- The values of `float64`: the finite ones are rationals, `-0` being `0`. -/
inductive F64 where
  | fin (q : ℚ)
  | posInf
  | negInf
  | nan
deriving DecidableEq

namespace F64

/-- Addition of `float64` values in exact arithmetic: the sum of two finite values is not
rounded; `NaN` is absorbing and `+Inf + -Inf = NaN`. -/
def add : F64 → F64 → F64
  | fin a, fin b => fin (a + b)
  | fin _, posInf => posInf
  | fin _, negInf => negInf
  | posInf, fin _ => posInf
  | posInf, posInf => posInf
  | posInf, negInf => nan
  | negInf, fin _ => negInf
  | negInf, negInf => negInf
  | negInf, posInf => nan
  | nan, _ => nan
  | _, nan => nan

/-- The infinity of the given sign (`true` is negative). -/
def inf (neg : Bool) : F64 := if neg then negInf else posInf

/-- Product of an infinity of sign `neg` with the finite value `q`: `0 * Inf = NaN`. -/
def mulInf (neg : Bool) (q : ℚ) : F64 :=
  if q = 0 then nan else inf (neg != decide (q < 0))

/-- Multiplication of `float64` values in exact arithmetic: the product of two finite values is
not rounded. -/
def mul : F64 → F64 → F64
  | fin a, fin b => fin (a * b)
  | fin a, posInf => mulInf false a
  | fin a, negInf => mulInf true a
  | posInf, fin b => mulInf false b
  | negInf, fin b => mulInf true b
  | posInf, posInf => posInf
  | posInf, negInf => negInf
  | negInf, posInf => negInf
  | negInf, negInf => posInf
  | nan, _ => nan
  | _, nan => nan

/-- The comparison `a < b` of Go: false as soon as one side is `NaN`. -/
def lt : F64 → F64 → Bool
  | fin a, fin b => decide (a < b)
  | fin _, posInf => true
  | negInf, fin _ => true
  | negInf, posInf => true
  | _, _ => false

/-- The comparison `a > b` of Go. -/
def gt (a b : F64) : Bool := lt b a

/-- A value is finite when it is neither an infinity nor `NaN`. -/
def isFinite : F64 → Bool
  | fin _ => true
  | _ => false

/-- The comparison `a <= b` of Go: false as soon as one side is `NaN`. -/
def le : F64 → F64 → Bool
  | fin a, fin b => decide (a ≤ b)
  | fin _, posInf => true
  | negInf, fin _ => true
  | negInf, posInf => true
  | posInf, posInf => true
  | negInf, negInf => true
  | _, _ => false

instance : Zero F64 := ⟨fin 0⟩
instance : Add F64 := ⟨add⟩
instance : Mul F64 := ⟨mul⟩

instance : AddCommMonoid F64 where
  nsmul := nsmulRec
  add_assoc := by
    intro a b c
    show add (add a b) c = add a (add b c)
    cases a <;> cases b <;> cases c <;> simp [add, add_assoc]
  zero_add := by
    intro a
    show add (fin 0) a = a
    cases a <;> simp [add]
  add_zero := by
    intro a
    show add a (fin 0) = a
    cases a <;> simp [add]
  add_comm := by
    intro a b
    show add a b = add b a
    cases a <;> cases b <;> simp [add, add_comm]

end F64

/-! ## time.Time and its date format -/

/-- A `time.Time`, by its civil fields in its own location. -/
structure Time where
  year : Int
  month : Nat
  day : Nat
  hour : Nat
  minute : Nat
  second : Nat
  nanosecond : Nat
deriving DecidableEq

/-- Go's `appendInt` of package time: a minus sign for a negative number, then the decimal digits
of the absolute value, padded with zeros on the left up to `width` digits. -/
def appendInt (x : Int) (width : Nat) : List Char :=
  let ds := Nat.toDigits 10 x.natAbs
  (if x < 0 then ['-'] else []) ++ List.replicate (width - ds.length) '0' ++ ds

/-- The method call `t.Format("2006-01-02")`. -/
def Time.Format (t : Time) : String :=
  ⟨appendInt t.year 4 ++ '-' :: appendInt t.month 2 ++ '-' :: appendInt t.day 2⟩

/-! ## Go maps -/

/-- A `map[string]β`: the entries in insertion order. -/
def GoMap (β : Type) := List (String × β)

namespace GoMap

/-- The empty map, `make(map[string]β)`. -/
def empty {β : Type} : GoMap β := ([] : List (String × β))

/-- The map index expression `v, exists := m[k]`. -/
def lookup {β : Type} : GoMap β → String → Option β
  | [], _ => none
  | (k', v) :: rest, k => if k' = k then some v else lookup rest k

/-- The assignment `m[k] = v`. -/
def store {β : Type} : GoMap β → String → β → GoMap β
  | [], k, v => [(k, v)]
  | (k', v') :: rest, k, v => if k' = k then (k, v) :: rest else (k', v') :: store rest k v

/-- The values met by `for _, v := range m`. -/
def values {β : Type} (m : GoMap β) : List β := List.map Prod.snd m

/-- The keys of the map. -/
def keys {β : Type} (m : GoMap β) : List String := List.map Prod.fst m

end GoMap

/-! ## A model of the Go standard library calls made by the code

Used to run the code on concrete inputs. The general theorems do not depend on it. -/

namespace GoStdModel

/-- Splits off the longest run of decimal digits. -/
def takeDigits : List Char → List Char × List Char
  | [] => ([], [])
  | c :: cs => if c.isDigit then ((takeDigits cs).1.cons c, (takeDigits cs).2) else ([], c :: cs)

/-- Value of a run of decimal digits. -/
def digitsVal (ds : List Char) : Nat := ds.foldl (fun n c => 10 * n + (c.toNat - 48)) 0

/-- Go's `getnum` of package time: one or two digits, two when `fixed`. -/
def getnum (s : List Char) (fixed : Bool) : Option (Nat × List Char) :=
  match s with
  | a :: b :: rest =>
    if a.isDigit then
      if b.isDigit then some (digitsVal [a, b], rest)
      else if fixed then none else some (digitsVal [a], b :: rest)
    else none
  | [a] => if a.isDigit ∧ ¬ fixed then some (digitsVal [a], []) else none
  | [] => none

/-- Go's `skip` of package time for a one-character literal of the layout: a space of the layout
stands for any run of spaces of the value, another character for itself. -/
def skip (value : List Char) (lit : Char) : Option (List Char) :=
  if lit = ' ' then
    match value with
    | [] => some []
    | c :: _ => if c = ' ' then some (value.dropWhile (· = ' ')) else none
  else
    match value with
    | c :: rest => if c = lit then some rest else none
    | [] => none

/-- Go's `isLeap`. -/
def isLeap (year : Nat) : Bool := year % 4 = 0 ∧ (year % 100 ≠ 0 ∨ year % 400 = 0)

/-- Go's `daysIn`. -/
def daysIn (month year : Nat) : Nat :=
  if month = 2 then (if isLeap year then 29 else 28)
  else if month = 4 ∨ month = 6 ∨ month = 9 ∨ month = 11 then 30 else 31

/-- The fractional second Go accepts after the seconds field although the layout has none: a
period or comma followed by digits, of which the first nine count. The nanoseconds and what
follows. -/
def fracSecond (value : List Char) : Nat × List Char :=
  match value with
  | p :: d :: rest =>
    if (p = '.' ∨ p = ',') ∧ d.isDigit then
      let ds := (takeDigits (d :: rest)).1
      let ds9 := ds.take 9
      (digitsVal ds9 * 10 ^ (9 - ds9.length), (takeDigits (d :: rest)).2)
    else (0, value)
  | _ => (0, value)

/-- A text between double quotes, as in the messages of the library (which also escapes the
characters that need it). -/
def quote (s : List Char) : String := ⟨'"' :: s ++ ['"']⟩

/-- The call `time.Parse("2006-01-02 15:04:05", s)`. The error texts have the shape of those of
Go: the value, then the part of the value and the element of the layout that do not match, or
the field that is out of range. -/
def timeParse (s : String) : Except String Time :=
  let bad (rest : List Char) (elem : String) : Except String Time :=
    .error ("parsing time " ++ quote s.data ++ " as " ++ quote "2006-01-02 15:04:05".data ++
      ": cannot parse " ++ quote rest ++ " as " ++ quote elem.data)
  let range (what : String) : Except String Time :=
    .error ("parsing time " ++ quote s.data ++ ": " ++ what ++ " out of range")
  match s.data with
  | y1 :: y2 :: y3 :: y4 :: v1 =>
    if ¬ (y1.isDigit ∧ y2.isDigit ∧ y3.isDigit ∧ y4.isDigit) then bad s.data "2006" else
    match skip v1 '-' with
    | none => bad v1 "-"
    | some v2 =>
    match getnum v2 true with
    | none => bad v2 "01"
    | some (month, v3) =>
    if month = 0 ∨ 12 < month then range "month" else
    match skip v3 '-' with
    | none => bad v3 "-"
    | some v4 =>
    match getnum v4 true with
    | none => bad v4 "02"
    | some (day, v5) =>
    match skip v5 ' ' with
    | none => bad v5 " "
    | some v6 =>
    match getnum v6 false with
    | none => bad v6 "15"
    | some (hour, v7) =>
    if 24 ≤ hour then range "hour" else
    match skip v7 ':' with
    | none => bad v7 ":"
    | some v8 =>
    match getnum v8 true with
    | none => bad v8 "04"
    | some (minute, v9) =>
    if 60 ≤ minute then range "minute" else
    match skip v9 ':' with
    | none => bad v9 ":"
    | some v10 =>
    match getnum v10 true with
    | none => bad v10 "05"
    | some (second, v11) =>
    if 60 ≤ second then range "second" else
    match fracSecond v11 with
    | (_, c :: rest) =>
      .error ("parsing time " ++ quote s.data ++ ": extra text: " ++ quote (c :: rest))
    | (nsec, []) =>
    let year := digitsVal [y1, y2, y3, y4]
    if day < 1 ∨ daysIn month year < day then range "day" else
    .ok { year := year, month := month, day := day, hour := hour, minute := minute,
          second := second, nanosecond := nsec }
  | _ => bad s.data "2006"

/-- ASCII lower case of a text. -/
def lower (cs : List Char) : List Char := cs.map Char.toLower

/-- Go's `special` of package strconv, on a whole text: an optionally signed `inf` or `infinity`,
or an unsigned `nan`, in any case of letters. -/
def special (cs : List Char) : Option F64 :=
  let body (neg : Bool) (r : List Char) : Option F64 :=
    if lower r = "inf".data ∨ lower r = "infinity".data then
      some (if neg then F64.negInf else F64.posInf)
    else none
  match cs with
  | c :: rest =>
    if c = '+' then body false rest
    else if c = '-' then body true rest
    else if lower cs = "nan".data then some F64.nan
    else body false cs
  | [] => none

/-- The exponent part of a decimal number, if the text is one: `e` or `E`, an optional sign and at
least one digit up to the end of the text. -/
def readExp (cs : List Char) : Option Int :=
  match cs with
  | [] => some 0
  | e :: rest =>
    if e = 'e' ∨ e = 'E' then
      let signed : Bool × List Char := match rest with
        | s :: r => if s = '-' then (true, r) else if s = '+' then (false, r) else (false, rest)
        | [] => (false, rest)
      match takeDigits signed.2 with
      | (_ :: _, []) =>
        let n := digitsVal (takeDigits signed.2).1
        some (if signed.1 then -(n : Int) else (n : Int))
      | _ => none
    else none

/-- The unsigned decimal number written by a text: digits with at most one period among them, at
least one digit, then an optional exponent. -/
def readDecimal (cs : List Char) : Option ℚ :=
  let ip := takeDigits cs
  let fp : List Char × List Char := match ip.2 with
    | d :: rest => if d = '.' then takeDigits rest else ([], ip.2)
    | [] => ([], [])
  if ip.1 = [] ∧ fp.1 = [] then none else
  match readExp fp.2 with
  | none => none
  | some e =>
    some ((digitsVal (ip.1 ++ fp.1) : ℚ) * (10 : ℚ) ^ (e - (fp.1.length : Int)))

/-- The call `strconv.ParseFloat(s, 64)` for the special values and the decimal syntax, in exact
arithmetic: the number written is not rounded, and it is out of range when rounding it to the
nearest `float64` would overflow. Go also accepts hexadecimal floating-point numbers and
underscores between digits; this model rejects both. -/
def parseFloat (s : String) : Except String F64 :=
  match special s.data with
  | some v => .ok v
  | none =>
    let signed : Bool × List Char := match s.data with
      | c :: r => if c = '-' then (true, r) else if c = '+' then (false, r) else (false, s.data)
      | [] => (false, [])
    match readDecimal signed.2 with
    | none => .error ("strconv.ParseFloat: parsing " ++ quote s.data ++ ": invalid syntax")
    | some q =>
      if (2 : ℚ) ^ 1024 - (2 : ℚ) ^ 970 ≤ q then
        .error ("strconv.ParseFloat: parsing " ++ quote s.data ++ ": value out of range")
      else .ok (F64.fin (if signed.1 then -q else q))

/-- The call `fmt.Sprintf("%f", v)`: six digits after the period, the exact value being rounded to
the nearest, ties to even. -/
def sprintfF (v : F64) : String :=
  match v with
  | F64.nan => "NaN"
  | F64.posInf => "+Inf"
  | F64.negInf => "-Inf"
  | F64.fin q =>
    let x : ℚ := |q| * 1000000
    let f : Nat := x.floor.toNat
    let r : ℚ := x - f
    let n : Nat := if 1 / 2 < r ∨ (r = 1 / 2 ∧ f % 2 = 1) then f + 1 else f
    let frac := Nat.toDigits 10 (n % 1000000)
    ⟨(if q < 0 then ['-'] else []) ++ Nat.toDigits 10 (n / 1000000) ++ '.' ::
      (List.replicate (6 - frac.length) '0' ++ frac)⟩

/-- A parsed JSON value; number literals are kept as written. -/
inductive JSON where
  | null
  | bool (b : Bool)
  | number (lit : List Char)
  | string (s : List Char)
  | array (elems : List JSON)
  | object (members : List (List Char × JSON))

/-- JSON white space. -/
def isSpace (c : Char) : Bool := c = ' ' || c = '\t' || c = '\r' || c = '\n'

/-- Drops leading white space. -/
def skipSpace : List Char → List Char
  | [] => []
  | c :: cs => if isSpace c then skipSpace cs else c :: cs

/-- Value of a hexadecimal digit. -/
def hexVal (c : Char) : Option Nat :=
  if c.isDigit then some (c.toNat - 48)
  else if 'a' ≤ c ∧ c ≤ 'f' then some (c.toNat - 87)
  else if 'A' ≤ c ∧ c ≤ 'F' then some (c.toNat - 55)
  else none

/-- Value of four hexadecimal digits. -/
def hex4 (a b c d : Char) : Option Nat :=
  match hexVal a, hexVal b, hexVal c, hexVal d with
  | some x, some y, some z, some w => some (((x * 16 + y) * 16 + z) * 16 + w)
  | _, _, _, _ => none

/-- The character of a one-letter escape. -/
def unescape (c : Char) : Option Char :=
  if c = '"' then some '"' else if c = '\\' then some '\\' else if c = '/' then some '/'
  else if c = 'b' then some (Char.ofNat 8) else if c = 'f' then some (Char.ofNat 12)
  else if c = 'n' then some '\n' else if c = 'r' then some '\r' else if c = 't' then some '\t'
  else none

/-- Reads what follows a backslash in a string: the decoded character and what follows. A lone
surrogate escape decodes to U+FFFD, a surrogate pair to the character it encodes. -/
def scanEscape : List Char → Option (Char × List Char)
  | [] => none
  | e :: rest =>
    if e = 'u' then
      match rest with
      | x :: y :: z :: w :: rest1 =>
        match hex4 x y z w with
        | none => none
        | some u =>
          if 0xD800 ≤ u ∧ u < 0xDC00 then
            match rest1 with
            | b :: e2 :: x2 :: y2 :: z2 :: w2 :: rest2 =>
              match hex4 x2 y2 z2 w2 with
              | some v =>
                if b = '\\' ∧ e2 = 'u' ∧ 0xDC00 ≤ v ∧ v < 0xE000 then
                  some (Char.ofNat (0x10000 + (u - 0xD800) * 0x400 + (v - 0xDC00)), rest2)
                else some (Char.ofNat 0xFFFD, rest1)
              | none => some (Char.ofNat 0xFFFD, rest1)
            | _ => some (Char.ofNat 0xFFFD, rest1)
          else if 0xDC00 ≤ u ∧ u < 0xE000 then some (Char.ofNat 0xFFFD, rest1)
          else some (Char.ofNat u, rest1)
      | _ => none
    else (unescape e).map fun ch => (ch, rest)

/-- Reads a string body up to its closing quote: the decoded text and what follows; the first
argument bounds the recursion. -/
def scanString : Nat → List Char → Option (List Char × List Char)
  | 0, _ => none
  | _, [] => none
  | fuel + 1, c :: rest =>
    if c = '"' then some ([], rest)
    else if c = '\\' then
      match scanEscape rest with
      | none => none
      | some (ch, rest1) => (scanString fuel rest1).map fun p => (ch :: p.1, p.2)
    else if c.toNat < 0x20 then none
    else (scanString fuel rest).map fun p => (c :: p.1, p.2)

/-- Reads an optional exponent part of a number. -/
def scanExp (cs : List Char) : Option (List Char) :=
  match cs with
  | e :: rest =>
    if e = 'e' ∨ e = 'E' then
      let rest1 := match rest with
        | s :: r => if s = '+' ∨ s = '-' then r else rest
        | [] => rest
      match takeDigits rest1 with
      | ([], _) => none
      | (_, r) => some r
    else some cs
  | [] => some cs

/-- Reads an optional fraction part of a number, then an optional exponent. -/
def scanFrac (cs : List Char) : Option (List Char) :=
  match cs with
  | d :: rest =>
    if d = '.' then
      match takeDigits rest with
      | ([], _) => none
      | (_, r) => scanExp r
    else scanExp cs
  | [] => some cs

/-- Reads a JSON number: what follows it. -/
def scanNumber (cs : List Char) : Option (List Char) :=
  let body := match cs with
    | s :: r => if s = '-' then r else cs
    | [] => cs
  match body with
  | d :: rest =>
    if d = '0' then scanFrac rest
    else if d.isDigit then scanFrac (takeDigits rest).2
    else none
  | [] => none

mutual
/-- Reads one JSON value; the first argument bounds the recursion. -/
def parseValue : Nat → List Char → Option (JSON × List Char)
  | 0, _ => none
  | fuel + 1, cs =>
    match skipSpace cs with
    | [] => none
    | c :: rest =>
      if c = '{' then
        match skipSpace rest with
        | [] => none
        | c1 :: rest1 =>
          if c1 = '}' then some (JSON.object [], rest1)
          else (parseMembers fuel (c1 :: rest1)).map fun p => (JSON.object p.1, p.2)
      else if c = '[' then
        match skipSpace rest with
        | [] => none
        | c1 :: rest1 =>
          if c1 = ']' then some (JSON.array [], rest1)
          else (parseElems fuel (c1 :: rest1)).map fun p => (JSON.array p.1, p.2)
      else if c = '"' then (scanString rest.length rest).map fun p => (JSON.string p.1, p.2)
      else if c = 't' then
        match rest with
        | 'r' :: 'u' :: 'e' :: r => some (JSON.bool true, r)
        | _ => none
      else if c = 'f' then
        match rest with
        | 'a' :: 'l' :: 's' :: 'e' :: r => some (JSON.bool false, r)
        | _ => none
      else if c = 'n' then
        match rest with
        | 'u' :: 'l' :: 'l' :: r => some (JSON.null, r)
        | _ => none
      else
        match scanNumber (c :: rest) with
        | some r => some (JSON.number ((c :: rest).take ((c :: rest).length - r.length)), r)
        | none => none
/-- Reads the elements of a non-empty array up to the closing bracket. -/
def parseElems : Nat → List Char → Option (List JSON × List Char)
  | 0, _ => none
  | fuel + 1, cs =>
    match parseValue fuel cs with
    | none => none
    | some (v, rest) =>
      match skipSpace rest with
      | [] => none
      | c :: rest1 =>
        if c = ',' then (parseElems fuel rest1).map fun p => (v :: p.1, p.2)
        else if c = ']' then some ([v], rest1)
        else none
/-- Reads the members of a non-empty object up to the closing brace. -/
def parseMembers : Nat → List Char → Option (List (List Char × JSON) × List Char)
  | 0, _ => none
  | fuel + 1, cs =>
    match skipSpace cs with
    | [] => none
    | q :: rest =>
      if q = '"' then
        match scanString rest.length rest with
        | none => none
        | some (key, rest1) =>
          match skipSpace rest1 with
          | [] => none
          | c :: rest2 =>
            if c = ':' then
              match parseValue fuel rest2 with
              | none => none
              | some (v, rest3) =>
                match skipSpace rest3 with
                | [] => none
                | c1 :: rest4 =>
                  if c1 = ',' then (parseMembers fuel rest4).map fun p => ((key, v) :: p.1, p.2)
                  else if c1 = '}' then some ([(key, v)], rest4)
                  else none
            else none
      else none
end

/-- Decoding of the members of an object into a struct whose only field is a string with the JSON
name `name`: the field and the first type error. A member whose key is the name, up to the case of
ASCII letters, sets the field when its value is a string, leaves it when its value is `null`, and
is a type error otherwise; other members are skipped. -/
def decodeMembers (name : List Char) :
    List (List Char × JSON) → String → Option String → String × Option String
  | [], field, err => (field, err)
  | (key, v) :: rest, field, err =>
    if key.map Char.toLower = name.map Char.toLower then
      match v with
      | JSON.string s => decodeMembers name rest ⟨s⟩ err
      | JSON.null => decodeMembers name rest field err
      | _ =>
        decodeMembers name rest field
          (err.orElse fun _ => some "json: cannot unmarshal value into Go struct field of type string")
    else decodeMembers name rest field err

/-- The call `json.Unmarshal([]byte(data), &v)` for `v` a zero struct whose only field is a string
with the JSON name `name`: the field afterwards, or the error. The error texts are abridged: they
do not name the offending character or type. The depth of nesting is not bounded. -/
def jsonUnmarshal (name : String) (data : String) : Except String String :=
  match parseValue (2 * data.data.length + 2) data.data with
  | none => .error "invalid character or unexpected end of JSON input"
  | some (v, rest) =>
    match skipSpace rest with
    | _ :: _ => .error "invalid character after top-level value"
    | [] =>
      match v with
      | JSON.null => .ok ""
      | JSON.object members =>
        match decodeMembers name.data members "" none with
        | (field, none) => .ok field
        | (_, some e) => .error e
      | _ => .error "json: cannot unmarshal value into Go value of struct type"

end GoStdModel

/-! ## pkg/io -/

namespace io

/-- The type `io.Currency2Values`. -/
abbrev Currency2Values := GoMap F64

/-- The struct `io.RawTransaction`. -/
structure RawTransaction where
  Timestamp : String
  ProjectID : String
  Event : String
  Props : String
  Nums : String
deriving DecidableEq

/-- The struct `io.MicroBatch`. -/
structure MicroBatch where
  Data : List RawTransaction
  Err : Option String
deriving DecidableEq

end io

/-! ## pkg/worker/extract.go -/

namespace worker

/-- The struct `worker.Transaction`. -/
structure Transaction where
  Timestamp : Time
  ProjectID : String
  CurrencySymbol : String
  Volume : F64
deriving DecidableEq

/-- The struct `worker.MicroBatch`. -/
structure MicroBatch where
  Data : List Transaction
  Err : Option String
deriving DecidableEq

/-- The struct `worker.Outlier`. -/
structure Outlier where
  Reason : String
  RawTransaction : io.RawTransaction
deriving DecidableEq

/-- The struct `worker.numsJson`. -/
structure numsJson where
  CurrencyValueDecimal : String
deriving DecidableEq

/-- The struct `worker.propsJson`. -/
structure propsJson where
  CurrencySymbol : String
deriving DecidableEq

/-- The constant `MaxVolumeThreshold`, converted to `float64` where it is compared. -/
def MaxVolumeThreshold : F64 := F64.fin 1000000000000000

/-- The standard library calls of `DoCleanup`. A call returning an error next to its result is an
`Except`: the code never reads the result when the error is not nil. -/
structure GoStd where
  /-- The call `time.Parse("2006-01-02 15:04:05", s)`. -/
  timeParse : String → Except String Time
  /-- The call `json.Unmarshal([]byte(s), &numsJSON)` on a zero `numsJSON`. -/
  jsonUnmarshalNums : String → Except String numsJson
  /-- The call `json.Unmarshal([]byte(s), &propsJSON)` on a zero `propsJSON`. -/
  jsonUnmarshalProps : String → Except String propsJson
  /-- The call `strconv.ParseFloat(s, 64)`. -/
  parseFloat : String → Except String F64
  /-- The call `fmt.Sprintf("%f", v)`. -/
  sprintfF : F64 → String

/-- The model of the standard library of `GoStdModel`. -/
def goStd : GoStd where
  timeParse := GoStdModel.timeParse
  jsonUnmarshalNums := fun s =>
    match GoStdModel.jsonUnmarshal "currencyValueDecimal" s with
    | .ok field => .ok { CurrencyValueDecimal := field }
    | .error e => .error e
  jsonUnmarshalProps := fun s =>
    match GoStdModel.jsonUnmarshal "currencySymbol" s with
    | .ok field => .ok { CurrencySymbol := field }
    | .error e => .error e
  parseFloat := GoStdModel.parseFloat
  sprintfF := GoStdModel.sprintfF

/-- The body of the loop of `DoCleanup` for one raw transaction, on the pair of the slice
`cleanedTransactions` and of the outliers sent on `outlierChan` so far. Each `continue` of the
source is a branch that leaves `cleanedTransactions` as it is. -/
def DoCleanup.step (std : GoStd) (state : List Transaction × List Outlier)
    (transaction : io.RawTransaction) : List Transaction × List Outlier :=
  match std.timeParse transaction.Timestamp with
  | .error err =>
    (state.1, state.2 ++ [{ RawTransaction := transaction,
                            Reason := "invalid timestamp format: " ++ err }])
  | .ok parsedTime =>
  match std.jsonUnmarshalNums transaction.Nums with
  | .error err =>
    (state.1, state.2 ++ [{ RawTransaction := transaction,
                            Reason := "invalid JSON format in Nums field: " ++ err }])
  | .ok numsJSON =>
  match std.jsonUnmarshalProps transaction.Props with
  | .error err =>
    (state.1, state.2 ++ [{ RawTransaction := transaction,
                            Reason := "invalid JSON format in Props field: " ++ err }])
  | .ok propsJSON =>
  match std.parseFloat numsJSON.CurrencyValueDecimal with
  | .error err =>
    (state.1, state.2 ++ [{ RawTransaction := transaction,
                            Reason := "invalid volume format: " ++ err }])
  | .ok currencyValueDecimal =>
  if F64.lt currencyValueDecimal 0 || F64.gt currencyValueDecimal MaxVolumeThreshold then
    (state.1, state.2 ++ [{ RawTransaction := transaction,
                            Reason := "volume over threshold: " ++
                              std.sprintfF currencyValueDecimal }])
  else
    (state.1 ++ [{ Timestamp := parsedTime,
                   ProjectID := transaction.ProjectID,
                   CurrencySymbol := propsJSON.CurrencySymbol,
                   Volume := currencyValueDecimal }], state.2)

/-- The function `DoCleanup`: the returned batch, the returned error, and the outliers sent on
`outlierChan`, after those in `outlierChan` before the call. -/
def DoCleanup (std : GoStd) (batch : io.MicroBatch) (outlierChan : List Outlier) :
    (MicroBatch × Option String) × List Outlier :=
  let state := batch.Data.foldl (DoCleanup.step std) ([], outlierChan)
  (({ Data := state.1, Err := none }, none), state.2)

/-! ## pkg/worker/agg.go -/

/-- The struct `worker.Agg`. -/
structure Agg where
  Date : String
  ProjectId : String
  NumberOfTransactions : Int
  TotalVolumeUsd : F64
deriving DecidableEq

/-- The struct `worker.AggResult` of `parallel.go`. -/
structure AggResult where
  Agg : List Agg
  Err : Option String
deriving DecidableEq

/-- The body of the loop of `DoAgg` for one transaction, in exact arithmetic: `Except.error` is
the early return. -/
def DoAgg.step (currencyValues : io.Currency2Values) (aggMap : GoMap Agg) (transaction : Transaction) :
    Except String (GoMap Agg) :=
  match currencyValues.lookup transaction.CurrencySymbol with
  | none => .error ("currency symbol not supported: " ++ transaction.CurrencySymbol)
  | some toUsd =>
    let volume := toUsd * transaction.Volume
    let date := transaction.Timestamp.Format
    let key := date ++ "_" ++ transaction.ProjectID
    let agg : Agg :=
      match aggMap.lookup key with
      | some agg => agg
      | none => { Date := date, ProjectId := transaction.ProjectID,
                  NumberOfTransactions := 0, TotalVolumeUsd := 0 }
    let agg := { agg with NumberOfTransactions := agg.NumberOfTransactions + 1,
                          TotalVolumeUsd := agg.TotalVolumeUsd + volume }
    .ok (aggMap.store key agg)

/-- The loop `for _, transaction := range batch.Data` of `DoAgg`. -/
def DoAgg.loop (currencyValues : io.Currency2Values) :
    List Transaction → GoMap Agg → Except String (GoMap Agg)
  | [], aggMap => .ok aggMap
  | transaction :: rest, aggMap =>
    match DoAgg.step currencyValues aggMap transaction with
    | .error e => .error e
    | .ok aggMap => DoAgg.loop currencyValues rest aggMap

/-- The function `DoAgg` in exact arithmetic: the returned slice and the returned error. -/
def DoAgg (batch : MicroBatch) (currencyValues : io.Currency2Values) : List Agg × Option String :=
  match DoAgg.loop currencyValues batch.Data GoMap.empty with
  | .error e => ([], some e)
  | .ok aggMap => (aggMap.values, none)

/-- The body of the inner loop of `DoAggReducer` for one partial entry, in exact arithmetic. -/
def DoAggReducer.merge (aggMap : GoMap Agg) (agg : Agg) : GoMap Agg :=
  let key := agg.Date ++ "_" ++ agg.ProjectId
  match aggMap.lookup key with
  | none => aggMap.store key agg
  | some existingAgg =>
    aggMap.store key
      { existingAgg with
        NumberOfTransactions := existingAgg.NumberOfTransactions + agg.NumberOfTransactions,
        TotalVolumeUsd := existingAgg.TotalVolumeUsd + agg.TotalVolumeUsd }

/-- The loop `for result := range in` of `DoAggReducer`, `Except.error` being the early return. -/
def DoAggReducer.loop : List AggResult → GoMap Agg → Except String (GoMap Agg)
  | [], aggMap => .ok aggMap
  | result :: rest, aggMap =>
    match result.Err with
    | some err => .error ("unable to aggregate transactions: " ++ err)
    | none => DoAggReducer.loop rest (result.Agg.foldl DoAggReducer.merge aggMap)

/-- The function `DoAggReducer` in exact arithmetic, on the results the channel delivers until it
is closed. -/
def DoAggReducer (results : List AggResult) : List Agg × Option String :=
  match DoAggReducer.loop results GoMap.empty with
  | .error e => ([], some e)
  | .ok aggMap => (aggMap.values, none)

end worker


namespace GoStdModel

/-- The call `strings.ToUpper(s)` on ASCII letters; other characters are left as they are. -/
def toUpper (s : String) : String := ⟨s.data.map Char.toUpper⟩

end GoStdModel

namespace worker

/-- The JSON text of an object with the single member `currencyValueDecimal`, holding the given
text, as in the `nums` column of the test data. -/
def numsBlob (amount : String) : String :=
  "\x7b\"currencyValueDecimal\": \"" ++ amount ++ "\"\x7d"

/-- The JSON text of an object with the single member `currencySymbol`, holding the given text,
as in the `props` column of the test data. -/
def propsBlob (symbol : String) : String :=
  "\x7b\"currencySymbol\": \"" ++ symbol ++ "\"\x7d"

/-- A raw transaction with the given timestamp, project, props and nums columns. -/
def rawOf (ts project props nums : String) : io.RawTransaction :=
  { Timestamp := ts, ProjectID := project, Event := "", Props := props, Nums := nums }

end worker

/-! ## Test data of the repository -/

namespace worker

/-- The raw transactions of `extract_test.go`. -/
def rawTransactions : List io.RawTransaction :=
  [rawOf "2023-10-01 12:00:00" "ProjectA" (propsBlob "USD") (numsBlob "100.0"),
   rawOf "2023-10-01 13:00:00" "ProjectB" (propsBlob "EUR") (numsBlob "50.0"),
   rawOf "invalid-timestamp" "ProjectC" (propsBlob "GBP") (numsBlob "150.0"),
   rawOf "2023-10-01 14:00:00" "ProjectD" (propsBlob "JPY") "invalid-json",
   rawOf "2023-10-01 15:00:00" "ProjectE" (propsBlob "CAD") (numsBlob "-100.0"),
   rawOf "2023-10-01 16:00:00" "ProjectF" (propsBlob "AUD") (numsBlob "1e20"),
   rawOf "2023-10-01 17:00:00" "ProjectG" (propsBlob "CHF") (numsBlob "200.0")]

/-- A raw transaction like the first of `extract_test.go`, with the amount text `NaN`. -/
def nanTransaction : io.RawTransaction :=
  rawOf "2023-10-01 12:00:00" "ProjectA" (propsBlob "USD") (numsBlob "NaN")

/-- A raw transaction like the first of `extract_test.go`, with the symbol in lower case. -/
def lowerCaseTransaction : io.RawTransaction :=
  rawOf "2023-10-01 12:00:00" "ProjectA" (propsBlob "usd") (numsBlob "100.0")

/-- The cleaned transactions that `TestDoCleanup` expects. -/
def expectedTransactions : List Transaction :=
  [⟨⟨2023, 10, 1, 12, 0, 0, 0⟩, "ProjectA", "USD", F64.fin 100⟩,
   ⟨⟨2023, 10, 1, 13, 0, 0, 0⟩, "ProjectB", "EUR", F64.fin 50⟩,
   ⟨⟨2023, 10, 1, 17, 0, 0, 0⟩, "ProjectG", "CHF", F64.fin 200⟩]

/-- The transactions of `agg_test.go`. -/
def transactions : List Transaction :=
  [⟨⟨2023, 10, 1, 12, 0, 0, 0⟩, "ProjectA", "USD", F64.fin 100⟩,
   ⟨⟨2023, 10, 1, 13, 0, 0, 0⟩, "ProjectA", "EUR", F64.fin 50⟩,
   ⟨⟨2023, 10, 1, 14, 0, 0, 0⟩, "ProjectB", "BTC", F64.fin (1 / 1000)⟩,
   ⟨⟨2023, 10, 2, 12, 0, 0, 0⟩, "ProjectA", "USD", F64.fin 200⟩,
   ⟨⟨2023, 10, 2, 13, 0, 0, 0⟩, "ProjectB", "EUR", F64.fin 80⟩]

/-- The currency table of `TestDoAgg`. -/
def testCurrencyValues : io.Currency2Values :=
  [("USD", F64.fin 1), ("EUR", F64.fin (6 / 5)), ("BTC", F64.fin 60000)]

/-- The aggregates that `TestDoAgg` expects. -/
def expectedAggs : List Agg :=
  [⟨"2023-10-01", "ProjectA", 2, F64.fin 160⟩,
   ⟨"2023-10-01", "ProjectB", 1, F64.fin 60⟩,
   ⟨"2023-10-02", "ProjectA", 1, F64.fin 200⟩,
   ⟨"2023-10-02", "ProjectB", 1, F64.fin 96⟩]

end worker

/-! ## Vocabulary of the statements -/

/-- The text `sub` occurs in `s`, as `strings.Contains(s, sub)` tests. -/
def Contains (s sub : String) : Prop := sub.data <:+: s.data

instance (s sub : String) : Decidable (Contains s sub) := by
  unfold Contains
  infer_instance

namespace worker

/-- The conversion rate of a currency symbol: the table entry, `0` when there is none, as the map
index expression gives it. -/
def rate (currencyValues : io.Currency2Values) (symbol : String) : F64 :=
  (currencyValues.lookup symbol).getD 0

/-- The map key the aggregation functions build for an entry. -/
def Agg.key (a : Agg) : String := a.Date ++ "_" ++ a.ProjectId

/-- The entries of a list with the given date and project. -/
def Agg.group (d p : String) (aggs : List Agg) : List Agg :=
  aggs.filter fun x => decide (x.Date = d ∧ x.ProjectId = p)

/-- The entry of a date and project summing the counts and the volumes of the entries of a list
with that date and project. -/
def Agg.total (d p : String) (aggs : List Agg) : Agg :=
  { Date := d, ProjectId := p,
    NumberOfTransactions := ((Agg.group d p aggs).map Agg.NumberOfTransactions).sum,
    TotalVolumeUsd := ((Agg.group d p aggs).map Agg.TotalVolumeUsd).sum }

/-- The contribution of one transaction to the aggregate of its batch. -/
def Transaction.toAgg (currencyValues : io.Currency2Values) (t : Transaction) : Agg :=
  { Date := t.Timestamp.Format, ProjectId := t.ProjectID, NumberOfTransactions := 1,
    TotalVolumeUsd := rate currencyValues t.CurrencySymbol * t.Volume }

/-- The transactions of a list with the given date and project. -/
def Transaction.group (d p : String) (ts : List Transaction) : List Transaction :=
  ts.filter fun t => decide (t.Timestamp.Format = d ∧ t.ProjectID = p)

/-- What a map lookup yields after merging one more entry under the looked-up key. -/
def Agg.combine : Option Agg → Agg → Agg
  | none, x => x
  | some e, x =>
    { e with NumberOfTransactions := e.NumberOfTransactions + x.NumberOfTransactions,
             TotalVolumeUsd := e.TotalVolumeUsd + x.TotalVolumeUsd }

end worker

namespace worker

/-- Every entry of the map is stored under the key built from its date and project. -/
def Agg.Keyed (m : GoMap Agg) : Prop :=
  ∀ e ∈ (show List (String × Agg) from m), e.2.key = e.1

end worker

/-! ## pkg/io/coingecko.go -/

namespace io

/-- The struct `io.Coin`. -/
structure Coin where
  ID : String
  Symbol : String
  Name : String
  Price : F64
deriving DecidableEq

/-- The function `ReadCurrencyValues`, on the outcome `coins` of the library call
`gocsv.Unmarshal(reader, &coins)` and for `toUpper` the library function `strings.ToUpper`: the
returned table and the returned error. -/
def ReadCurrencyValues (toUpper : String → String) (coins : Except String (List Coin)) :
    Currency2Values × Option String :=
  match coins with
  | .error err => (GoMap.empty, some ("failed to unmarshal CSV: " ++ err))
  | .ok coins =>
    (coins.foldl (fun currencyMap coin => currencyMap.store (toUpper coin.Symbol) coin.Price)
      GoMap.empty, none)

/-! ## pkg/io/csvsource.go -/

/-- The callback that `ReadCSV` passes to `gocsv.UnmarshalToCallbackWithError`, on the pair of the
slice `batch` and of the batches sent on `dataCh` so far. The counter `numTransactions` only
feeds the log and is left out. The call `make([]RawTransaction, 0, microBatchSize)` yields the
empty slice when `microBatchSize` is not negative; for a negative `microBatchSize` it panics in
Go, which is not embedded. -/
def ReadCSV.callback (microBatchSize : Int) (state : List RawTransaction × List MicroBatch)
    (rt : RawTransaction) : List RawTransaction × List MicroBatch :=
  let batch := state.1 ++ [rt]
  if (batch.length : Int) ≥ microBatchSize then
    ([], state.2 ++ [{ Data := batch, Err := none }])
  else
    (batch, state.2)

/-- The function `ReadCSV`: the batches sent on the returned channel before it is closed, and the
returned error. The argument `stream` is the behaviour of the library call
`gocsv.UnmarshalToCallbackWithError(reader, callback)`: the records it decodes and passes to the
callback, in order, and the error it returns. -/
def ReadCSV (stream : List RawTransaction × Option String) (microBatchSize : Int) :
    List MicroBatch × Option String :=
  let state := stream.1.foldl (ReadCSV.callback microBatchSize) ([], [])
  let dataCh :=
    match stream.2 with
    | some err =>
      state.2 ++ [{ Data := [],
                    Err := some ("an error occured while reading the CSV, error: " ++ err) }]
    | none => state.2
  let dataCh := if state.1.length > 0 then dataCh ++ [{ Data := state.1, Err := none }] else dataCh
  (dataCh, none)

end io

/-! ## pkg/worker/parallel.go -/

namespace worker

/-- The function type `worker.Do`; the outlier channel is passed in and out. -/
abbrev Do := io.MicroBatch → List Outlier → io.Currency2Values →
  (List Agg × Option String) × List Outlier

/-- The body of the loop of `Worker` for one batch, on the pair of the results sent on `out` and
of the outliers sent on `chOutlier` so far. -/
def Worker.step (currencyValues : io.Currency2Values) (worker : Do)
    (state : List AggResult × List Outlier) (batch : io.MicroBatch) :
    List AggResult × List Outlier :=
  match worker batch state.2 currencyValues with
  | ((_, some err), chOutlier) => (state.1 ++ [{ Agg := [], Err := some err }], chOutlier)
  | ((agg, none), chOutlier) => (state.1 ++ [{ Agg := agg, Err := none }], chOutlier)

/-- The function `Worker`, for the batches that this worker receives from `in` until the channel
is closed: the results sent on `out` and the outliers sent on `chOutlier`, after those sent
before. -/
def Worker (input : List io.MicroBatch) (out : List AggResult) (chOutlier : List Outlier)
    (currencyValues : io.Currency2Values) (worker : Do) : List AggResult × List Outlier :=
  input.foldl (Worker.step currencyValues worker) (out, chOutlier)

/-- The function `ParallelProcessing`: the results that the returned channel delivers before it is
closed, and the outliers sent. Each batch of the input channel is taken by exactly one of the
`parallelism` workers, which sends one result for it; the order in which the results of the
workers reach the channel depends on the scheduling and is given by `arrival`, applied to the
results in batch order. Without a worker nothing is sent. The interleaving of the goroutines is
not modelled beyond that. -/
def ParallelProcessing (chInput : List io.MicroBatch) (chOutlier : List Outlier) (worker : Do)
    (currencyValues : io.Currency2Values) (parallelism : Int)
    (arrival : List AggResult → List AggResult) : List AggResult × List Outlier :=
  if parallelism ≤ 0 then ([], chOutlier)
  else
    let sent := Worker chInput [] chOutlier currencyValues worker
    (arrival sent.1, sent.2)

end worker

/-! ## pkg/pipeline/aggpipeline.go -/

namespace pipeline

open worker in
/-- The function `DoAggBatch`. -/
def DoAggBatch (std : GoStd) : Do := fun batch outlierChan currencyValues =>
  match DoCleanup std batch outlierChan with
  | ((_, some err), outlierChan) =>
    (([], some ("failed to clean up batch: " ++ err)), outlierChan)
  | ((cleanedBatch, none), outlierChan) =>
    match worker.DoAgg cleanedBatch currencyValues with
    | (_, some err) => (([], some ("failed to aggregate batch: " ++ err)), outlierChan)
    | (agg, none) => ((agg, none), outlierChan)

/-- What `pipeline.DoAgg` is run with, its readers and sinks being given by their behaviour. -/
structure Env where
  /-- The standard library calls of `DoCleanup`. -/
  std : worker.GoStd
  /-- The library function `strings.ToUpper`. -/
  toUpper : String → String
  /-- The outcome of `gocsv.Unmarshal(currencyReader, &coins)`. -/
  coins : Except String (List io.Coin)
  /-- The records that gocsv decodes from `transactionsReader` and the error it ends with. -/
  stream : List io.RawTransaction × Option String
  /-- The order in which the results of the workers reach the result channel. -/
  arrival : List worker.AggResult → List worker.AggResult
  /-- The method `aggSink.WriteAgg`. -/
  writeAgg : List worker.Agg → Int × Option String

/-- What a run of `pipeline.DoAgg` does: the error it returns, the arguments of its calls of
`aggSink.WriteAgg` in order, the outliers sent on `outlierCh`, and whether it closes
`outlierCh`. -/
structure Run where
  err : Option String
  writeAggCalls : List (List worker.Agg)
  outliers : List worker.Outlier
  outlierChClosed : Bool
deriving DecidableEq

/-- The function `pipeline.DoAgg`. -/
def DoAgg (env : Env) (parallelism microBatchSize : Int) : Run :=
  match io.ReadCurrencyValues env.toUpper env.coins with
  | (_, some err) =>
    { err := some ("failed to read currency values: " ++ err), writeAggCalls := [],
      outliers := [], outlierChClosed := false }
  | (currencyValues, none) =>
    match io.ReadCSV env.stream microBatchSize with
    | (_, some err) =>
      { err := some ("failed to read transactions: " ++ err), writeAggCalls := [],
        outliers := [], outlierChClosed := false }
    | (sourceTransactionCh, none) =>
      let partialAgg := worker.ParallelProcessing sourceTransactionCh [] (DoAggBatch env.std)
        currencyValues parallelism env.arrival
      match worker.DoAggReducer partialAgg.1 with
      | (_, some err) =>
        { err := some ("failed to reduce aggregated transactions: " ++ err),
          writeAggCalls := [], outliers := partialAgg.2, outlierChClosed := false }
      | (agg, none) =>
        match env.writeAgg agg with
        | (_, some err) =>
          { err := some ("failed to write aggregated transactions: " ++ err),
            writeAggCalls := [agg], outliers := partialAgg.2, outlierChClosed := false }
        | (_, none) =>
          { err := none, writeAggCalls := [agg], outliers := partialAgg.2,
            outlierChClosed := true }

end pipeline

/-! ## Vocabulary and inputs for the pipeline -/

namespace worker

/-- The result that `Worker` sends for what the worker function returns. -/
def AggResult.ofReturn (ret : List worker.Agg × Option String) : AggResult :=
  match ret with
  | (_, some err) => { Agg := [], Err := some err }
  | (agg, none) => { Agg := agg, Err := none }

end worker

namespace pipeline

/-- A record stream that delivers the first record of `extract_test.go` and then fails. -/
def brokenStream : List io.RawTransaction × Option String :=
  ([worker.rawOf "2023-10-01 12:00:00" "ProjectA" (worker.propsBlob "USD")
      (worker.numsBlob "100.0")],
    some "record on line 3: wrong number of fields")

/-- A run on `brokenStream` with one coin `usd`, results arriving in batch order, and a sink that
accepts what it is given. -/
def brokenEnv : Env where
  std := worker.goStd
  toUpper := GoStdModel.toUpper
  coins := .ok [{ ID := "usd", Symbol := "usd", Name := "US Dollar", Price := F64.fin 1 }]
  stream := brokenStream
  arrival := fun results => results
  writeAgg := fun aggs => ((aggs.length : Int), none)

end pipeline

namespace pipeline

/-- A run like `brokenEnv` whose currency file cannot be decoded. -/
def unreadableEnv : Env where
  std := worker.goStd
  toUpper := GoStdModel.toUpper
  coins := .error "EOF"
  stream := brokenStream
  arrival := fun results => results
  writeAgg := fun aggs => ((aggs.length : Int), none)

end pipeline


/-! ## pkg/worker/agg.go over the arithmetic of the machine -/

/-- The arithmetic of the machine that runs the code, left open: what `+` and `*` yield on
`float64` values, with whatever rounding and overflow they have, and what `+` yields on `int`
values, with whatever wrapping it has. A theorem proved for every `Arith` holds for the
arithmetic of Go on every platform; a product fused with the sum that follows it, which Go
allows, is the case of a product that is not rounded. -/
structure Arith where
  /-- The sum `a + b` of two `float64` values. -/
  addF : F64 → F64 → F64
  /-- The product `a * b` of two `float64` values. -/
  mulF : F64 → F64 → F64
  /-- The sum `a + b` of two `int` values. -/
  addI : Int → Int → Int

namespace Arith

/-- Exact arithmetic: the sums and products of the rationals and of the integers, without
rounding, overflow or wrapping. -/
def ideal : Arith :=
  { addF := fun a b => a + b, mulF := fun a b => a * b, addI := fun a b => a + b }

/-- The value an `int` of 64 bits holds after an operation whose exact result is `n`: the
representative of `n` modulo `2^64` between `-2^63` and `2^63 - 1`. -/
def wrapInt64 (n : Int) : Int := (n + 2 ^ 63) % 2 ^ 64 - 2 ^ 63

/-- The `int` addition of a platform with 64 bits, which wraps around. The `float64` operations
are the exact ones: they are those of the machine on the values on which the machine does not
round. -/
def wrap64 : Arith :=
  { addF := fun a b => a + b, mulF := fun a b => a * b, addI := fun a b => wrapInt64 (a + b) }

/-- The `float64` sum of a list accumulated from left to right, starting from its first value. -/
def sumF (ar : Arith) : List F64 → F64
  | [] => 0
  | x :: xs => xs.foldl ar.addF x

/-- The `int` sum of a list accumulated from left to right, starting from its first value. -/
def sumI (ar : Arith) : List Int → Int
  | [] => 0
  | x :: xs => xs.foldl ar.addI x

end Arith

namespace worker

namespace machine

/-- The body of the loop of `DoAgg` for one transaction, `Except.error` being the early return:
the product `toUsd * transaction.Volume` and the sum `agg.TotalVolumeUsd += volume` are those of
`ar`. The increment `agg.NumberOfTransactions++` is exact: the counter is at most the number of
records of the batch, the length of a slice, which an `int` holds. -/
def DoAgg.step (ar : Arith) (currencyValues : io.Currency2Values) (aggMap : GoMap Agg)
    (transaction : Transaction) : Except String (GoMap Agg) :=
  match currencyValues.lookup transaction.CurrencySymbol with
  | none => .error ("currency symbol not supported: " ++ transaction.CurrencySymbol)
  | some toUsd =>
    let volume := ar.mulF toUsd transaction.Volume
    let date := transaction.Timestamp.Format
    let key := date ++ "_" ++ transaction.ProjectID
    let agg : Agg :=
      match aggMap.lookup key with
      | some agg => agg
      | none => { Date := date, ProjectId := transaction.ProjectID,
                  NumberOfTransactions := 0, TotalVolumeUsd := 0 }
    let agg := { agg with NumberOfTransactions := agg.NumberOfTransactions + 1,
                          TotalVolumeUsd := ar.addF agg.TotalVolumeUsd volume }
    .ok (aggMap.store key agg)

/-- The loop `for _, transaction := range batch.Data` of `DoAgg`. -/
def DoAgg.loop (ar : Arith) (currencyValues : io.Currency2Values) :
    List Transaction → GoMap Agg → Except String (GoMap Agg)
  | [], aggMap => .ok aggMap
  | transaction :: rest, aggMap =>
    match DoAgg.step ar currencyValues aggMap transaction with
    | .error e => .error e
    | .ok aggMap => DoAgg.loop ar currencyValues rest aggMap

/-- The function `DoAgg` over the arithmetic `ar`: the returned slice and the returned error. -/
def DoAgg (ar : Arith) (batch : MicroBatch) (currencyValues : io.Currency2Values) :
    List Agg × Option String :=
  match DoAgg.loop ar currencyValues batch.Data GoMap.empty with
  | .error e => ([], some e)
  | .ok aggMap => (aggMap.values, none)

/-- The body of the inner loop of `DoAggReducer` for one partial entry: the two `+=` are the `int`
sum and the `float64` sum of `ar`. -/
def DoAggReducer.merge (ar : Arith) (aggMap : GoMap Agg) (agg : Agg) : GoMap Agg :=
  let key := agg.Date ++ "_" ++ agg.ProjectId
  match aggMap.lookup key with
  | none => aggMap.store key agg
  | some existingAgg =>
    aggMap.store key
      { existingAgg with
        NumberOfTransactions := ar.addI existingAgg.NumberOfTransactions agg.NumberOfTransactions,
        TotalVolumeUsd := ar.addF existingAgg.TotalVolumeUsd agg.TotalVolumeUsd }

/-- The loop `for result := range in` of `DoAggReducer`, `Except.error` being the early return. -/
def DoAggReducer.loop (ar : Arith) : List AggResult → GoMap Agg → Except String (GoMap Agg)
  | [], aggMap => .ok aggMap
  | result :: rest, aggMap =>
    match result.Err with
    | some err => .error ("unable to aggregate transactions: " ++ err)
    | none => DoAggReducer.loop ar rest (result.Agg.foldl (DoAggReducer.merge ar) aggMap)

/-- The function `DoAggReducer` over the arithmetic `ar`, on the results the channel delivers
until it is closed. -/
def DoAggReducer (ar : Arith) (results : List AggResult) : List Agg × Option String :=
  match DoAggReducer.loop ar results GoMap.empty with
  | .error e => ([], some e)
  | .ok aggMap => (aggMap.values, none)

end machine

end worker

/-! ## Vocabulary for the arithmetic of the machine -/

/-- Storing, under the key of `x`, what `upd` makes of the entry found under that key. -/
def GoMap.put {α β : Type} (key : α → String) (upd : Option β → α → β) (m : GoMap β) (x : α) :
    GoMap β :=
  m.store (key x) (upd (m.lookup (key x)) x)

namespace worker

/-- The map key `DoAgg` builds for a transaction. -/
def Transaction.key (t : Transaction) : String := t.Timestamp.Format ++ "_" ++ t.ProjectID

/-- The volume in USD that `DoAgg` computes for a transaction over the arithmetic `ar`. -/
def Transaction.usd (ar : Arith) (currencyValues : io.Currency2Values) (t : Transaction) : F64 :=
  ar.mulF (rate currencyValues t.CurrencySymbol) t.Volume

namespace machine

/-- What `DoAgg` stores for a transaction, given what the map holds under its key. -/
def DoAgg.update (ar : Arith) (currencyValues : io.Currency2Values) :
    Option Agg → Transaction → Agg
  | none, t =>
    { Date := t.Timestamp.Format, ProjectId := t.ProjectID, NumberOfTransactions := 0 + 1,
      TotalVolumeUsd := ar.addF 0 (t.usd ar currencyValues) }
  | some e, t =>
    { e with NumberOfTransactions := e.NumberOfTransactions + 1,
             TotalVolumeUsd := ar.addF e.TotalVolumeUsd (t.usd ar currencyValues) }

/-- What `DoAggReducer` stores for a partial entry, given what the map holds under its key. -/
def DoAggReducer.update (ar : Arith) : Option Agg → Agg → Agg
  | none, x => x
  | some e, x =>
    { e with NumberOfTransactions := ar.addI e.NumberOfTransactions x.NumberOfTransactions,
             TotalVolumeUsd := ar.addF e.TotalVolumeUsd x.TotalVolumeUsd }

/-- The entry of a date and project over the transactions of a list with that date and project:
their number, and the `float64` sum of their volumes in USD accumulated from `0` in the order of
the list. -/
def Transaction.total (ar : Arith) (currencyValues : io.Currency2Values) (d p : String)
    (ts : List Transaction) : Agg :=
  { Date := d, ProjectId := p,
    NumberOfTransactions := ((Transaction.group d p ts).length : Int),
    TotalVolumeUsd :=
      ((Transaction.group d p ts).map (Transaction.usd ar currencyValues)).foldl ar.addF 0 }

/-- The entry of a date and project over the entries of a list with that date and project: the
`int` sum of their counts and the `float64` sum of their volumes, both accumulated in the order
of the list from the first of them. -/
def Agg.total (ar : Arith) (d p : String) (aggs : List Agg) : Agg :=
  { Date := d, ProjectId := p,
    NumberOfTransactions := ar.sumI ((Agg.group d p aggs).map Agg.NumberOfTransactions),
    TotalVolumeUsd := ar.sumF ((Agg.group d p aggs).map Agg.TotalVolumeUsd) }

end machine

/-- Transactions like those of `agg_test.go`, with a volume of `0.5` for the third. With the
table `dyadicCurrencyValues` every value, product and sum of the aggregation is a binary fraction
that a `float64` holds exactly, so that exact arithmetic is the arithmetic of the machine. -/
def dyadicTransactions : List Transaction :=
  [⟨⟨2023, 10, 1, 12, 0, 0, 0⟩, "ProjectA", "USD", F64.fin 100⟩,
   ⟨⟨2023, 10, 1, 13, 0, 0, 0⟩, "ProjectA", "EUR", F64.fin 50⟩,
   ⟨⟨2023, 10, 1, 14, 0, 0, 0⟩, "ProjectB", "BTC", F64.fin (1 / 2)⟩,
   ⟨⟨2023, 10, 2, 12, 0, 0, 0⟩, "ProjectA", "USD", F64.fin 200⟩,
   ⟨⟨2023, 10, 2, 13, 0, 0, 0⟩, "ProjectB", "EUR", F64.fin 80⟩]

/-- A currency table like that of `TestDoAgg`, with a rate of `1.25` for `EUR`. -/
def dyadicCurrencyValues : io.Currency2Values :=
  [("USD", F64.fin 1), ("EUR", F64.fin (5 / 4)), ("BTC", F64.fin 60000)]

/-- The aggregates of `dyadicTransactions` under `dyadicCurrencyValues`. -/
def dyadicAggs : List Agg :=
  [⟨"2023-10-01", "ProjectA", 2, F64.fin (325 / 2)⟩,
   ⟨"2023-10-01", "ProjectB", 1, F64.fin 30000⟩,
   ⟨"2023-10-02", "ProjectA", 1, F64.fin 200⟩,
   ⟨"2023-10-02", "ProjectB", 1, F64.fin 100⟩]

end worker

/-! # Theorems -/

namespace GoMap

theorem lookup_store {β : Type} (m : GoMap β) (k k' : String) (v : β) :
    (m.store k v).lookup k' = if k = k' then some v else m.lookup k' := by
  induction m with
  | nil => simp [store, lookup]
  | cons e rest ih =>
    obtain ⟨k0, v0⟩ := e
    by_cases h0 : k0 = k
    · subst h0
      by_cases h1 : k0 = k' <;> simp [store, lookup, h1]
    · by_cases h1 : k = k'
      · subst h1
        simp [store, lookup, h0, ih]
      · by_cases h2 : k0 = k'
        · subst h2
          simp [store, lookup, h0, h1]
        · simp [store, lookup, h0, h1, h2, ih]

theorem keys_store {β : Type} (m : GoMap β) (k : String) (v : β) :
    (m.store k v).keys = if k ∈ m.keys then m.keys else m.keys ++ [k] := by
  induction m with
  | nil => simp [store, keys]
  | cons e rest ih =>
    obtain ⟨k0, v0⟩ := e
    by_cases h0 : k0 = k
    · subst h0
      simp [store, keys]
    · have h0' : ¬ k = k0 := fun h => h0 h.symm
      simp only [keys] at ih
      by_cases h1 : k ∈ List.map Prod.fst rest <;> simp [store, keys, h0, h0', h1, ih]

theorem nodup_store {β : Type} (m : GoMap β) (k : String) (v : β) (h : m.keys.Nodup) :
    (m.store k v).keys.Nodup := by
  rw [keys_store]
  split_ifs with hk
  · exact h
  · exact List.Nodup.append h (List.nodup_singleton k) (by simpa using hk)

theorem lookup_eq_some_of_mem {β : Type} (m : GoMap β) (h : m.keys.Nodup) (k : String) (v : β)
    (hm : (k, v) ∈ (show List (String × β) from m)) : m.lookup k = some v := by
  induction m with
  | nil => simp at hm
  | cons e rest ih =>
    obtain ⟨k0, v0⟩ := e
    simp only [keys, List.map_cons, List.nodup_cons] at h
    rcases List.mem_cons.1 hm with heq | hin
    · cases heq
      simp [lookup]
    · have hne : k0 ≠ k := by
        intro hk
        subst hk
        exact h.1 (List.mem_map.2 ⟨(k0, v), hin, rfl⟩)
      simp only [lookup, hne, if_false]
      exact ih h.2 hin

theorem mem_of_lookup_eq_some {β : Type} (m : GoMap β) (k : String) (v : β)
    (hl : m.lookup k = some v) : (k, v) ∈ (show List (String × β) from m) := by
  induction m with
  | nil => simp [lookup] at hl
  | cons e rest ih =>
    obtain ⟨k0, v0⟩ := e
    by_cases h0 : k0 = k
    · subst h0
      simp only [lookup, if_true, Option.some.injEq] at hl
      subst hl
      exact List.mem_cons_self _ _
    · simp only [lookup, h0, if_false] at hl
      exact List.mem_cons_of_mem _ (ih hl)

theorem mem_values_iff {β : Type} (m : GoMap β) (h : m.keys.Nodup) (v : β) :
    v ∈ m.values ↔ ∃ k, m.lookup k = some v := by
  constructor
  · intro hv
    obtain ⟨⟨k, v'⟩, hin, hv'⟩ := List.mem_map.1 hv
    simp only at hv'
    subst hv'
    exact ⟨k, lookup_eq_some_of_mem m h k v' hin⟩
  · rintro ⟨k, hk⟩
    exact List.mem_map.2 ⟨(k, v), mem_of_lookup_eq_some m k v hk, rfl⟩

end GoMap

theorem append_sep_inj {α : Type} {a : α} {l1 l2 r1 r2 : List α} (h1 : a ∉ l1) (h2 : a ∉ l2)
    (h : l1 ++ a :: r1 = l2 ++ a :: r2) : l1 = l2 ∧ r1 = r2 := by
  induction l1 generalizing l2 with
  | nil =>
    cases l2 with
    | nil => simpa using h
    | cons b l2 =>
      simp only [List.nil_append, List.cons_append, List.cons.injEq] at h
      exact absurd (h.1 ▸ List.mem_cons_self _ _) h2
  | cons c l1 ih =>
    cases l2 with
    | nil =>
      simp only [List.nil_append, List.cons_append, List.cons.injEq] at h
      exact absurd (h.1 ▸ List.mem_cons_self _ _) h1
    | cons b l2 =>
      simp only [List.cons_append, List.cons.injEq] at h
      have := ih (fun hc => h1 (List.mem_cons_of_mem _ hc))
        (fun hc => h2 (List.mem_cons_of_mem _ hc)) h.2
      exact ⟨by rw [h.1, this.1], this.2⟩

namespace worker

theorem key_data (d p : String) : (d ++ "_" ++ p).data = d.data ++ '_' :: p.data := by
  simp [String.data_append]

theorem key_inj {d1 p1 d2 p2 : String} (h1 : '_' ∉ d1.data) (h2 : '_' ∉ d2.data) :
    d1 ++ "_" ++ p1 = d2 ++ "_" ++ p2 ↔ d1 = d2 ∧ p1 = p2 := by
  constructor
  · intro h
    have hd : (d1 ++ "_" ++ p1).data = (d2 ++ "_" ++ p2).data := by rw [h]
    rw [key_data, key_data] at hd
    obtain ⟨ha, hb⟩ := append_sep_inj h1 h2 hd
    exact ⟨String.ext ha, String.ext hb⟩
  · rintro ⟨rfl, rfl⟩
    rfl

theorem Agg.key_eq_iff {x y : Agg} (hx : '_' ∉ x.Date.data) (hy : '_' ∉ y.Date.data) :
    x.key = y.key ↔ x.Date = y.Date ∧ x.ProjectId = y.ProjectId :=
  key_inj hx hy

theorem DoAggReducer.merge_eq (m : GoMap Agg) (x : Agg) :
    DoAggReducer.merge m x = m.store x.key (Agg.combine (m.lookup x.key) x) := by
  unfold DoAggReducer.merge
  show (match m.lookup x.key with
    | none => m.store x.key x
    | some existingAgg => m.store x.key _) = _
  cases m.lookup x.key <;> rfl

theorem DoAggReducer.lookup_merge (m : GoMap Agg) (x : Agg) (k : String) :
    (DoAggReducer.merge m x).lookup k
      = if x.key = k then some (Agg.combine (m.lookup k) x) else m.lookup k := by
  rw [DoAggReducer.merge_eq, GoMap.lookup_store]
  by_cases h : x.key = k
  · subst h
    simp
  · simp [h]

theorem DoAggReducer.lookup_foldl_merge (xs : List Agg) (m : GoMap Agg) (k : String) :
    (xs.foldl DoAggReducer.merge m).lookup k
      = (xs.filter fun x => decide (x.key = k)).foldl (fun o x => some (Agg.combine o x))
          (m.lookup k) := by
  induction xs generalizing m with
  | nil => rfl
  | cons x xs ih =>
    simp only [List.foldl_cons, ih, DoAggReducer.lookup_merge]
    by_cases h : x.key = k <;> simp [List.filter_cons, h]

theorem DoAggReducer.nodup_foldl_merge (xs : List Agg) (m : GoMap Agg) (h : m.keys.Nodup) :
    (xs.foldl DoAggReducer.merge m).keys.Nodup := by
  induction xs generalizing m with
  | nil => exact h
  | cons x xs ih =>
    simp only [List.foldl_cons]
    apply ih
    rw [DoAggReducer.merge_eq]
    exact GoMap.nodup_store _ _ _ h

theorem Agg.combine_none (x : Agg) : Agg.combine none x = x := rfl

theorem Agg.combine_some (e x : Agg) :
    Agg.combine (some e) x
      = { e with NumberOfTransactions := e.NumberOfTransactions + x.NumberOfTransactions,
                 TotalVolumeUsd := e.TotalVolumeUsd + x.TotalVolumeUsd } := rfl

theorem Agg.foldl_combine_some (e : Agg) (ys : List Agg) :
    ys.foldl (fun o x => some (Agg.combine o x)) (some e)
      = some { e with
          NumberOfTransactions := e.NumberOfTransactions + (ys.map Agg.NumberOfTransactions).sum,
          TotalVolumeUsd := e.TotalVolumeUsd + (ys.map Agg.TotalVolumeUsd).sum } := by
  induction ys generalizing e with
  | nil => simp
  | cons y ys ih =>
    rw [List.foldl_cons, Agg.combine_some, ih]
    simp [add_assoc]

theorem Agg.foldl_combine_none (y : Agg) (ys : List Agg) :
    (y :: ys).foldl (fun o x => some (Agg.combine o x)) none
      = some { y with
          NumberOfTransactions := ((y :: ys).map Agg.NumberOfTransactions).sum,
          TotalVolumeUsd := ((y :: ys).map Agg.TotalVolumeUsd).sum } := by
  rw [List.foldl_cons, Agg.combine_none, Agg.foldl_combine_some]
  simp

/-- Under a key that some entry of the list has, the merged map holds the total of the date and
project of that entry, when no date of the list contains the separator of the keys. -/
theorem DoAggReducer.lookup_foldl_merge_key (xs : List Agg) (h : ∀ x ∈ xs, '_' ∉ x.Date.data)
    (y : Agg) (hy : y ∈ xs) :
    (xs.foldl DoAggReducer.merge GoMap.empty).lookup y.key
      = some (Agg.total y.Date y.ProjectId xs) := by
  rw [DoAggReducer.lookup_foldl_merge]
  have hfil : (xs.filter fun x => decide (x.key = y.key)) = Agg.group y.Date y.ProjectId xs := by
    unfold Agg.group
    apply List.filter_congr
    intro x hx
    simp only [decide_eq_decide]
    exact Agg.key_eq_iff (h x hx) (h y hy)
  rw [hfil]
  have hmem : y ∈ Agg.group y.Date y.ProjectId xs := by
    unfold Agg.group
    simp [List.mem_filter, hy]
  have hall : ∀ z ∈ Agg.group y.Date y.ProjectId xs, z.Date = y.Date ∧ z.ProjectId = y.ProjectId := by
    intro z hz
    unfold Agg.group at hz
    simpa using (List.mem_filter.1 hz).2
  unfold Agg.total
  cases hg : Agg.group y.Date y.ProjectId xs with
  | nil => rw [hg] at hmem; simp at hmem
  | cons z zs =>
    have hz := hall z (by rw [hg]; exact List.mem_cons_self _ _)
    show List.foldl _ none (z :: zs) = _
    rw [Agg.foldl_combine_none]
    simp [hz.1, hz.2]

/-- Under a key that no entry of the list has, the merged map holds nothing. -/
theorem DoAggReducer.lookup_foldl_merge_none (xs : List Agg) (k : String)
    (hk : ∀ x ∈ xs, x.key ≠ k) :
    (xs.foldl DoAggReducer.merge GoMap.empty).lookup k = none := by
  rw [DoAggReducer.lookup_foldl_merge]
  have : (xs.filter fun x => decide (x.key = k)) = [] := by
    apply List.filter_eq_nil_iff.2
    intro x hx
    simpa using hk x hx
  rw [this]
  rfl

/-- The entries of the merged map: one per date and project of the list, holding the total. -/
theorem DoAggReducer.mem_values_foldl_merge (xs : List Agg) (h : ∀ x ∈ xs, '_' ∉ x.Date.data)
    (a : Agg) :
    a ∈ (xs.foldl DoAggReducer.merge GoMap.empty).values
      ↔ (∃ x ∈ xs, x.Date = a.Date ∧ x.ProjectId = a.ProjectId)
        ∧ a = Agg.total a.Date a.ProjectId xs := by
  rw [GoMap.mem_values_iff _ (DoAggReducer.nodup_foldl_merge xs GoMap.empty List.nodup_nil)]
  constructor
  · rintro ⟨k, hk⟩
    by_cases hex : ∃ y ∈ xs, y.key = k
    · obtain ⟨y, hy, rfl⟩ := hex
      rw [DoAggReducer.lookup_foldl_merge_key xs h y hy] at hk
      have ha : a = Agg.total y.Date y.ProjectId xs := (Option.some.inj hk).symm
      have hd : a.Date = y.Date := by rw [ha]; rfl
      have hp : a.ProjectId = y.ProjectId := by rw [ha]; rfl
      exact ⟨⟨y, hy, hd.symm, hp.symm⟩, by rw [hd, hp]; exact ha⟩
    · rw [DoAggReducer.lookup_foldl_merge_none xs k (fun x hx hxk => hex ⟨x, hx, hxk⟩)] at hk
      cases hk
  · rintro ⟨⟨y, hy, hd, hp⟩, ha⟩
    refine ⟨y.key, ?_⟩
    rw [DoAggReducer.lookup_foldl_merge_key xs h y hy, hd, hp, ← ha]

end worker

/-! ## The date format -/

theorem digitChar_ne_sep (n : Nat) (h : n < 10) : Nat.digitChar n ≠ '_' := by
  interval_cases n <;> decide

theorem toDigitsCore_no_sep (fuel n : Nat) (acc : List Char) (h : '_' ∉ acc) :
    '_' ∉ Nat.toDigitsCore 10 fuel n acc := by
  induction fuel generalizing n acc with
  | zero => simpa [Nat.toDigitsCore] using h
  | succ fuel ih =>
    have hd : '_' ∉ Nat.digitChar (n % 10) :: acc := by
      intro hc
      rcases List.mem_cons.1 hc with heq | hin
      · exact digitChar_ne_sep (n % 10) (Nat.mod_lt _ (by norm_num)) heq.symm
      · exact h hin
    unfold Nat.toDigitsCore
    by_cases h0 : n / 10 = 0
    · simpa [h0] using hd
    · simp only [h0, if_false]
      exact ih (n / 10) _ hd

theorem appendInt_no_sep (x : Int) (width : Nat) : '_' ∉ appendInt x width := by
  unfold appendInt
  have hd : '_' ∉ Nat.toDigits 10 x.natAbs := toDigitsCore_no_sep _ _ [] (by simp)
  simp only [List.mem_append, not_or]
  refine ⟨⟨?_, ?_⟩, hd⟩
  · split_ifs <;> simp
  · intro hc
    have := List.eq_of_mem_replicate hc
    exact absurd this (by decide)

theorem Time.Format_no_sep (t : Time) : '_' ∉ t.Format.data := by
  unfold Time.Format
  simp only [List.mem_append, List.mem_cons, not_or]
  exact ⟨⟨appendInt_no_sep _ _, by decide, appendInt_no_sep _ _⟩, by decide, appendInt_no_sep _ _⟩

namespace worker

/-! ## DoAggReducer -/

theorem DoAggReducer.loop_eq_foldl (rs : List AggResult) (m : GoMap Agg)
    (h : ∀ r ∈ rs, r.Err = none) :
    DoAggReducer.loop rs m = .ok ((rs.flatMap AggResult.Agg).foldl DoAggReducer.merge m) := by
  induction rs generalizing m with
  | nil => rfl
  | cons r rs ih =>
    have hr : r.Err = none := h r (List.mem_cons_self _ _)
    simp only [DoAggReducer.loop, hr, List.flatMap_cons, List.foldl_append]
    exact ih _ (fun r' hr' => h r' (List.mem_cons_of_mem _ hr'))

theorem DoAggReducer_ok (rs : List AggResult) (h : ∀ r ∈ rs, r.Err = none) :
    DoAggReducer rs
      = (((rs.flatMap AggResult.Agg).foldl DoAggReducer.merge GoMap.empty).values, none) := by
  unfold DoAggReducer
  rw [DoAggReducer.loop_eq_foldl rs _ h]

theorem Agg.total_perm (d p : String) {xs ys : List Agg} (h : xs.Perm ys) :
    Agg.total d p xs = Agg.total d p ys := by
  unfold Agg.total Agg.group
  have hf := h.filter (fun x => decide (x.Date = d ∧ x.ProjectId = p))
  rw [(hf.map Agg.NumberOfTransactions).sum_eq, (hf.map Agg.TotalVolumeUsd).sum_eq]

/-! ## DoAgg -/

theorem rate_eq {cv : io.Currency2Values} {s : String} {v : F64} (h : cv.lookup s = some v) :
    rate cv s = v := by
  simp [rate, h]

theorem DoAgg.step_ok (cv : io.Currency2Values) (m : GoMap Agg) (t : Transaction)
    (h : cv.lookup t.CurrencySymbol ≠ none) :
    DoAgg.step cv m t = .ok (DoAggReducer.merge m (t.toAgg cv)) := by
  obtain ⟨v, hv⟩ := Option.ne_none_iff_exists'.1 h
  rw [DoAggReducer.merge_eq]
  unfold DoAgg.step
  simp only [hv]
  have hk : (t.toAgg cv).key = t.Timestamp.Format ++ "_" ++ t.ProjectID := rfl
  rw [hk]
  cases hl : m.lookup (t.Timestamp.Format ++ "_" ++ t.ProjectID) with
  | none =>
    simp only [Agg.combine_none, Transaction.toAgg, rate_eq hv, zero_add]
  | some e =>
    simp only [Agg.combine_some, Transaction.toAgg, rate_eq hv]

theorem DoAgg.loop_eq_merge (cv : io.Currency2Values) (ts : List Transaction) (m : GoMap Agg)
    (h : ∀ t ∈ ts, cv.lookup t.CurrencySymbol ≠ none) :
    DoAgg.loop cv ts m
      = .ok ((ts.map (Transaction.toAgg cv)).foldl DoAggReducer.merge m) := by
  induction ts generalizing m with
  | nil => rfl
  | cons t ts ih =>
    simp only [DoAgg.loop, DoAgg.step_ok cv m t (h t (List.mem_cons_self _ _)), List.map_cons,
      List.foldl_cons]
    exact ih _ (fun t' ht' => h t' (List.mem_cons_of_mem _ ht'))

theorem DoAgg.loop_error (cv : io.Currency2Values) (ts : List Transaction) (m : GoMap Agg)
    (h : ∃ t ∈ ts, cv.lookup t.CurrencySymbol = none) :
    ∃ e, DoAgg.loop cv ts m = .error e := by
  induction ts generalizing m with
  | nil => simp at h
  | cons t ts ih =>
    by_cases ht : cv.lookup t.CurrencySymbol = none
    · exact ⟨"currency symbol not supported: " ++ t.CurrencySymbol,
        by simp [DoAgg.loop, DoAgg.step, ht]⟩
    · have hrest : ∃ t' ∈ ts, cv.lookup t'.CurrencySymbol = none := by
        obtain ⟨t', ht', hn⟩ := h
        rcases List.mem_cons.1 ht' with rfl | hin
        · exact absurd hn ht
        · exact ⟨t', hin, hn⟩
      simp only [DoAgg.loop, DoAgg.step_ok cv m t ht]
      exact ih _ hrest

theorem DoAgg_ok (batch : MicroBatch) (cv : io.Currency2Values)
    (h : ∀ t ∈ batch.Data, cv.lookup t.CurrencySymbol ≠ none) :
    DoAgg batch cv
      = (((batch.Data.map (Transaction.toAgg cv)).foldl DoAggReducer.merge GoMap.empty).values,
          none) := by
  unfold DoAgg
  rw [DoAgg.loop_eq_merge cv _ _ h]

theorem Transaction.group_toAgg (cv : io.Currency2Values) (d p : String)
    (ts : List Transaction) :
    Agg.group d p (ts.map (Transaction.toAgg cv))
      = (Transaction.group d p ts).map (Transaction.toAgg cv) := by
  unfold Agg.group Transaction.group
  rw [List.filter_map]
  rfl

theorem Transaction.sum_count (cv : io.Currency2Values) (ts : List Transaction) :
    ((ts.map (Transaction.toAgg cv)).map Agg.NumberOfTransactions).sum = (ts.length : Int) := by
  induction ts with
  | nil => rfl
  | cons t ts ih =>
    simp only [List.map_cons, List.sum_cons, ih, List.length_cons, Transaction.toAgg]
    push_cast
    ring

end worker

/-! ## float64 comparisons -/

namespace F64

theorem zero_def : (0 : F64) = fin 0 := rfl

theorem lt_eq_false_iff_le (a b : F64) (ha : a ≠ nan) (hb : b ≠ nan) :
    lt a b = false ↔ le b a = true := by
  cases a <;> cases b <;> simp_all [lt, le]

theorem isFinite_of_le_fin (v : F64) (q : ℚ) (h0 : le 0 v = true) (h1 : le v (fin q) = true) :
    isFinite v = true := by
  cases v <;> simp_all [le, isFinite, zero_def]

end F64

namespace worker

/-! ## DoCleanup -/

theorem DoCleanup.step_cases (std : GoStd) (state : List Transaction × List Outlier)
    (rt : io.RawTransaction) :
    (∃ t, DoCleanup.step std state rt = (state.1 ++ [t], state.2)) ∨
    (∃ o, o.RawTransaction = rt ∧ DoCleanup.step std state rt = (state.1, state.2 ++ [o])) := by
  unfold DoCleanup.step
  split
  · exact Or.inr ⟨_, rfl, rfl⟩
  · split
    · exact Or.inr ⟨_, rfl, rfl⟩
    · split
      · exact Or.inr ⟨_, rfl, rfl⟩
      · split
        · exact Or.inr ⟨_, rfl, rfl⟩
        · split
          · exact Or.inr ⟨_, rfl, rfl⟩
          · exact Or.inl ⟨_, rfl⟩

theorem DoCleanup.foldl_step_length (std : GoStd) (data : List io.RawTransaction)
    (state : List Transaction × List Outlier) :
    ∃ sent, (data.foldl (DoCleanup.step std) state).2 = state.2 ++ sent ∧
      (data.foldl (DoCleanup.step std) state).1.length + sent.length
        = state.1.length + data.length := by
  induction data generalizing state with
  | nil => exact ⟨[], by simp, by simp⟩
  | cons rt data ih =>
    obtain ⟨sent, h2, hlen⟩ := ih (DoCleanup.step std state rt)
    rcases DoCleanup.step_cases std state rt with ⟨t, ht⟩ | ⟨o, _, ho⟩
    · refine ⟨sent, ?_, ?_⟩
      · rw [List.foldl_cons, h2, ht]
      · have h1 : (DoCleanup.step std state rt).1.length = state.1.length + 1 := by
          rw [ht]
          simp
        rw [List.foldl_cons, List.length_cons]
        omega
    · refine ⟨o :: sent, ?_, ?_⟩
      · rw [List.foldl_cons, h2, ho]
        simp
      · have h1 : (DoCleanup.step std state rt).1.length = state.1.length := by
          rw [ho]
        rw [List.foldl_cons, List.length_cons, List.length_cons]
        omega

/-- C3. `DoCleanup` never returns an error; the outliers it sends are appended to the channel and,
together with the canonical records it returns, they are as many as the raw records of the batch;
and the loop body, run on one raw record, either appends one canonical record and sends nothing, or
sends one outlier carrying that record and appends nothing, never both. -/
theorem DoCleanup_classifies (std : GoStd) (batch : io.MicroBatch) (outlierChan : List Outlier) :
    (DoCleanup std batch outlierChan).1.2 = none ∧
    (DoCleanup std batch outlierChan).1.1.Err = none ∧
    (∃ sent, (DoCleanup std batch outlierChan).2 = outlierChan ++ sent ∧
      (DoCleanup std batch outlierChan).1.1.Data.length + sent.length = batch.Data.length) ∧
    ∀ (state : List Transaction × List Outlier) (rt : io.RawTransaction),
      Xor' (∃ t, DoCleanup.step std state rt = (state.1 ++ [t], state.2))
        (∃ o, o.RawTransaction = rt ∧
          DoCleanup.step std state rt = (state.1, state.2 ++ [o])) := by
  refine ⟨rfl, rfl, ?_, ?_⟩
  · obtain ⟨sent, h2, hlen⟩ := DoCleanup.foldl_step_length std batch.Data ([], outlierChan)
    exact ⟨sent, h2, by simpa using hlen⟩
  · intro state rt
    rcases DoCleanup.step_cases std state rt with ⟨t, ht⟩ | ⟨o, hr, ho⟩
    · refine Or.inl ⟨⟨t, ht⟩, ?_⟩
      rintro ⟨o, _, ho⟩
      rw [ht] at ho
      have := congrArg (fun s => s.2.length) ho
      simp at this
    · refine Or.inr ⟨⟨o, hr, ho⟩, ?_⟩
      rintro ⟨t, ht⟩
      rw [ho] at ht
      have := congrArg (fun s => s.1.length) ht
      simp at this

/-- The test `TestDoCleanup`: of the seven raw records, three are made canonical and four are sent
as outliers. -/
theorem DoCleanup_classifies_witness :
    (DoCleanup goStd { Data := rawTransactions, Err := none } []).1
      = ({ Data := expectedTransactions, Err := none }, none) ∧
    (DoCleanup goStd { Data := rawTransactions, Err := none } []).2.map
        (fun o => o.RawTransaction.ProjectID)
      = ["ProjectC", "ProjectD", "ProjectE", "ProjectF"] ∧
    (DoCleanup goStd { Data := rawTransactions, Err := none } []).1.2 = none :=
  ⟨by decide!, by decide!,
    (DoCleanup_classifies goStd { Data := rawTransactions, Err := none } []).1⟩

end worker

namespace worker

theorem Contains.append_right {a sub : String} (h : Contains a sub) (b : String) :
    Contains (a ++ b) sub := by
  unfold Contains at h ⊢
  rw [String.data_append]
  exact List.IsInfix.trans h (List.infix_append' [] a.data b.data)

theorem DoCleanup.step_of_parsed (std : GoStd) (state : List Transaction × List Outlier)
    (rt : io.RawTransaction) (t : Time) (n : numsJson) (p : propsJson) (v : F64)
    (ht : std.timeParse rt.Timestamp = .ok t) (hn : std.jsonUnmarshalNums rt.Nums = .ok n)
    (hp : std.jsonUnmarshalProps rt.Props = .ok p)
    (hv : std.parseFloat n.CurrencyValueDecimal = .ok v) :
    DoCleanup.step std state rt
      = if F64.lt v 0 || F64.gt v MaxVolumeThreshold then
          (state.1, state.2 ++ [{ RawTransaction := rt,
                                  Reason := "volume over threshold: " ++ std.sprintfF v }])
        else
          (state.1 ++ [{ Timestamp := t, ProjectID := rt.ProjectID,
                         CurrencySymbol := p.CurrencySymbol, Volume := v }], state.2) := by
  simp only [DoCleanup.step, ht, hn, hp, hv]

theorem DoCleanup.not_both {state : List Transaction × List Outlier} {c : Transaction}
    {o : Outlier} : (state.1 ++ [c], state.2) ≠ (state.1, state.2 ++ [o]) := by
  intro h
  have := congrArg (fun s => s.1.length) h
  simp at this

/-- The volume and the symbol of a canonical record: the parsed amount, which is neither below
zero nor above the threshold, and the parsed symbol as it is written. -/
theorem DoCleanup.step_canonical (std : GoStd) (state : List Transaction × List Outlier)
    (rt : io.RawTransaction) (c : Transaction)
    (h : DoCleanup.step std state rt = (state.1 ++ [c], state.2)) :
    ∃ t n p v, std.timeParse rt.Timestamp = .ok t ∧ std.jsonUnmarshalNums rt.Nums = .ok n ∧
      std.jsonUnmarshalProps rt.Props = .ok p ∧
      std.parseFloat n.CurrencyValueDecimal = .ok v ∧
      F64.lt v 0 = false ∧ F64.gt v MaxVolumeThreshold = false ∧
      c = { Timestamp := t, ProjectID := rt.ProjectID,
            CurrencySymbol := p.CurrencySymbol, Volume := v } := by
  cases ht : std.timeParse rt.Timestamp with
  | error e =>
    simp only [DoCleanup.step, ht] at h
    exact absurd h.symm DoCleanup.not_both
  | ok t =>
  cases hn : std.jsonUnmarshalNums rt.Nums with
  | error e =>
    simp only [DoCleanup.step, ht, hn] at h
    exact absurd h.symm DoCleanup.not_both
  | ok n =>
  cases hp : std.jsonUnmarshalProps rt.Props with
  | error e =>
    simp only [DoCleanup.step, ht, hn, hp] at h
    exact absurd h.symm DoCleanup.not_both
  | ok p =>
  cases hv : std.parseFloat n.CurrencyValueDecimal with
  | error e =>
    simp only [DoCleanup.step, ht, hn, hp, hv] at h
    exact absurd h.symm DoCleanup.not_both
  | ok v =>
    rw [DoCleanup.step_of_parsed std state rt t n p v ht hn hp hv] at h
    by_cases hr : (F64.lt v 0 || F64.gt v MaxVolumeThreshold) = true
    · rw [if_pos hr] at h
      exact absurd h.symm DoCleanup.not_both
    · rw [if_neg hr] at h
      simp only [Bool.or_eq_true, not_or, Bool.not_eq_true] at hr
      have hc : c = ⟨t, rt.ProjectID, p.CurrencySymbol, v⟩ := by
        have h1 := congrArg Prod.fst h
        simp only [List.append_cancel_left_eq, List.cons.injEq, and_true] at h1
        exact h1.symm
      exact ⟨t, n, p, v, rfl, rfl, rfl, hv, hr.1, hr.2, hc⟩

/-- The volume of a canonical record is NaN, or finite and between zero and the threshold. -/
theorem DoCleanup.step_volume_range (std : GoStd) (state : List Transaction × List Outlier)
    (rt : io.RawTransaction) (c : Transaction)
    (h : DoCleanup.step std state rt = (state.1 ++ [c], state.2)) :
    c.Volume = F64.nan ∨
    (F64.isFinite c.Volume = true ∧ F64.le 0 c.Volume = true ∧
      F64.le c.Volume MaxVolumeThreshold = true) := by
  obtain ⟨t, n, p, v, _, _, _, _, h0, h1, rfl⟩ := DoCleanup.step_canonical std state rt c h
  by_cases hv : v = F64.nan
  · exact Or.inl hv
  · have h0' := (F64.lt_eq_false_iff_le v 0 hv (by simp [F64.zero_def])).1 h0
    have h1' := (F64.lt_eq_false_iff_le MaxVolumeThreshold v (by simp [MaxVolumeThreshold]) hv).1 h1
    exact Or.inr ⟨F64.isFinite_of_le_fin v _ h0' h1', h0', h1'⟩

/-- C4, as stated, fails: a record whose currency blob is the empty object, without a
`currencySymbol` member, is made canonical, with the empty symbol. -/
theorem DoCleanup_canonical_iff_counterexample :
    let rt := rawOf "2023-10-01 12:00:00" "ProjectA" "\x7b\x7d" (numsBlob "100.0")
    DoCleanup goStd { Data := [rt], Err := none } []
      = (({ Data := [⟨⟨2023, 10, 1, 12, 0, 0, 0⟩, "ProjectA", "", F64.fin 100⟩], Err := none },
          none), []) := by
  decide!

/-- C4 (amended). For a raw record whose amount text does not parse to NaN, the loop body of
`DoCleanup` appends a canonical record if and only if the timestamp parses, the volume blob
unmarshals and its `currencyValueDecimal` text parses as a float `v`, the currency blob unmarshals
(a blob without a `currencySymbol` member unmarshals, to the empty symbol), and
`0 <= v <= MaxVolumeThreshold`. -/
theorem DoCleanup_canonical_iff (std : GoStd) (state : List Transaction × List Outlier)
    (rt : io.RawTransaction)
    (hnan : ∀ n, std.jsonUnmarshalNums rt.Nums = .ok n →
      std.parseFloat n.CurrencyValueDecimal ≠ .ok F64.nan) :
    (∃ c, DoCleanup.step std state rt = (state.1 ++ [c], state.2)) ↔
    ∃ t n p v, std.timeParse rt.Timestamp = .ok t ∧ std.jsonUnmarshalNums rt.Nums = .ok n ∧
      std.jsonUnmarshalProps rt.Props = .ok p ∧
      std.parseFloat n.CurrencyValueDecimal = .ok v ∧
      F64.le 0 v = true ∧ F64.le v MaxVolumeThreshold = true := by
  constructor
  · rintro ⟨c, hc⟩
    obtain ⟨t, n, p, v, ht, hn, hp, hv, h0, h1, _⟩ := DoCleanup.step_canonical std state rt c hc
    have hv' : v ≠ F64.nan := fun hvn => hnan n hn (hvn ▸ hv)
    refine ⟨t, n, p, v, ht, hn, hp, hv, ?_, ?_⟩
    · exact (F64.lt_eq_false_iff_le v 0 hv' (by simp [F64.zero_def])).1 h0
    · exact (F64.lt_eq_false_iff_le MaxVolumeThreshold v (by simp [MaxVolumeThreshold]) hv').1 h1
  · rintro ⟨t, n, p, v, ht, hn, hp, hv, h0, h1⟩
    have hv' : v ≠ F64.nan := fun hvn => hnan n hn (hvn ▸ hv)
    have h0' := (F64.lt_eq_false_iff_le v 0 hv' (by simp [F64.zero_def])).2 h0
    have h1' : F64.gt v MaxVolumeThreshold = false :=
      (F64.lt_eq_false_iff_le MaxVolumeThreshold v (by simp [MaxVolumeThreshold]) hv').2 h1
    rw [DoCleanup.step_of_parsed std state rt t n p v ht hn hp hv]
    simp [h0', h1']

/-- The first record of the test `TestDoCleanup` is made canonical. -/
theorem DoCleanup_canonical_iff_witness :
    let rt := rawOf "2023-10-01 12:00:00" "ProjectA" (propsBlob "USD") (numsBlob "100.0")
    (∀ n, goStd.jsonUnmarshalNums rt.Nums = .ok n →
      goStd.parseFloat n.CurrencyValueDecimal ≠ .ok F64.nan) ∧
    DoCleanup.step goStd ([], []) rt
      = ([⟨⟨2023, 10, 1, 12, 0, 0, 0⟩, "ProjectA", "USD", F64.fin 100⟩], []) ∧
    ((∃ c, DoCleanup.step goStd ([], []) rt = (([] : List Transaction) ++ [c], [])) ↔
    ∃ t n p v, goStd.timeParse rt.Timestamp = .ok t ∧ goStd.jsonUnmarshalNums rt.Nums = .ok n ∧
      goStd.jsonUnmarshalProps rt.Props = .ok p ∧
      goStd.parseFloat n.CurrencyValueDecimal = .ok v ∧
      F64.le 0 v = true ∧ F64.le v MaxVolumeThreshold = true) := by
  have hn : goStd.jsonUnmarshalNums
      (rawOf "2023-10-01 12:00:00" "ProjectA" (propsBlob "USD") (numsBlob "100.0")).Nums
        = .ok ⟨"100.0"⟩ := by decide!
  have hnan : ∀ n, goStd.jsonUnmarshalNums
      (rawOf "2023-10-01 12:00:00" "ProjectA" (propsBlob "USD") (numsBlob "100.0")).Nums = .ok n →
      goStd.parseFloat n.CurrencyValueDecimal ≠ .ok F64.nan := by
    intro n h
    rw [hn] at h
    cases h
    decide!
  exact ⟨hnan, by decide!, DoCleanup_canonical_iff goStd ([], []) _ hnan⟩

end worker

namespace worker

theorem DoCleanup.outlier_eq {state : List Transaction × List Outlier} {o o' : Outlier}
    (h : (state.1, state.2 ++ [o']) = (state.1, state.2 ++ [o])) : o = o' := by
  have h1 := congrArg Prod.snd h
  simp only [List.append_cancel_left_eq, List.cons.injEq, and_true] at h1
  exact h1.symm

/-- C5, as stated, fails: for a record whose volume blob is valid JSON with an amount text that
is no number, and whose currency blob is not JSON, the outlier carries the reason of the currency
blob, not that of the volume blob. -/
theorem DoCleanup_reason_counterexample :
    let rt := rawOf "2023-10-01 12:00:00" "ProjectA" "invalid-json" (numsBlob "abc")
    let out := DoCleanup goStd { Data := [rt], Err := none } []
    out.1.1.Data = [] ∧ out.2.map Outlier.RawTransaction = [rt] ∧
    ∀ o ∈ out.2,
      Contains o.Reason "invalid JSON format in Props field" ∧
      ¬ Contains o.Reason "invalid JSON format in Nums field" := by
  decide!

/-- C5 (amended). The reason of the outlier the loop body of `DoCleanup` sends for a raw record is
that of the first failing step in the order of the code: the timestamp ("invalid timestamp
format"), the JSON of the volume blob ("invalid JSON format in Nums field"), the JSON of the
currency blob ("invalid JSON format in Props field"), the amount text as a float ("invalid volume
format"), the range check ("volume over threshold", the amount then being below zero or above the
threshold). -/
theorem DoCleanup_reason (std : GoStd) (state : List Transaction × List Outlier)
    (rt : io.RawTransaction) (o : Outlier)
    (h : DoCleanup.step std state rt = (state.1, state.2 ++ [o])) :
    o.RawTransaction = rt ∧
    ((∃ e, std.timeParse rt.Timestamp = .error e) →
      Contains o.Reason "invalid timestamp format") ∧
    (∀ t, std.timeParse rt.Timestamp = .ok t →
      (∃ e, std.jsonUnmarshalNums rt.Nums = .error e) →
      Contains o.Reason "invalid JSON format in Nums field") ∧
    (∀ t n, std.timeParse rt.Timestamp = .ok t → std.jsonUnmarshalNums rt.Nums = .ok n →
      (∃ e, std.jsonUnmarshalProps rt.Props = .error e) →
      Contains o.Reason "invalid JSON format in Props field") ∧
    (∀ t n p, std.timeParse rt.Timestamp = .ok t → std.jsonUnmarshalNums rt.Nums = .ok n →
      std.jsonUnmarshalProps rt.Props = .ok p →
      (∃ e, std.parseFloat n.CurrencyValueDecimal = .error e) →
      Contains o.Reason "invalid volume format") ∧
    (∀ t n p v, std.timeParse rt.Timestamp = .ok t → std.jsonUnmarshalNums rt.Nums = .ok n →
      std.jsonUnmarshalProps rt.Props = .ok p →
      std.parseFloat n.CurrencyValueDecimal = .ok v →
      Contains o.Reason "volume over threshold" ∧
      (F64.lt v 0 = true ∨ F64.gt v MaxVolumeThreshold = true)) := by
  have hrt : o.RawTransaction = rt := by
    rcases DoCleanup.step_cases std state rt with ⟨c, hc⟩ | ⟨o', hr, ho'⟩
    · rw [hc] at h
      exact absurd h DoCleanup.not_both
    · rw [ho'] at h
      rw [DoCleanup.outlier_eq h]
      exact hr
  refine ⟨hrt, ?_, ?_, ?_, ?_, ?_⟩
  · rintro ⟨e, he⟩
    simp only [DoCleanup.step, he] at h
    rw [DoCleanup.outlier_eq h]
    exact Contains.append_right (by decide) e
  · rintro t ht ⟨e, he⟩
    simp only [DoCleanup.step, ht, he] at h
    rw [DoCleanup.outlier_eq h]
    exact Contains.append_right (by decide) e
  · rintro t n ht hn ⟨e, he⟩
    simp only [DoCleanup.step, ht, hn, he] at h
    rw [DoCleanup.outlier_eq h]
    exact Contains.append_right (by decide) e
  · rintro t n p ht hn hp ⟨e, he⟩
    simp only [DoCleanup.step, ht, hn, hp, he] at h
    rw [DoCleanup.outlier_eq h]
    exact Contains.append_right (by decide) e
  · intro t n p v ht hn hp hv
    rw [DoCleanup.step_of_parsed std state rt t n p v ht hn hp hv] at h
    by_cases hr : (F64.lt v 0 || F64.gt v MaxVolumeThreshold) = true
    · rw [if_pos hr] at h
      rw [DoCleanup.outlier_eq h]
      exact ⟨Contains.append_right (by decide) _, by simpa using hr⟩
    · rw [if_neg hr] at h
      exact absurd h DoCleanup.not_both

/-- The record of the test `TestDoCleanup` with an invalid timestamp. -/
theorem DoCleanup_reason_witness :
    let rt := rawOf "invalid-timestamp" "ProjectC" (propsBlob "GBP") (numsBlob "150.0")
    let o : Outlier :=
      { Reason := "invalid timestamp format: parsing time \"invalid-timestamp\" as " ++
                  "\"2006-01-02 15:04:05\": cannot parse \"invalid-timestamp\" as \"2006\"",
        RawTransaction := rt }
    DoCleanup.step goStd ([], []) rt = ([], [] ++ [o]) ∧
    Contains o.Reason "invalid timestamp format" :=
  ⟨by decide!,
    (DoCleanup_reason goStd ([], [])
      (rawOf "invalid-timestamp" "ProjectC" (propsBlob "GBP") (numsBlob "150.0")) _
      (by decide!)).2.1
      ⟨"parsing time \"invalid-timestamp\" as \"2006-01-02 15:04:05\": cannot parse " ++
        "\"invalid-timestamp\" as \"2006\"", by decide!⟩⟩

/-- C6. For a raw record whose timestamp, volume blob and currency blob are valid and whose
parsed amount is `v`, the loop body of `DoCleanup` appends the canonical record when `v = 0` and
when `v = MaxVolumeThreshold`, and sends an outlier whose reason contains "volume over threshold"
when `v < 0` and when `v > MaxVolumeThreshold`. -/
theorem DoCleanup_threshold (std : GoStd) (state : List Transaction × List Outlier)
    (rt : io.RawTransaction) (t : Time) (n : numsJson) (p : propsJson) (v : F64)
    (ht : std.timeParse rt.Timestamp = .ok t) (hn : std.jsonUnmarshalNums rt.Nums = .ok n)
    (hp : std.jsonUnmarshalProps rt.Props = .ok p)
    (hv : std.parseFloat n.CurrencyValueDecimal = .ok v) :
    (v = 0 ∨ v = MaxVolumeThreshold →
      DoCleanup.step std state rt
        = (state.1 ++ [{ Timestamp := t, ProjectID := rt.ProjectID,
                         CurrencySymbol := p.CurrencySymbol, Volume := v }], state.2)) ∧
    (F64.lt v 0 = true ∨ F64.gt v MaxVolumeThreshold = true →
      ∃ o, DoCleanup.step std state rt = (state.1, state.2 ++ [o]) ∧
        o.RawTransaction = rt ∧ Contains o.Reason "volume over threshold") := by
  rw [DoCleanup.step_of_parsed std state rt t n p v ht hn hp hv]
  constructor
  · intro h
    have hr : (F64.lt v 0 || F64.gt v MaxVolumeThreshold) = false := by
      rcases h with rfl | rfl
      · simp [F64.lt, F64.gt, F64.zero_def, MaxVolumeThreshold]
      · simp [F64.lt, F64.gt, F64.zero_def, MaxVolumeThreshold]
    simp [hr]
  · intro h
    have hr : (F64.lt v 0 || F64.gt v MaxVolumeThreshold) = true := by simpa using h
    rw [if_pos hr]
    exact ⟨_, rfl, rfl, Contains.append_right (by decide) _⟩

/-- A record with the amount `1000000000000000`, the threshold itself, is accepted. -/
theorem DoCleanup_threshold_witness :
    let rt := rawOf "2023-10-01 12:00:00" "ProjectA" (propsBlob "USD") (numsBlob "1000000000000000")
    goStd.parseFloat "1000000000000000" = .ok MaxVolumeThreshold ∧
    DoCleanup.step goStd ([], []) rt
      = ([] ++ [⟨⟨2023, 10, 1, 12, 0, 0, 0⟩, "ProjectA", "USD", MaxVolumeThreshold⟩], []) :=
  ⟨by decide!,
    (DoCleanup_threshold goStd ([], [])
      (rawOf "2023-10-01 12:00:00" "ProjectA" (propsBlob "USD") (numsBlob "1000000000000000"))
      ⟨2023, 10, 1, 12, 0, 0, 0⟩ ⟨"1000000000000000"⟩ ⟨"USD"⟩ MaxVolumeThreshold
      (by decide!) (by decide!) (by decide!) (by decide!)).1 (Or.inr rfl)⟩

/-- C7 fails on the code: the amount text "NaN" parses to NaN, which is neither below zero nor above
the threshold, so the record is made canonical with a volume that is not finite. -/
theorem DoCleanup_nan_volume :
    DoCleanup goStd ⟨[nanTransaction], none⟩ []
      = ((⟨[⟨⟨2023, 10, 1, 12, 0, 0, 0⟩, "ProjectA", "USD", F64.nan⟩], none⟩, none), []) ∧
    ¬ ∀ c ∈ (DoCleanup goStd ⟨[nanTransaction], none⟩ []).1.1.Data,
        F64.isFinite c.Volume = true ∧ F64.le 0 c.Volume = true := by
  decide!

/-- C8 fails on the code: the symbol of the canonical record is the parsed symbol as it is
written, not its upper case, so a lower-case symbol misses the upper-case key that
`ReadCurrencyValues` builds and `DoAgg` fails the batch. -/
theorem DoCleanup_symbol_case :
    (DoCleanup goStd ⟨[lowerCaseTransaction], none⟩ []).1.1
      = ⟨[⟨⟨2023, 10, 1, 12, 0, 0, 0⟩, "ProjectA", "usd", F64.fin 100⟩], none⟩ ∧
    GoStdModel.toUpper "usd" = "USD" ∧
    (DoCleanup goStd ⟨[lowerCaseTransaction], none⟩ []).1.1.Data.map Transaction.CurrencySymbol
      ≠ [GoStdModel.toUpper "usd"] ∧
    DoAgg (DoCleanup goStd ⟨[lowerCaseTransaction], none⟩ []).1.1
        [(GoStdModel.toUpper "usd", F64.fin 1)]
      = ([], some "currency symbol not supported: usd") := by
  decide!

end worker

namespace worker

/-! ## Claims on DoAgg -/

/-- C2. `DoAgg` returns an error if and only if some record of the batch has a currency symbol
that is not a key of the currency table, and next to an error it returns the nil slice. -/
theorem DoAgg_error_iff (currencyValues : io.Currency2Values) (batch : MicroBatch) :
    ((DoAgg batch currencyValues).2 ≠ none
      ↔ ∃ t ∈ batch.Data, currencyValues.lookup t.CurrencySymbol = none) ∧
    ((DoAgg batch currencyValues).2 ≠ none → (DoAgg batch currencyValues).1 = []) := by
  by_cases h : ∃ t ∈ batch.Data, currencyValues.lookup t.CurrencySymbol = none
  · obtain ⟨e, he⟩ := DoAgg.loop_error currencyValues batch.Data GoMap.empty h
    have hres : DoAgg batch currencyValues = ([], some e) := by
      unfold DoAgg
      rw [he]
    rw [hres]
    exact ⟨⟨fun _ => h, fun _ => by simp⟩, fun _ => rfl⟩
  · have hall : ∀ t ∈ batch.Data, currencyValues.lookup t.CurrencySymbol ≠ none :=
      fun t ht hn => h ⟨t, ht, hn⟩
    rw [DoAgg_ok batch currencyValues hall]
    exact ⟨⟨fun hc => absurd rfl hc, fun hc => absurd hc h⟩, fun hc => absurd rfl hc⟩

/-- A batch whose second record has an unknown symbol: the error names it and no aggregate is
returned, although the first record is supported. -/
theorem DoAgg_error_iff_witness :
    let batch : MicroBatch :=
      { Data := [⟨⟨2023, 10, 1, 12, 0, 0, 0⟩, "ProjectA", "USD", F64.fin 100⟩,
                 ⟨⟨2023, 10, 1, 13, 0, 0, 0⟩, "ProjectA", "XYZ", F64.fin 50⟩],
        Err := none }
    let cv : io.Currency2Values := [("USD", F64.fin 1)]
    DoAgg batch cv = ([], some "currency symbol not supported: XYZ") ∧
    (DoAgg batch cv).2 ≠ none :=
  ⟨by decide!,
    (DoAgg_error_iff [("USD", F64.fin 1)] _).1.2
      ⟨⟨⟨2023, 10, 1, 13, 0, 0, 0⟩, "ProjectA", "XYZ", F64.fin 50⟩, by simp, by decide⟩⟩

/-! ## Claims on DoAggReducer -/

/-- C9, as stated, fails: two error-free results whose entries have different dates and projects
but the same map key are merged into one entry, so the second pair has no entry of its own. -/
theorem DoAggReducer_sums_counterexample :
    let results : List AggResult :=
      [{ Agg := [⟨"2023-10-01_A", "B", 1, F64.fin 1⟩], Err := none },
       { Agg := [⟨"2023-10-01", "A_B", 1, F64.fin 1⟩], Err := none }]
    (∀ r ∈ results, r.Err = none) ∧
    DoAggReducer results = ([⟨"2023-10-01_A", "B", 2, F64.fin 2⟩], none) ∧
    ¬ ((∃ a ∈ (DoAggReducer results).1, a.Date = "2023-10-01" ∧ a.ProjectId = "A_B")
        ↔ ∃ r ∈ results, ∃ x ∈ r.Agg, x.Date = "2023-10-01" ∧ x.ProjectId = "A_B") := by
  decide!

/-- C10, as stated, fails: when two entries with different dates and projects share a map key,
the entry of the output carries the date and project of the one that arrives first. -/
theorem DoAggReducer_perm_counterexample :
    let r1 : AggResult := { Agg := [⟨"2023-10-01_A", "B", 1, F64.fin 1⟩], Err := none }
    let r2 : AggResult := { Agg := [⟨"2023-10-01", "A_B", 1, F64.fin 1⟩], Err := none }
    [r1, r2].Perm [r2, r1] ∧
    (∀ r ∈ [r1, r2], r.Err = none) ∧
    DoAggReducer [r1, r2] = ([⟨"2023-10-01_A", "B", 2, F64.fin 2⟩], none) ∧
    DoAggReducer [r2, r1] = ([⟨"2023-10-01", "A_B", 2, F64.fin 2⟩], none) ∧
    ¬ (∀ a, a ∈ (DoAggReducer [r1, r2]).1 ↔ a ∈ (DoAggReducer [r2, r1]).1) := by
  refine ⟨List.Perm.swap _ _ _, by decide, by decide!, by decide!, ?_⟩
  intro h
  have h1 := (h ⟨"2023-10-01_A", "B", 2, F64.fin 2⟩).1
  revert h1
  decide!

/-- C10 (amended). For error-free results none of whose dates contains an underscore (as every
date that `DoAgg` formats), `DoAggReducer` yields the same set of entries, and no error, on every
permutation of the results. -/
theorem DoAggReducer_perm (results results' : List AggResult)
    (hPerm : results.Perm results')
    (hErr : ∀ r ∈ results, r.Err = none)
    (hDate : ∀ r ∈ results, ∀ x ∈ r.Agg, '_' ∉ x.Date.data) :
    (DoAggReducer results).2 = none ∧ (DoAggReducer results').2 = none ∧
    ∀ a, a ∈ (DoAggReducer results).1 ↔ a ∈ (DoAggReducer results').1 := by
  have hErr' : ∀ r ∈ results', r.Err = none := fun r hr => hErr r (hPerm.mem_iff.2 hr)
  have hflat : (results.flatMap AggResult.Agg).Perm (results'.flatMap AggResult.Agg) :=
    hPerm.flatMap_right _
  have hsep : ∀ x ∈ results.flatMap AggResult.Agg, '_' ∉ x.Date.data := by
    intro x hx
    obtain ⟨r, hr, hxr⟩ := List.mem_flatMap.1 hx
    exact hDate r hr x hxr
  have hsep' : ∀ x ∈ results'.flatMap AggResult.Agg, '_' ∉ x.Date.data :=
    fun x hx => hsep x (hflat.mem_iff.2 hx)
  rw [DoAggReducer_ok results hErr, DoAggReducer_ok results' hErr']
  refine ⟨rfl, rfl, fun a => ?_⟩
  rw [DoAggReducer.mem_values_foldl_merge _ hsep, DoAggReducer.mem_values_foldl_merge _ hsep',
    Agg.total_perm a.Date a.ProjectId hflat]
  constructor
  · rintro ⟨⟨x, hx, hxa⟩, ht⟩
    exact ⟨⟨x, hflat.mem_iff.1 hx, hxa⟩, ht⟩
  · rintro ⟨⟨x, hx, hxa⟩, ht⟩
    exact ⟨⟨x, hflat.mem_iff.2 hx, hxa⟩, ht⟩

/-- Two partial aggregates taken in both orders. -/
theorem DoAggReducer_perm_witness :
    let r1 : AggResult :=
      { Agg := [⟨"2023-10-01", "A", 2, F64.fin 160⟩, ⟨"2023-10-01", "B", 1, F64.fin 60⟩],
        Err := none }
    let r2 : AggResult := { Agg := [⟨"2023-10-01", "A", 1, F64.fin 200⟩], Err := none }
    [r1, r2].Perm [r2, r1] ∧
    DoAggReducer [r2, r1]
      = ([⟨"2023-10-01", "A", 3, F64.fin 360⟩, ⟨"2023-10-01", "B", 1, F64.fin 60⟩], none) ∧
    ((DoAggReducer [r1, r2]).2 = none ∧ (DoAggReducer [r2, r1]).2 = none ∧
      ∀ a, a ∈ (DoAggReducer [r1, r2]).1 ↔ a ∈ (DoAggReducer [r2, r1]).1) :=
  ⟨List.Perm.swap _ _ _, by decide!,
    DoAggReducer_perm _ _ (List.Perm.swap _ _ _) (by decide) (by decide)⟩

end worker


/-! ## Errors of DoAggReducer -/

theorem exists_first {α : Type} (P : α → Prop) (l : List α) (h : ∃ x ∈ l, P x) :
    ∃ pre x post, l = pre ++ x :: post ∧ (∀ y ∈ pre, ¬ P y) ∧ P x := by
  induction l with
  | nil => simp at h
  | cons a l ih =>
    by_cases ha : P a
    · exact ⟨[], a, l, rfl, by simp, ha⟩
    · have hl : ∃ x ∈ l, P x := by
        obtain ⟨x, hx, hp⟩ := h
        rcases List.mem_cons.1 hx with rfl | hin
        · exact absurd hp ha
        · exact ⟨x, hin, hp⟩
      obtain ⟨pre, x, post, rfl, hpre, hx⟩ := ih hl
      refine ⟨a :: pre, x, post, rfl, ?_, hx⟩
      intro y hy
      rcases List.mem_cons.1 hy with rfl | hin
      · exact ha
      · exact hpre y hin

namespace worker

theorem DoAggReducer.loop_first_error (pre post : List AggResult) (r : AggResult) (e : String)
    (m : GoMap Agg) (hpre : ∀ x ∈ pre, x.Err = none) (hr : r.Err = some e) :
    DoAggReducer.loop (pre ++ r :: post) m
      = .error ("unable to aggregate transactions: " ++ e) := by
  induction pre generalizing m with
  | nil => simp [DoAggReducer.loop, hr]
  | cons a pre ih =>
    have ha : a.Err = none := hpre a (List.mem_cons_self _ _)
    simp only [List.cons_append, DoAggReducer.loop, ha]
    exact ih _ (fun x hx => hpre x (List.mem_cons_of_mem _ hx))

theorem DoAggReducer_err_ne_none_iff (results : List AggResult) :
    (DoAggReducer results).2 ≠ none ↔ ∃ r ∈ results, r.Err ≠ none := by
  by_cases h : ∃ r ∈ results, r.Err ≠ none
  · obtain ⟨pre, r, post, hres, hpre, hr⟩ := exists_first (fun r => r.Err ≠ none) results h
    obtain ⟨e, he⟩ := Option.ne_none_iff_exists'.1 hr
    have hval : DoAggReducer results
        = ([], some ("unable to aggregate transactions: " ++ e)) := by
      unfold DoAggReducer
      rw [hres, DoAggReducer.loop_first_error pre post r e _
        (fun x hx => by simpa using hpre x hx) he]
    rw [hval]
    exact ⟨fun _ => h, fun _ => by simp⟩
  · have hall : ∀ r ∈ results, r.Err = none := by
      intro r hr
      by_contra hne
      exact h ⟨r, hr, hne⟩
    rw [DoAggReducer_ok results hall]
    exact ⟨fun hc => absurd rfl hc, fun hc => absurd hc h⟩

/-- C11. `DoAggReducer` returns an error if and only if some result of the sequence carries an
error; next to an error it returns the nil slice; and the error is built from the error of the
first result, in arrival order, that carries one. -/
theorem DoAggReducer_error_iff (results : List AggResult) :
    ((DoAggReducer results).2 ≠ none ↔ ∃ r ∈ results, r.Err ≠ none) ∧
    ((DoAggReducer results).2 ≠ none → (DoAggReducer results).1 = []) ∧
    ∀ (pre post : List AggResult) (r : AggResult) (e : String),
      results = pre ++ r :: post → (∀ x ∈ pre, x.Err = none) → r.Err = some e →
      DoAggReducer results = ([], some ("unable to aggregate transactions: " ++ e)) := by
  have hfirst : ∀ (pre post : List AggResult) (r : AggResult) (e : String),
      results = pre ++ r :: post → (∀ x ∈ pre, x.Err = none) → r.Err = some e →
      DoAggReducer results = ([], some ("unable to aggregate transactions: " ++ e)) := by
    intro pre post r e hres hpre hr
    unfold DoAggReducer
    rw [hres, DoAggReducer.loop_first_error pre post r e _ hpre hr]
  by_cases h : ∃ r ∈ results, r.Err ≠ none
  · obtain ⟨pre, r, post, hres, hpre, hr⟩ := exists_first (fun r => r.Err ≠ none) results h
    obtain ⟨e, he⟩ := Option.ne_none_iff_exists'.1 hr
    have hval := hfirst pre post r e hres (fun x hx => by simpa using hpre x hx) he
    refine ⟨⟨fun _ => h, fun _ => ?_⟩, fun _ => ?_, hfirst⟩
    · rw [hval]
      simp
    · rw [hval]
  · have hall : ∀ r ∈ results, r.Err = none := by
      intro r hr
      by_contra hne
      exact h ⟨r, hr, hne⟩
    refine ⟨⟨fun hc => ?_, fun hc => absurd hc h⟩, fun hc => ?_, hfirst⟩
    · rw [DoAggReducer_ok results hall] at hc
      exact absurd rfl hc
    · rw [DoAggReducer_ok results hall] at hc
      exact absurd rfl hc

/-- Three results, of which the second and the third carry an error: the error of the second is
reported and no aggregate is returned. -/
theorem DoAggReducer_error_iff_witness :
    DoAggReducer [⟨expectedAggs, none⟩, ⟨[], some "first"⟩, ⟨[], some "second"⟩]
      = ([], some "unable to aggregate transactions: first") :=
  (DoAggReducer_error_iff [⟨expectedAggs, none⟩, ⟨[], some "first"⟩, ⟨[], some "second"⟩]).2.2
    [⟨expectedAggs, none⟩] [⟨[], some "second"⟩] ⟨[], some "first"⟩ "first" rfl (by decide) rfl

/-! ## Independence of the records in DoCleanup -/

theorem DoCleanup.step_append (std : GoStd) (state : List Transaction × List Outlier)
    (rt : io.RawTransaction) :
    DoCleanup.step std state rt
      = (state.1 ++ (DoCleanup.step std ([], []) rt).1,
          state.2 ++ (DoCleanup.step std ([], []) rt).2) := by
  unfold DoCleanup.step
  split
  · simp
  · split
    · simp
    · split
      · simp
      · split
        · simp
        · split <;> simp

theorem DoCleanup.foldl_step_append (std : GoStd) (data : List io.RawTransaction)
    (state : List Transaction × List Outlier) :
    data.foldl (DoCleanup.step std) state
      = (state.1 ++ (data.foldl (DoCleanup.step std) ([], [])).1,
          state.2 ++ (data.foldl (DoCleanup.step std) ([], [])).2) := by
  induction data generalizing state with
  | nil => simp
  | cons rt data ih =>
    rw [List.foldl_cons, List.foldl_cons, ih (DoCleanup.step std state rt),
      ih (DoCleanup.step std ([], []) rt), DoCleanup.step_append std state rt]
    simp [List.append_assoc]

/-- The canonical records of a batch and the outliers sent for it do not depend on what was sent
on the outlier channel before: the outliers are appended to the channel. -/
theorem DoCleanup_chan (std : GoStd) (batch : io.MicroBatch) (outlierChan : List Outlier) :
    DoCleanup std batch outlierChan
      = ((DoCleanup std batch []).1, outlierChan ++ (DoCleanup std batch []).2) := by
  unfold DoCleanup
  rw [DoCleanup.foldl_step_append std batch.Data ([], outlierChan)]
  simp

/-- C19. For all raw batches `b1` and `b2`, the canonical records that `DoCleanup` returns for
`b1` followed by `b2` are those for `b1` followed by those for `b2`, and so are the outliers it
sends; hence the canonical records and the outliers of a batch are those of its records taken one
by one, in source order. -/
theorem DoCleanup_append (std : GoStd) (b1 b2 : io.MicroBatch) (err : Option String) :
    (DoCleanup std ⟨b1.Data ++ b2.Data, err⟩ []).1.1.Data
      = (DoCleanup std b1 []).1.1.Data ++ (DoCleanup std b2 []).1.1.Data ∧
    (DoCleanup std ⟨b1.Data ++ b2.Data, err⟩ []).2
      = (DoCleanup std b1 []).2 ++ (DoCleanup std b2 []).2 ∧
    (DoCleanup std b1 []).1.1.Data
      = b1.Data.flatMap (fun rt => (DoCleanup std ⟨[rt], none⟩ []).1.1.Data) ∧
    (DoCleanup std b1 []).2 = b1.Data.flatMap (fun rt => (DoCleanup std ⟨[rt], none⟩ []).2) := by
  have happ : ∀ d1 d2 : List io.RawTransaction,
      (d1 ++ d2).foldl (DoCleanup.step std) ([], [])
        = ((d1.foldl (DoCleanup.step std) ([], [])).1
            ++ (d2.foldl (DoCleanup.step std) ([], [])).1,
           (d1.foldl (DoCleanup.step std) ([], [])).2
            ++ (d2.foldl (DoCleanup.step std) ([], [])).2) := by
    intro d1 d2
    rw [List.foldl_append, DoCleanup.foldl_step_append std d2]
  have hflat : ∀ d : List io.RawTransaction,
      d.foldl (DoCleanup.step std) ([], [])
        = (d.flatMap (fun rt => (DoCleanup.step std ([], []) rt).1),
           d.flatMap (fun rt => (DoCleanup.step std ([], []) rt).2)) := by
    intro d
    induction d with
    | nil => rfl
    | cons rt d ih =>
      have := happ [rt] d
      simp only [List.singleton_append] at this
      rw [this, ih]
      simp
  refine ⟨?_, ?_, ?_, ?_⟩
  · show ((b1.Data ++ b2.Data).foldl (DoCleanup.step std) ([], [])).1 = _
    rw [happ]
    rfl
  · show ((b1.Data ++ b2.Data).foldl (DoCleanup.step std) ([], [])).2 = _
    rw [happ]
    rfl
  · show (b1.Data.foldl (DoCleanup.step std) ([], [])).1 = _
    rw [hflat]
    rfl
  · show (b1.Data.foldl (DoCleanup.step std) ([], [])).2 = _
    rw [hflat]
    rfl

/-- The test `TestDoCleanup`, its batch being cut after the third record. -/
theorem DoCleanup_append_witness :
    (DoCleanup goStd ⟨rawTransactions.take 3 ++ rawTransactions.drop 3, none⟩ []).1.1.Data
      = (DoCleanup goStd ⟨rawTransactions.take 3, none⟩ []).1.1.Data
        ++ (DoCleanup goStd ⟨rawTransactions.drop 3, none⟩ []).1.1.Data ∧
    (DoCleanup goStd ⟨rawTransactions.take 3, none⟩ []).1.1.Data = expectedTransactions.take 2 ∧
    (DoCleanup goStd ⟨rawTransactions.drop 3, none⟩ []).1.1.Data = expectedTransactions.drop 2 :=
  ⟨(DoCleanup_append goStd ⟨rawTransactions.take 3, none⟩ ⟨rawTransactions.drop 3, none⟩ none).1,
    by decide!, by decide!⟩

end worker

/-! ## Uniqueness of the group keys -/

namespace GoMap

theorem mem_store {β : Type} (m : GoMap β) (k : String) (v : β) (e : String × β)
    (h : e ∈ (show List (String × β) from m.store k v)) :
    e = (k, v) ∨ e ∈ (show List (String × β) from m) := by
  induction m with
  | nil =>
    simp only [store, List.mem_singleton] at h
    exact Or.inl h
  | cons e0 rest ih =>
    obtain ⟨k0, v0⟩ := e0
    by_cases h0 : k0 = k
    · simp only [store, h0, if_true] at h
      rcases List.mem_cons.1 h with heq | hin
      · exact Or.inl heq
      · exact Or.inr (List.mem_cons_of_mem _ hin)
    · simp only [store, h0, if_false] at h
      rcases List.mem_cons.1 h with heq | hin
      · exact Or.inr (heq ▸ List.mem_cons_self _ _)
      · rcases ih hin with h1 | h2
        · exact Or.inl h1
        · exact Or.inr (List.mem_cons_of_mem _ h2)

end GoMap

namespace worker

theorem Agg.keyed_empty : Agg.Keyed GoMap.empty := by
  intro e he
  cases he

theorem Agg.keyed_store (m : GoMap Agg) (k : String) (v : Agg) (hm : Agg.Keyed m)
    (hv : v.key = k) : Agg.Keyed (m.store k v) := by
  intro e he
  rcases GoMap.mem_store m k v e he with rfl | hin
  · exact hv
  · exact hm e hin

theorem Agg.keyed_merge (m : GoMap Agg) (x : Agg) (hm : Agg.Keyed m) :
    Agg.Keyed (DoAggReducer.merge m x) := by
  rw [DoAggReducer.merge_eq]
  apply Agg.keyed_store m _ _ hm
  cases hl : m.lookup x.key with
  | none => rfl
  | some e =>
    have := hm (x.key, e) (GoMap.mem_of_lookup_eq_some m x.key e hl)
    exact this

theorem Agg.keyed_foldl_merge (xs : List Agg) (m : GoMap Agg) (hm : Agg.Keyed m) :
    Agg.Keyed (xs.foldl DoAggReducer.merge m) := by
  induction xs generalizing m with
  | nil => exact hm
  | cons x xs ih => exact ih _ (Agg.keyed_merge m x hm)

theorem Agg.values_map_key (m : GoMap Agg) (hm : Agg.Keyed m) :
    m.values.map Agg.key = m.keys := by
  unfold GoMap.values GoMap.keys
  rw [List.map_map]
  apply List.map_congr_left
  intro e he
  exact hm e he

theorem Agg.pairs_nodup (m : GoMap Agg) (hm : Agg.Keyed m) (hk : m.keys.Nodup) :
    (m.values.map fun a => (a.Date, a.ProjectId)).Nodup := by
  have h : ((m.values.map fun a => (a.Date, a.ProjectId)).map
      fun p : String × String => p.1 ++ "_" ++ p.2).Nodup := by
    rw [List.map_map]
    have : ((fun p : String × String => p.1 ++ "_" ++ p.2) ∘ fun a : Agg => (a.Date, a.ProjectId))
        = Agg.key := rfl
    rw [this, Agg.values_map_key m hm]
    exact hk
  exact List.Nodup.of_map _ h

theorem DoAggReducer.pairs_nodup_foldl_merge (xs : List Agg) :
    ((xs.foldl DoAggReducer.merge GoMap.empty).values.map
      fun a => (a.Date, a.ProjectId)).Nodup :=
  Agg.pairs_nodup _ (Agg.keyed_foldl_merge xs _ Agg.keyed_empty)
    (DoAggReducer.nodup_foldl_merge xs GoMap.empty List.nodup_nil)

/-- C18. In the output of `DoAgg`, for every batch and table, and in the output of
`DoAggReducer`, for every sequence of results, no two entries have the same date and project. -/
theorem aggregate_pairs_unique (batch : MicroBatch) (currencyValues : io.Currency2Values)
    (results : List AggResult) :
    ((DoAgg batch currencyValues).1.map fun a => (a.Date, a.ProjectId)).Nodup ∧
    ((DoAggReducer results).1.map fun a => (a.Date, a.ProjectId)).Nodup := by
  constructor
  · by_cases h : ∃ t ∈ batch.Data, currencyValues.lookup t.CurrencySymbol = none
    · obtain ⟨e, he⟩ := DoAgg.loop_error currencyValues batch.Data GoMap.empty h
      have hres : DoAgg batch currencyValues = ([], some e) := by
        unfold DoAgg
        rw [he]
      rw [hres]
      exact List.nodup_nil
    · have hall : ∀ t ∈ batch.Data, currencyValues.lookup t.CurrencySymbol ≠ none :=
        fun t ht hn => h ⟨t, ht, hn⟩
      rw [DoAgg_ok batch currencyValues hall]
      exact DoAggReducer.pairs_nodup_foldl_merge _
  · by_cases h : ∀ r ∈ results, r.Err = none
    · rw [DoAggReducer_ok results h]
      exact DoAggReducer.pairs_nodup_foldl_merge _
    · have hex : ∃ r ∈ results, r.Err ≠ none := by
        by_contra hc
        exact h (fun r hr => by
          by_contra hne
          exact hc ⟨r, hr, hne⟩)
      obtain ⟨pre, r, post, hres, hpre, hr⟩ := exists_first (fun r => r.Err ≠ none) results hex
      obtain ⟨e, he⟩ := Option.ne_none_iff_exists'.1 hr
      have hval : DoAggReducer results
          = ([], some ("unable to aggregate transactions: " ++ e)) := by
        unfold DoAggReducer
        rw [hres, DoAggReducer.loop_first_error pre post r e _
          (fun x hx => by simpa using hpre x hx) he]
      rw [hval]
      exact List.nodup_nil

end worker

/-! ## Batches against their concatenation -/

theorem nodup_all_eq {α : Type} (c : α) (l : List α) (hn : l.Nodup) (h : ∀ a ∈ l, a = c) :
    l = [] ∨ l = [c] := by
  cases l with
  | nil => exact Or.inl rfl
  | cons a t =>
    have ha : a = c := h a (List.mem_cons_self _ _)
    cases t with
    | nil => exact Or.inr (by rw [ha])
    | cons b t =>
      have hb : b = c := h b (List.mem_cons_of_mem _ (List.mem_cons_self _ _))
      have hnot : a ∉ b :: t := (List.nodup_cons.1 hn).1
      exact absurd (by rw [ha, hb]; exact List.mem_cons_self _ _) hnot

namespace worker

theorem Agg.mem_group {d p : String} {a : Agg} {aggs : List Agg} :
    a ∈ Agg.group d p aggs ↔ a ∈ aggs ∧ a.Date = d ∧ a.ProjectId = p := by
  unfold Agg.group
  simp [List.mem_filter]

theorem Agg.group_append (d p : String) (l1 l2 : List Agg) :
    Agg.group d p (l1 ++ l2) = Agg.group d p l1 ++ Agg.group d p l2 := by
  unfold Agg.group
  exact List.filter_append l1 l2

theorem Agg.total_eq_of_sums {d p : String} {l1 l2 : List Agg}
    (hN : ((Agg.group d p l1).map Agg.NumberOfTransactions).sum
      = ((Agg.group d p l2).map Agg.NumberOfTransactions).sum)
    (hV : ((Agg.group d p l1).map Agg.TotalVolumeUsd).sum
      = ((Agg.group d p l2).map Agg.TotalVolumeUsd).sum) :
    Agg.total d p l1 = Agg.total d p l2 := by
  unfold Agg.total
  rw [hN, hV]

theorem Agg.total_append_congr (d p : String) {l1 l2 r1 r2 : List Agg}
    (hl : Agg.total d p l1 = Agg.total d p l2) (hr : Agg.total d p r1 = Agg.total d p r2) :
    Agg.total d p (l1 ++ r1) = Agg.total d p (l2 ++ r2) := by
  have hlN := congrArg Agg.NumberOfTransactions hl
  have hlV := congrArg Agg.TotalVolumeUsd hl
  have hrN := congrArg Agg.NumberOfTransactions hr
  have hrV := congrArg Agg.TotalVolumeUsd hr
  simp only [Agg.total] at hlN hlV hrN hrV
  apply Agg.total_eq_of_sums
  · rw [Agg.group_append, Agg.group_append, List.map_append, List.map_append, List.sum_append,
      List.sum_append, hlN, hrN]
  · rw [Agg.group_append, Agg.group_append, List.map_append, List.map_append, List.sum_append,
      List.sum_append, hlV, hrV]

theorem Agg.total_flatMap_congr {α : Type} (d p : String) (f g : α → List Agg) (l : List α)
    (h : ∀ b ∈ l, Agg.total d p (f b) = Agg.total d p (g b)) :
    Agg.total d p (l.flatMap f) = Agg.total d p (l.flatMap g) := by
  induction l with
  | nil => rfl
  | cons b l ih =>
    rw [List.flatMap_cons, List.flatMap_cons]
    exact Agg.total_append_congr d p (h b (List.mem_cons_self _ _))
      (ih (fun b' hb' => h b' (List.mem_cons_of_mem _ hb')))

/-- The entries of the merged map with a given date and project: the total of that date and
project when the list has them, none otherwise. -/
theorem DoAggReducer.group_values_foldl_merge (xs : List Agg)
    (h : ∀ x ∈ xs, '_' ∉ x.Date.data) (d p : String) :
    ((∃ x ∈ xs, x.Date = d ∧ x.ProjectId = p) →
      Agg.group d p (xs.foldl DoAggReducer.merge GoMap.empty).values = [Agg.total d p xs]) ∧
    ((¬ ∃ x ∈ xs, x.Date = d ∧ x.ProjectId = p) →
      Agg.group d p (xs.foldl DoAggReducer.merge GoMap.empty).values = []) := by
  have hall : ∀ a ∈ Agg.group d p (xs.foldl DoAggReducer.merge GoMap.empty).values,
      (∃ x ∈ xs, x.Date = d ∧ x.ProjectId = p) ∧ a = Agg.total d p xs := by
    intro a ha
    obtain ⟨hv, hd, hp⟩ := Agg.mem_group.1 ha
    have := (DoAggReducer.mem_values_foldl_merge xs h a).1 hv
    rw [hd, hp] at this
    exact this
  have hnd : (Agg.group d p (xs.foldl DoAggReducer.merge GoMap.empty).values).Nodup := by
    unfold Agg.group
    exact List.Nodup.filter _ (List.Nodup.of_map _ (DoAggReducer.pairs_nodup_foldl_merge xs))
  constructor
  · intro hex
    have hmem : Agg.total d p xs
        ∈ Agg.group d p (xs.foldl DoAggReducer.merge GoMap.empty).values := by
      apply Agg.mem_group.2
      exact ⟨(DoAggReducer.mem_values_foldl_merge xs h _).2 ⟨hex, rfl⟩, rfl, rfl⟩
    rcases nodup_all_eq (Agg.total d p xs) _ hnd (fun a ha => (hall a ha).2) with h0 | h1
    · rw [h0] at hmem
      cases hmem
    · exact h1
  · intro hne
    apply List.eq_nil_iff_forall_not_mem.2
    intro a ha
    exact hne (hall a ha).1

/-- Merging does not change the total of a date and project. -/
theorem DoAggReducer.total_values_foldl_merge (xs : List Agg)
    (h : ∀ x ∈ xs, '_' ∉ x.Date.data) (d p : String) :
    Agg.total d p (xs.foldl DoAggReducer.merge GoMap.empty).values = Agg.total d p xs := by
  by_cases hex : ∃ x ∈ xs, x.Date = d ∧ x.ProjectId = p
  · have hg := (DoAggReducer.group_values_foldl_merge xs h d p).1 hex
    apply Agg.total_eq_of_sums
    · rw [hg]
      simp [Agg.total]
    · rw [hg]
      simp [Agg.total]
  · have hg := (DoAggReducer.group_values_foldl_merge xs h d p).2 hex
    have hx : Agg.group d p xs = [] := by
      apply List.eq_nil_iff_forall_not_mem.2
      intro a ha
      obtain ⟨hin, hd, hp⟩ := Agg.mem_group.1 ha
      exact hex ⟨a, hin, hd, hp⟩
    apply Agg.total_eq_of_sums
    · rw [hg, hx]
    · rw [hg, hx]

theorem Transaction.toAgg_no_sep (cv : io.Currency2Values) (ts : List Transaction) :
    ∀ x ∈ ts.map (Transaction.toAgg cv), '_' ∉ x.Date.data := by
  intro x hx
  obtain ⟨t, _, rfl⟩ := List.mem_map.1 hx
  exact Time.Format_no_sep t.Timestamp

/-- C12. For every currency table and every list of batches of canonical records whose symbols
are all keys of the table, `DoAggReducer`, applied to error-free results whose entries, taken
together, are those that `DoAgg` gives for the batches, in any order of the results and of the
entries of each result, returns no error and the same set of entries as `DoAgg` applied to the
concatenation of the batches (in exact arithmetic). -/
theorem DoAggReducer_batches (currencyValues : io.Currency2Values) (batches : List MicroBatch)
    (results : List AggResult)
    (hSym : ∀ b ∈ batches, ∀ t ∈ b.Data, currencyValues.lookup t.CurrencySymbol ≠ none)
    (hErr : ∀ r ∈ results, r.Err = none)
    (hPerm : (results.flatMap AggResult.Agg).Perm
      (batches.flatMap fun b => (DoAgg b currencyValues).1)) :
    (DoAggReducer results).2 = none ∧
    (DoAgg ⟨batches.flatMap MicroBatch.Data, none⟩ currencyValues).2 = none ∧
    ∀ a, a ∈ (DoAggReducer results).1
      ↔ a ∈ (DoAgg ⟨batches.flatMap MicroBatch.Data, none⟩ currencyValues).1 := by
  -- the per-batch results
  have hOut : ∀ b ∈ batches, DoAgg b currencyValues
      = (((b.Data.map (Transaction.toAgg currencyValues)).foldl DoAggReducer.merge
          GoMap.empty).values, none) :=
    fun b hb => DoAgg_ok b currencyValues (hSym b hb)
  have hflat : (results.flatMap AggResult.Agg).Perm
      (batches.flatMap fun b => (DoAgg b currencyValues).1) := hPerm
  have hsepB : ∀ b ∈ batches, ∀ x ∈ (DoAgg b currencyValues).1, '_' ∉ x.Date.data := by
    intro b hb x hx
    rw [hOut b hb] at hx
    obtain ⟨⟨u, hu, hd, _⟩, _⟩ := (DoAggReducer.mem_values_foldl_merge _
      (Transaction.toAgg_no_sep currencyValues b.Data) x).1 hx
    rw [← hd]
    exact Transaction.toAgg_no_sep currencyValues b.Data u hu
  have hsep : ∀ x ∈ results.flatMap AggResult.Agg, '_' ∉ x.Date.data := by
    intro x hx
    obtain ⟨b, hb, hxb⟩ := List.mem_flatMap.1 (hflat.mem_iff.1 hx)
    exact hsepB b hb x hxb
  -- the concatenation
  have hAll : ∀ t ∈ batches.flatMap MicroBatch.Data,
      currencyValues.lookup t.CurrencySymbol ≠ none := by
    intro t ht
    obtain ⟨b, hb, htb⟩ := List.mem_flatMap.1 ht
    exact hSym b hb t htb
  have hunits : (batches.flatMap MicroBatch.Data).map (Transaction.toAgg currencyValues)
      = batches.flatMap fun b => b.Data.map (Transaction.toAgg currencyValues) :=
    List.map_flatMap _ _ _
  have hBig := DoAgg_ok ⟨batches.flatMap MicroBatch.Data, none⟩ currencyValues hAll
  simp only [hunits] at hBig
  have hsepU : ∀ x ∈ batches.flatMap fun b => b.Data.map (Transaction.toAgg currencyValues),
      '_' ∉ x.Date.data := by
    intro x hx
    obtain ⟨b, _, hxb⟩ := List.mem_flatMap.1 hx
    exact Transaction.toAgg_no_sep currencyValues b.Data x hxb
  -- totals and groups agree
  have htotal : ∀ d p, Agg.total d p (results.flatMap AggResult.Agg)
      = Agg.total d p (batches.flatMap fun b =>
          b.Data.map (Transaction.toAgg currencyValues)) := by
    intro d p
    rw [Agg.total_perm d p hflat]
    apply Agg.total_flatMap_congr
    intro b hb
    rw [hOut b hb]
    exact DoAggReducer.total_values_foldl_merge _
      (Transaction.toAgg_no_sep currencyValues b.Data) d p
  have hexists : ∀ d p, (∃ x ∈ results.flatMap AggResult.Agg, x.Date = d ∧ x.ProjectId = p)
      ↔ ∃ u ∈ batches.flatMap (fun b => b.Data.map (Transaction.toAgg currencyValues)),
          u.Date = d ∧ u.ProjectId = p := by
    intro d p
    constructor
    · rintro ⟨x, hx, hd, hp⟩
      obtain ⟨b, hb, hxb⟩ := List.mem_flatMap.1 (hflat.mem_iff.1 hx)
      rw [hOut b hb] at hxb
      obtain ⟨⟨u, hu, hud, hup⟩, _⟩ := (DoAggReducer.mem_values_foldl_merge _
        (Transaction.toAgg_no_sep currencyValues b.Data) x).1 hxb
      exact ⟨u, List.mem_flatMap.2 ⟨b, hb, hu⟩, hud.trans hd, hup.trans hp⟩
    · rintro ⟨u, hu, hd, hp⟩
      obtain ⟨b, hb, hub⟩ := List.mem_flatMap.1 hu
      refine ⟨Agg.total d p (b.Data.map (Transaction.toAgg currencyValues)), ?_, rfl, rfl⟩
      apply hflat.mem_iff.2
      apply List.mem_flatMap.2
      refine ⟨b, hb, ?_⟩
      rw [hOut b hb]
      exact (DoAggReducer.mem_values_foldl_merge _
        (Transaction.toAgg_no_sep currencyValues b.Data) _).2 ⟨⟨u, hub, hd, hp⟩, rfl⟩
  rw [DoAggReducer_ok results hErr, hBig]
  refine ⟨rfl, rfl, fun a => ?_⟩
  rw [DoAggReducer.mem_values_foldl_merge _ hsep, DoAggReducer.mem_values_foldl_merge _ hsepU,
    htotal, hexists]

/-- Five records cut after the first, which splits the group of `2023-10-01` and `ProjectA`
between the two batches: the first batch yields one entry, the second four, and the reducer
receives the second result first, its entries in the reverse order. The merged entry of the split
group counts `1 + 1` records and `62.5 + 100` USD. -/
theorem DoAggReducer_batches_witness :
    (∀ b ∈ [(⟨dyadicTransactions.take 1, none⟩ : MicroBatch), ⟨dyadicTransactions.drop 1, none⟩],
      ∀ t ∈ b.Data, dyadicCurrencyValues.lookup t.CurrencySymbol ≠ none) ∧
    (DoAgg ⟨dyadicTransactions.take 1, none⟩ dyadicCurrencyValues).1
      = [⟨"2023-10-01", "ProjectA", 1, F64.fin 100⟩] ∧
    (DoAgg ⟨dyadicTransactions.drop 1, none⟩ dyadicCurrencyValues).1
      = [⟨"2023-10-01", "ProjectA", 1, F64.fin (125 / 2)⟩,
         ⟨"2023-10-01", "ProjectB", 1, F64.fin 30000⟩,
         ⟨"2023-10-02", "ProjectA", 1, F64.fin 200⟩,
         ⟨"2023-10-02", "ProjectB", 1, F64.fin 100⟩] ∧
    (⟨"2023-10-01", "ProjectA", 2, F64.fin (325 / 2)⟩ : Agg)
      ∈ (DoAggReducer
          [⟨(DoAgg ⟨dyadicTransactions.drop 1, none⟩ dyadicCurrencyValues).1.reverse, none⟩,
           ⟨(DoAgg ⟨dyadicTransactions.take 1, none⟩ dyadicCurrencyValues).1, none⟩]).1 ∧
    ∀ a, a ∈ (DoAggReducer
          [⟨(DoAgg ⟨dyadicTransactions.drop 1, none⟩ dyadicCurrencyValues).1.reverse, none⟩,
           ⟨(DoAgg ⟨dyadicTransactions.take 1, none⟩ dyadicCurrencyValues).1, none⟩]).1
      ↔ a ∈ (DoAgg ⟨dyadicTransactions.take 1 ++ (dyadicTransactions.drop 1 ++ []), none⟩
          dyadicCurrencyValues).1 :=
  ⟨by decide, by decide!, by decide!, by decide!,
    (DoAggReducer_batches dyadicCurrencyValues
      [⟨dyadicTransactions.take 1, none⟩, ⟨dyadicTransactions.drop 1, none⟩]
      [⟨(DoAgg ⟨dyadicTransactions.drop 1, none⟩ dyadicCurrencyValues).1.reverse, none⟩,
        ⟨(DoAgg ⟨dyadicTransactions.take 1, none⟩ dyadicCurrencyValues).1, none⟩]
      (by decide)
      (by decide)
      (by
        simp only [List.flatMap_cons, List.flatMap_nil, List.append_nil]
        exact ((List.reverse_perm _).append_right _).trans List.perm_append_comm)).2.2⟩

end worker

/-! ## ReadCSV -/

namespace io

theorem ReadCSV.foldl_callback_inv (n : Int) (hn : 1 ≤ n) (records : List RawTransaction)
    (state : List RawTransaction × List MicroBatch) (hbuf : (state.1.length : Int) < n) :
    ((records.foldl (ReadCSV.callback n) state).1.length : Int) < n ∧
    ∃ sent, (records.foldl (ReadCSV.callback n) state).2 = state.2 ++ sent ∧
      (∀ b ∈ sent, b.Err = none ∧ (b.Data.length : Int) = n) ∧
      state.1 ++ records
        = sent.flatMap MicroBatch.Data ++ (records.foldl (ReadCSV.callback n) state).1 := by
  induction records generalizing state with
  | nil => exact ⟨hbuf, [], by simp, by simp, by simp⟩
  | cons rt records ih =>
    rw [List.foldl_cons]
    by_cases hfull : ((state.1 ++ [rt]).length : Int) ≥ n
    · have hstep : ReadCSV.callback n state rt
          = ([], state.2 ++ [{ Data := state.1 ++ [rt], Err := none }]) := by
        simp only [ReadCSV.callback, hfull, if_true]
      have hlen : ((state.1 ++ [rt]).length : Int) = n := by
        have : ((state.1 ++ [rt]).length : Int) = (state.1.length : Int) + 1 := by
          simp
        omega
      rw [hstep]
      obtain ⟨h1, sent, h2, h3, h4⟩ := ih ([], state.2 ++ [⟨state.1 ++ [rt], none⟩])
        (by simp; omega)
      refine ⟨h1, ⟨state.1 ++ [rt], none⟩ :: sent, ?_, ?_, ?_⟩
      · rw [h2]
        simp
      · intro b hb
        rcases List.mem_cons.1 hb with rfl | hin
        · exact ⟨rfl, hlen⟩
        · exact h3 b hin
      · simp only [List.nil_append] at h4
        rw [List.flatMap_cons, List.append_assoc, ← h4]
        simp
    · have hstep : ReadCSV.callback n state rt = (state.1 ++ [rt], state.2) := by
        simp only [ReadCSV.callback, hfull, if_false]
      rw [hstep]
      have hlt : (((state.1 ++ [rt], state.2) : List RawTransaction × List MicroBatch).1.length
          : Int) < n := by
        show ((state.1 ++ [rt]).length : Int) < n
        omega
      obtain ⟨h1, sent, h2, h3, h4⟩ := ih (state.1 ++ [rt], state.2) hlt
      refine ⟨h1, sent, h2, h3, ?_⟩
      rw [← h4]
      simp

theorem ReadCSV.foldl_callback_noerr (n : Int) (records : List RawTransaction)
    (state : List RawTransaction × List MicroBatch) :
    ∃ sent, (records.foldl (ReadCSV.callback n) state).2 = state.2 ++ sent ∧
      ∀ b ∈ sent, b.Err = none := by
  induction records generalizing state with
  | nil => exact ⟨[], by simp, by simp⟩
  | cons rt records ih =>
    rw [List.foldl_cons]
    obtain ⟨sent, h2, h3⟩ := ih (ReadCSV.callback n state rt)
    by_cases hfull : ((state.1 ++ [rt]).length : Int) ≥ n
    · have hstep : (ReadCSV.callback n state rt).2
          = state.2 ++ [{ Data := state.1 ++ [rt], Err := none }] := by
        simp only [ReadCSV.callback, hfull, if_true]
      refine ⟨⟨state.1 ++ [rt], none⟩ :: sent, ?_, ?_⟩
      · rw [h2, hstep]
        simp
      · intro b hb
        rcases List.mem_cons.1 hb with rfl | hin
        · rfl
        · exact h3 b hin
    · have hstep : (ReadCSV.callback n state rt).2 = state.2 := by
        simp only [ReadCSV.callback, hfull, if_false]
      exact ⟨sent, by rw [h2, hstep], h3⟩

/-- C13. For a record stream that decodes without error and a batch size `n ≥ 1`, `ReadCSV`
returns no error and emits batches none of which carries an error, whose data, concatenated, are
the records in source order; every batch but the last holds exactly `n` records and the last
holds between 1 and `n`; an empty stream gives no batch. -/
theorem ReadCSV_batches (records : List RawTransaction) (n : Int) (hn : 1 ≤ n) :
    (ReadCSV (records, none) n).2 = none ∧
    (∀ b ∈ (ReadCSV (records, none) n).1, b.Err = none) ∧
    (ReadCSV (records, none) n).1.flatMap MicroBatch.Data = records ∧
    (∀ b ∈ (ReadCSV (records, none) n).1.dropLast, (b.Data.length : Int) = n) ∧
    (∀ b ∈ (ReadCSV (records, none) n).1.getLast?,
      1 ≤ b.Data.length ∧ (b.Data.length : Int) ≤ n) ∧
    (records = [] → (ReadCSV (records, none) n).1 = []) := by
  obtain ⟨hbuf, sent, h2, h3, h4⟩ :=
    ReadCSV.foldl_callback_inv n hn records ([], []) (by simp; omega)
  simp only [List.nil_append] at h2 h4
  by_cases hempty : (records.foldl (ReadCSV.callback n) ([], [])).1 = []
  · have hout : (ReadCSV (records, none) n).1 = sent := by
      simp only [ReadCSV, hempty, h2]
      simp
    rw [hout]
    rw [hempty, List.append_nil] at h4
    refine ⟨rfl, fun b hb => (h3 b hb).1, h4.symm, ?_, ?_, ?_⟩
    · intro b hb
      exact (h3 b (List.mem_of_mem_dropLast hb)).2
    · intro b hb
      have hin : b ∈ sent := List.mem_of_getLast?_eq_some (Option.mem_def.1 hb)
      have := (h3 b hin).2
      exact ⟨by omega, by omega⟩
    · intro hr
      rw [hr] at h4
      have : sent.flatMap MicroBatch.Data = [] := h4.symm
      cases sent with
      | nil => rfl
      | cons b sent =>
        have hb := (h3 b (List.mem_cons_self _ _)).2
        rw [List.flatMap_cons] at this
        have hd : b.Data = [] := (List.append_eq_nil.1 this).1
        rw [hd] at hb
        simp at hb
        omega
  · have hpos : (records.foldl (ReadCSV.callback n) ([], [])).1.length > 0 :=
      List.length_pos.2 hempty
    have hout : (ReadCSV (records, none) n).1
        = sent ++ [⟨(records.foldl (ReadCSV.callback n) ([], [])).1, none⟩] := by
      simp only [ReadCSV, hpos, h2, if_true]
    rw [hout]
    refine ⟨rfl, ?_, ?_, ?_, ?_, ?_⟩
    · intro b hb
      rcases List.mem_append.1 hb with hin | hlast
      · exact (h3 b hin).1
      · rw [List.mem_singleton.1 hlast]
    · rw [List.flatMap_append]
      simpa using h4.symm
    · intro b hb
      rw [List.dropLast_concat] at hb
      exact (h3 b hb).2
    · intro b hb
      rw [List.getLast?_concat] at hb
      have hb' : b = ⟨(records.foldl (ReadCSV.callback n) ([], [])).1, none⟩ :=
        (Option.some.inj (Option.mem_def.1 hb)).symm
      rw [hb']
      show 1 ≤ (records.foldl (ReadCSV.callback n) ([], [])).1.length ∧
        ((records.foldl (ReadCSV.callback n) ([], [])).1.length : Int) ≤ n
      exact ⟨hpos, by omega⟩
    · intro hr
      rw [hr] at hempty
      exact absurd rfl hempty

/-- The seven records of `extract_test.go` in batches of three: two full batches and a last batch
of one record. -/
theorem ReadCSV_batches_witness :
    (1 : Int) ≤ 3 ∧
    ReadCSV (worker.rawTransactions, none) 3
      = ([⟨worker.rawTransactions.take 3, none⟩,
          ⟨(worker.rawTransactions.drop 3).take 3, none⟩,
          ⟨worker.rawTransactions.drop 6, none⟩], none) ∧
    (ReadCSV (worker.rawTransactions, none) 3).1.flatMap MicroBatch.Data
      = worker.rawTransactions :=
  ⟨by decide, by decide, (ReadCSV_batches worker.rawTransactions 3 (by decide)).2.2.1⟩

/-- What holds of a stream that ends with a decode error: exactly one batch carries the error,
and it carries no data. -/
theorem ReadCSV.error_batch (records : List RawTransaction) (e : String) (n : Int) :
    ∃ sent rest, (ReadCSV (records, some e) n).1
        = sent ++ ⟨[], some ("an error occured while reading the CSV, error: " ++ e)⟩ :: rest ∧
      (∀ b ∈ sent, b.Err = none) ∧ (∀ b ∈ rest, b.Err = none) := by
  obtain ⟨sent, h2, h3⟩ := ReadCSV.foldl_callback_noerr n records ([], [])
  simp only [List.nil_append] at h2
  by_cases hpos : (records.foldl (ReadCSV.callback n) ([], [])).1.length > 0
  · refine ⟨sent, [⟨(records.foldl (ReadCSV.callback n) ([], [])).1, none⟩], ?_, h3, ?_⟩
    · simp only [ReadCSV, hpos, h2, if_true]
      simp
    · intro b hb
      rw [List.mem_singleton.1 hb]
  · refine ⟨sent, [], ?_, h3, by simp⟩
    simp only [ReadCSV, hpos, h2, if_false]

/-- C14 fails on the code: after the batch that carries the decode error, `ReadCSV` still sends
the records it had buffered before the error, so the error batch is not the last batch. -/
theorem ReadCSV_error_not_last :
    ReadCSV pipeline.brokenStream 2
      = ([⟨[], some ("an error occured while reading the CSV, error: " ++
                     "record on line 3: wrong number of fields")⟩,
          ⟨pipeline.brokenStream.1, none⟩], none) ∧
    (ReadCSV pipeline.brokenStream 2).1.getLast?.map MicroBatch.Err = some none := by
  decide

end io

/-! ## Worker -/

namespace worker

theorem Worker.step_eq (cv : io.Currency2Values) (worker : Do)
    (state : List AggResult × List Outlier) (batch : io.MicroBatch) :
    Worker.step cv worker state batch
      = (state.1 ++ [AggResult.ofReturn (worker batch state.2 cv).1],
          (worker batch state.2 cv).2) := by
  unfold Worker.step AggResult.ofReturn
  rcases h : worker batch state.2 cv with ⟨⟨agg, _ | e⟩, ch⟩ <;> rfl

theorem Worker.results_eq (cv : io.Currency2Values) (worker : Do)
    (hsend : ∀ b ch, (worker b ch cv).1 = (worker b [] cv).1)
    (batches : List io.MicroBatch) (out : List AggResult) (chOutlier : List Outlier) :
    (Worker batches out chOutlier cv worker).1
      = out ++ batches.map fun b => AggResult.ofReturn (worker b [] cv).1 := by
  unfold Worker
  induction batches generalizing out chOutlier with
  | nil => simp
  | cons b batches ih =>
    rw [List.foldl_cons, Worker.step_eq, ih, hsend b chOutlier]
    simp

/-- C16. A `Worker` whose worker function only sends on the outlier channel (what it returns
does not depend on what was sent before) publishes, for the batches it consumes, exactly one
result per batch, in batch order: the error when the function returns one, and then no aggregate,
the aggregate otherwise, and then no error. The results of the batches around a batch, failing
or not, are those of the worker run without that batch. -/
theorem Worker_results (currencyValues : io.Currency2Values) (worker : Do)
    (hsend : ∀ b ch, (worker b ch currencyValues).1 = (worker b [] currencyValues).1)
    (batches : List io.MicroBatch) (out : List AggResult) (chOutlier : List Outlier) :
    (Worker batches out chOutlier currencyValues worker).1
      = out ++ batches.map (fun b => AggResult.ofReturn (worker b [] currencyValues).1) ∧
    (∀ b, (AggResult.ofReturn (worker b [] currencyValues).1).Err
        = (worker b [] currencyValues).1.2 ∧
      ((worker b [] currencyValues).1.2 ≠ none →
        (AggResult.ofReturn (worker b [] currencyValues).1).Agg = []) ∧
      ((worker b [] currencyValues).1.2 = none →
        (AggResult.ofReturn (worker b [] currencyValues).1).Agg
          = (worker b [] currencyValues).1.1)) ∧
    ∀ (pre post : List io.MicroBatch) (b : io.MicroBatch), batches = pre ++ b :: post →
      (Worker batches [] chOutlier currencyValues worker).1
        = (Worker pre [] chOutlier currencyValues worker).1
          ++ AggResult.ofReturn (worker b [] currencyValues).1
          :: (Worker post [] chOutlier currencyValues worker).1 ∧
      (Worker (pre ++ post) [] chOutlier currencyValues worker).1
        = (Worker pre [] chOutlier currencyValues worker).1
          ++ (Worker post [] chOutlier currencyValues worker).1 := by
  refine ⟨Worker.results_eq currencyValues worker hsend batches out chOutlier, ?_, ?_⟩
  · intro b
    unfold AggResult.ofReturn
    rcases (worker b [] currencyValues).1 with ⟨agg, _ | e⟩ <;> simp
  · intro pre post b hb
    rw [hb]
    simp only [Worker.results_eq currencyValues worker hsend, List.nil_append, List.map_append,
      List.map_cons, and_self]

end worker

/-! ## The pipeline -/

namespace pipeline

open worker in
theorem DoAggBatch_chan (std : GoStd) (batch : io.MicroBatch) (ch : List Outlier)
    (cv : io.Currency2Values) :
    (DoAggBatch std batch ch cv).1 = (DoAggBatch std batch [] cv).1 := by
  unfold DoAggBatch
  rw [DoCleanup_chan std batch ch]
  rcases DoCleanup std batch [] with ⟨⟨cb, _ | e⟩, o⟩
  · simp only
    rcases worker.DoAgg cb cv with ⟨agg, _ | e⟩ <;> rfl
  · rfl

open worker in
/-- The batch error is not read: a batch gives what the same batch without its error gives. -/
theorem DoAggBatch_ignores_err (std : GoStd) (batch : io.MicroBatch) (ch : List Outlier)
    (cv : io.Currency2Values) :
    DoAggBatch std batch ch cv = DoAggBatch std ⟨batch.Data, none⟩ ch cv := rfl

end pipeline

namespace worker

/-- Three batches of records of `extract_test.go` through `DoAggBatch`, the second holding a
symbol that the table of `TestDoAgg` does not have. -/
theorem Worker_results_witness :
    (Worker [⟨rawTransactions.take 1, none⟩, ⟨rawTransactions, none⟩,
        ⟨rawTransactions.take 2, none⟩] [] [] testCurrencyValues (pipeline.DoAggBatch goStd)).1
      = [] ++ [⟨rawTransactions.take 1, none⟩, ⟨rawTransactions, none⟩,
          ⟨rawTransactions.take 2, none⟩].map
            (fun b => AggResult.ofReturn (pipeline.DoAggBatch goStd b [] testCurrencyValues).1) ∧
    [(⟨rawTransactions.take 1, none⟩ : io.MicroBatch), ⟨rawTransactions, none⟩,
        ⟨rawTransactions.take 2, none⟩].map
          (fun b => AggResult.ofReturn (pipeline.DoAggBatch goStd b [] testCurrencyValues).1)
      = [⟨[⟨"2023-10-01", "ProjectA", 1, F64.fin 100⟩], none⟩,
         ⟨[], some "failed to aggregate batch: currency symbol not supported: CHF"⟩,
         ⟨[⟨"2023-10-01", "ProjectA", 1, F64.fin 100⟩,
           ⟨"2023-10-01", "ProjectB", 1, F64.fin 60⟩], none⟩] :=
  ⟨(Worker_results testCurrencyValues (pipeline.DoAggBatch goStd)
      (fun b ch => pipeline.DoAggBatch_chan goStd b ch testCurrencyValues) _ [] []).1,
    by decide!⟩

end worker

namespace pipeline

/-- C15 fails on the code: `DoAggBatch` does not read the error of the batch, so the batch that
carries a decode error gives an empty aggregate and no error; the run then writes the aggregate of
the records read before the error and returns no error. -/
theorem DoAggBatch_error_batch :
    DoAggBatch worker.goStd ⟨[], some "an error occured while reading the CSV, error: boom"⟩ []
        worker.testCurrencyValues
      = (([], none), []) ∧
    DoAgg brokenEnv 1 2
      = { err := none,
          writeAggCalls := [[⟨"2023-10-01", "ProjectA", 1, F64.fin 100⟩]],
          outliers := [],
          outlierChClosed := true } := by
  decide!

/-- C17. In `pipeline.DoAgg`, `WriteAgg` is called at most once, and when it is called the
currency table was read and `DoAggReducer` returned, without error, the aggregate it is called
with; if the currency table cannot be read, or if a result delivered to the reducer carries an
error, `WriteAgg` is not called and `pipeline.DoAgg` returns an error. -/
theorem DoAgg_writes (env : Env) (parallelism microBatchSize : Int) :
    (DoAgg env parallelism microBatchSize).writeAggCalls.length ≤ 1 ∧
    (∀ agg ∈ (DoAgg env parallelism microBatchSize).writeAggCalls,
      (io.ReadCurrencyValues env.toUpper env.coins).2 = none ∧
      worker.DoAggReducer (worker.ParallelProcessing (io.ReadCSV env.stream microBatchSize).1 []
          (DoAggBatch env.std) (io.ReadCurrencyValues env.toUpper env.coins).1 parallelism
          env.arrival).1
        = (agg, none)) ∧
    ((io.ReadCurrencyValues env.toUpper env.coins).2 ≠ none ∨
      (∃ r ∈ (worker.ParallelProcessing (io.ReadCSV env.stream microBatchSize).1 []
          (DoAggBatch env.std) (io.ReadCurrencyValues env.toUpper env.coins).1 parallelism
          env.arrival).1, r.Err ≠ none) →
      (DoAgg env parallelism microBatchSize).writeAggCalls = [] ∧
      (DoAgg env parallelism microBatchSize).err ≠ none) := by
  have hcsv : io.ReadCSV env.stream microBatchSize
      = ((io.ReadCSV env.stream microBatchSize).1, none) := rfl
  rcases hcur : io.ReadCurrencyValues env.toUpper env.coins with ⟨cv, _ | ce⟩
  · -- the table was read
    rcases hred : worker.DoAggReducer (worker.ParallelProcessing
        (io.ReadCSV env.stream microBatchSize).1 [] (DoAggBatch env.std) cv parallelism
        env.arrival).1 with ⟨agg, _ | re⟩
    · -- the reducer returned no error
      have hnoerr : ¬ ∃ r ∈ (worker.ParallelProcessing (io.ReadCSV env.stream microBatchSize).1
          [] (DoAggBatch env.std) cv parallelism env.arrival).1, r.Err ≠ none := by
        intro hex
        have := ((worker.DoAggReducer_err_ne_none_iff _).2 hex)
        rw [hred] at this
        exact this rfl
      have hcalls : (DoAgg env parallelism microBatchSize).writeAggCalls = [agg] := by
        unfold DoAgg
        rw [hcur]
        simp only
        rw [hcsv]
        simp only [hred]
        rcases env.writeAgg agg with ⟨_, _ | we⟩ <;> rfl
      rw [hcalls]
      refine ⟨by simp, ?_, ?_⟩
      · intro a ha
        rw [List.mem_singleton.1 ha]
        exact ⟨rfl, rfl⟩
      · rintro (h | h)
        · exact absurd rfl h
        · exact absurd h hnoerr
    · -- the reducer returned an error
      have hrun : DoAgg env parallelism microBatchSize
          = { err := some ("failed to reduce aggregated transactions: " ++ re),
              writeAggCalls := [],
              outliers := (worker.ParallelProcessing (io.ReadCSV env.stream microBatchSize).1 []
                (DoAggBatch env.std) cv parallelism env.arrival).2,
              outlierChClosed := false } := by
        unfold DoAgg
        rw [hcur]
        simp only
        rw [hcsv]
        simp only [hred]
      rw [hrun]
      exact ⟨by simp, by simp, fun _ => ⟨rfl, by simp⟩⟩
  · -- the table could not be read
    have hrun : DoAgg env parallelism microBatchSize
        = { err := some ("failed to read currency values: " ++ ce), writeAggCalls := [],
            outliers := [], outlierChClosed := false } := by
      unfold DoAgg
      rw [hcur]
    rw [hrun]
    exact ⟨by simp, by simp, fun _ => ⟨rfl, by simp⟩⟩

end pipeline

namespace pipeline

/-- A run whose currency file cannot be decoded: the sink is not called. -/
theorem DoAgg_writes_witness :
    (io.ReadCurrencyValues unreadableEnv.toUpper unreadableEnv.coins).2 ≠ none ∧
    DoAgg unreadableEnv 1 2
      = ⟨some "failed to read currency values: failed to unmarshal CSV: EOF", [], [], false⟩ ∧
    (DoAgg unreadableEnv 1 2).writeAggCalls = [] ∧ (DoAgg unreadableEnv 1 2).err ≠ none :=
  ⟨by decide, by decide, (DoAgg_writes unreadableEnv 1 2).2.2 (Or.inl (by decide))⟩

end pipeline

/-! ## Records through the per-batch step -/

namespace GoMap

theorem sum_values_store {β : Type} (f : β → Int) (m : GoMap β) (k : String) (v : β) :
    ((m.store k v).values.map f).sum
      = (m.values.map f).sum - ((m.lookup k).map f).getD 0 + f v := by
  induction m with
  | nil => simp [store, lookup, values]
  | cons e rest ih =>
    obtain ⟨k0, v0⟩ := e
    by_cases h0 : k0 = k
    · simp [store, lookup, values, h0]
      ring
    · simp only [values] at ih
      simp only [store, lookup, values, h0, if_false, List.map_cons, List.sum_cons, ih]
      ring

end GoMap

namespace worker

theorem DoAggReducer.sum_count_merge (m : GoMap Agg) (x : Agg) :
    ((DoAggReducer.merge m x).values.map Agg.NumberOfTransactions).sum
      = (m.values.map Agg.NumberOfTransactions).sum + x.NumberOfTransactions := by
  rw [DoAggReducer.merge_eq, GoMap.sum_values_store]
  cases m.lookup x.key with
  | none => simp [Agg.combine_none]
  | some e =>
    simp only [Agg.combine_some, Option.map_some', Option.getD_some]
    ring

theorem DoAggReducer.sum_count_foldl_merge (xs : List Agg) (m : GoMap Agg) :
    ((xs.foldl DoAggReducer.merge m).values.map Agg.NumberOfTransactions).sum
      = (m.values.map Agg.NumberOfTransactions).sum
        + (xs.map Agg.NumberOfTransactions).sum := by
  induction xs generalizing m with
  | nil => simp
  | cons x xs ih =>
    rw [List.foldl_cons, ih, DoAggReducer.sum_count_merge, List.map_cons, List.sum_cons]
    ring

theorem DoAgg_symbols_of_ok (batch : MicroBatch) (cv : io.Currency2Values)
    (h : (DoAgg batch cv).2 = none) :
    ∀ t ∈ batch.Data, cv.lookup t.CurrencySymbol ≠ none := by
  intro t ht hn
  obtain ⟨e, he⟩ := DoAgg.loop_error cv batch.Data GoMap.empty ⟨t, ht, hn⟩
  have hres : DoAgg batch cv = ([], some e) := by
    unfold DoAgg
    rw [he]
  rw [hres] at h
  cases h

/-- Without error, the counts of the entries of `DoAgg` add up to the number of records of the
batch, and every entry counts at least one record. -/
theorem DoAgg_counts (batch : MicroBatch) (cv : io.Currency2Values)
    (h : (DoAgg batch cv).2 = none) :
    ((DoAgg batch cv).1.map Agg.NumberOfTransactions).sum = (batch.Data.length : Int) ∧
    ∀ a ∈ (DoAgg batch cv).1, 1 ≤ a.NumberOfTransactions := by
  have hsym := DoAgg_symbols_of_ok batch cv h
  rw [DoAgg_ok batch cv hsym]
  constructor
  · show ((List.foldl DoAggReducer.merge GoMap.empty _).values.map _).sum = _
    rw [DoAggReducer.sum_count_foldl_merge, Transaction.sum_count]
    simp [GoMap.empty, GoMap.values]
  · intro a ha
    obtain ⟨⟨x, hx, hd, hp⟩, htot⟩ := (DoAggReducer.mem_values_foldl_merge _
      (Transaction.toAgg_no_sep cv batch.Data) a).1 ha
    have hN : a.NumberOfTransactions = (Agg.total a.Date a.ProjectId
        (batch.Data.map (Transaction.toAgg cv))).NumberOfTransactions := by
      rw [← htot]
    simp only [Agg.total, Transaction.group_toAgg, Transaction.sum_count] at hN
    obtain ⟨t, ht, rfl⟩ := List.mem_map.1 hx
    have hmem : t ∈ Transaction.group a.Date a.ProjectId batch.Data := by
      unfold Transaction.group
      exact List.mem_filter.2 ⟨ht, by simpa using ⟨hd, hp⟩⟩
    have hpos : 0 < (Transaction.group a.Date a.ProjectId batch.Data).length :=
      List.length_pos_of_mem hmem
    rw [hN]
    omega

end worker

namespace pipeline

open worker in
theorem DoAggBatch_ok (std : GoStd) (batch : io.MicroBatch) (ch : List Outlier)
    (cv : io.Currency2Values) (h : (DoAggBatch std batch ch cv).1.2 = none) :
    (worker.DoAgg (DoCleanup std batch ch).1.1 cv).2 = none ∧
    (DoAggBatch std batch ch cv).1.1 = (worker.DoAgg (DoCleanup std batch ch).1.1 cv).1 ∧
    (DoAggBatch std batch ch cv).2 = (DoCleanup std batch ch).2 := by
  have hb : DoAggBatch std batch ch cv
      = (match worker.DoAgg (DoCleanup std batch ch).1.1 cv with
        | (_, some err) =>
          (([], some ("failed to aggregate batch: " ++ err)), (DoCleanup std batch ch).2)
        | (agg, none) => ((agg, none), (DoCleanup std batch ch).2)) := rfl
  rw [hb] at h ⊢
  generalize worker.DoAgg (DoCleanup std batch ch).1.1 cv = r at h ⊢
  rcases r with ⟨agg, _ | e⟩
  · exact ⟨rfl, rfl, rfl⟩
  · cases h

open worker in
/-- C21. For every raw batch and currency table for which `DoAggBatch` returns no error, the
outliers it sends are appended to the channel, the counts of the returned entries plus the number
of those outliers is the number of raw records of the batch, and every returned entry counts at
least one record. -/
theorem DoAggBatch_counts (std : GoStd) (batch : io.MicroBatch) (outlierChan : List Outlier)
    (currencyValues : io.Currency2Values)
    (h : (DoAggBatch std batch outlierChan currencyValues).1.2 = none) :
    ∃ sent, (DoAggBatch std batch outlierChan currencyValues).2 = outlierChan ++ sent ∧
      ((DoAggBatch std batch outlierChan currencyValues).1.1.map Agg.NumberOfTransactions).sum
          + (sent.length : Int)
        = (batch.Data.length : Int) ∧
      ∀ a ∈ (DoAggBatch std batch outlierChan currencyValues).1.1,
        1 ≤ a.NumberOfTransactions := by
  obtain ⟨hagg, hres, hch⟩ := DoAggBatch_ok std batch outlierChan currencyValues h
  obtain ⟨hsum, hpos⟩ := DoAgg_counts _ currencyValues hagg
  obtain ⟨sent, hsent, hlen⟩ :=
    DoCleanup.foldl_step_length std batch.Data ([], outlierChan)
  have hdata : (DoCleanup std batch outlierChan).1.1.Data
      = (batch.Data.foldl (DoCleanup.step std) ([], outlierChan)).1 := rfl
  have hout : (DoCleanup std batch outlierChan).2
      = (batch.Data.foldl (DoCleanup.step std) ([], outlierChan)).2 := rfl
  refine ⟨sent, ?_, ?_, ?_⟩
  · rw [hch, hout, hsent]
  · rw [hres, hsum, hdata]
    simp only [List.length_nil, Nat.zero_add] at hlen
    omega
  · rw [hres]
    exact hpos

/-- The test `TestDoCleanup` with a table that has its three accepted symbols: three entries of
one record each and four outliers, for seven raw records. -/
theorem DoAggBatch_counts_witness :
    (DoAggBatch worker.goStd ⟨worker.rawTransactions, none⟩ []
      [("USD", F64.fin 1), ("EUR", F64.fin (6 / 5)), ("CHF", F64.fin 1)]).1
      = ([⟨"2023-10-01", "ProjectA", 1, F64.fin 100⟩, ⟨"2023-10-01", "ProjectB", 1, F64.fin 60⟩,
          ⟨"2023-10-01", "ProjectG", 1, F64.fin 200⟩], none) ∧
    (DoAggBatch worker.goStd ⟨worker.rawTransactions, none⟩ []
      [("USD", F64.fin 1), ("EUR", F64.fin (6 / 5)), ("CHF", F64.fin 1)]).2.length = 4 ∧
    ∃ sent, (DoAggBatch worker.goStd ⟨worker.rawTransactions, none⟩ []
        [("USD", F64.fin 1), ("EUR", F64.fin (6 / 5)), ("CHF", F64.fin 1)]).2 = [] ++ sent ∧
      ((DoAggBatch worker.goStd ⟨worker.rawTransactions, none⟩ []
        [("USD", F64.fin 1), ("EUR", F64.fin (6 / 5)), ("CHF", F64.fin 1)]).1.1.map
          worker.Agg.NumberOfTransactions).sum + (sent.length : Int)
        = ((⟨worker.rawTransactions, none⟩ : io.MicroBatch).Data.length : Int) ∧
      ∀ a ∈ (DoAggBatch worker.goStd ⟨worker.rawTransactions, none⟩ []
        [("USD", F64.fin 1), ("EUR", F64.fin (6 / 5)), ("CHF", F64.fin 1)]).1.1,
        1 ≤ a.NumberOfTransactions :=
  ⟨by decide!, by decide!,
    DoAggBatch_counts worker.goStd ⟨worker.rawTransactions, none⟩ []
      [("USD", F64.fin 1), ("EUR", F64.fin (6 / 5)), ("CHF", F64.fin 1)] (by decide!)⟩

end pipeline

/-! ## The aggregation over the arithmetic of the machine -/

namespace GoMap

theorem lookup_put {α β : Type} (key : α → String) (upd : Option β → α → β) (m : GoMap β)
    (x : α) (k : String) :
    (put key upd m x).lookup k = if key x = k then some (upd (m.lookup k) x) else m.lookup k := by
  unfold put
  rw [lookup_store]
  by_cases h : key x = k
  · subst h
    simp
  · simp [h]

theorem lookup_foldl_put {α β : Type} (key : α → String) (upd : Option β → α → β) (xs : List α)
    (m : GoMap β) (k : String) :
    (xs.foldl (put key upd) m).lookup k
      = (xs.filter fun x => decide (key x = k)).foldl (fun o x => some (upd o x))
          (m.lookup k) := by
  induction xs generalizing m with
  | nil => rfl
  | cons x xs ih =>
    simp only [List.foldl_cons, ih, lookup_put]
    by_cases h : key x = k <;> simp [List.filter_cons, h]

theorem nodup_foldl_put {α β : Type} (key : α → String) (upd : Option β → α → β) (xs : List α)
    (m : GoMap β) (h : m.keys.Nodup) : (xs.foldl (put key upd) m).keys.Nodup := by
  induction xs generalizing m with
  | nil => exact h
  | cons x xs ih =>
    simp only [List.foldl_cons]
    exact ih _ (nodup_store _ _ _ h)

/-- The entries of a map filled by `put`: what the successive updates make, from nothing, of the
elements of the list under one key. -/
theorem mem_values_foldl_put {α β : Type} (key : α → String) (upd : Option β → α → β)
    (xs : List α) (a : β) :
    a ∈ (xs.foldl (put key upd) empty).values
      ↔ ∃ k, (xs.filter fun x => decide (key x = k)).foldl (fun o x => some (upd o x)) none
          = some a := by
  rw [mem_values_iff _ (nodup_foldl_put key upd xs empty List.nodup_nil)]
  simp only [lookup_foldl_put]
  rfl

end GoMap

namespace Arith

theorem foldl_addF_ideal (l : List F64) (v : F64) : l.foldl ideal.addF v = v + l.sum := by
  induction l generalizing v with
  | nil => simp
  | cons x xs ih =>
    rw [List.foldl_cons, ih, List.sum_cons]
    show v + x + xs.sum = v + (x + xs.sum)
    rw [add_assoc]

theorem foldl_addI_ideal (l : List Int) (v : Int) : l.foldl ideal.addI v = v + l.sum := by
  induction l generalizing v with
  | nil => simp
  | cons x xs ih =>
    rw [List.foldl_cons, ih, List.sum_cons]
    show v + x + xs.sum = v + (x + xs.sum)
    rw [add_assoc]

/-- In exact arithmetic the accumulated `float64` sum is the sum. -/
theorem sumF_ideal (l : List F64) : ideal.sumF l = l.sum := by
  cases l with
  | nil => rfl
  | cons x xs => exact foldl_addF_ideal xs x

/-- In exact arithmetic the accumulated `int` sum is the sum. -/
theorem sumI_ideal (l : List Int) : ideal.sumI l = l.sum := by
  cases l with
  | nil => rfl
  | cons x xs => exact foldl_addI_ideal xs x

end Arith

namespace worker

theorem Transaction.key_eq_key_iff (t u : Transaction) :
    t.key = u.key
      ↔ t.Timestamp.Format = u.Timestamp.Format ∧ t.ProjectID = u.ProjectID :=
  key_inj (Time.Format_no_sep t.Timestamp) (Time.Format_no_sep u.Timestamp)

theorem Transaction.mem_group_iff {d p : String} {t : Transaction} {ts : List Transaction} :
    t ∈ Transaction.group d p ts ↔ t ∈ ts ∧ t.Timestamp.Format = d ∧ t.ProjectID = p := by
  unfold Transaction.group
  simp [List.mem_filter]

namespace machine

/-! ### DoAggReducer -/

theorem DoAggReducer.merge_eq_put (ar : Arith) :
    DoAggReducer.merge ar = GoMap.put Agg.key (DoAggReducer.update ar) := by
  funext m x
  unfold DoAggReducer.merge GoMap.put
  show (match m.lookup x.key with
    | none => m.store x.key x
    | some existingAgg => m.store x.key _) = _
  cases m.lookup x.key <;> rfl

theorem DoAggReducer.foldl_merge_update_some (ar : Arith) (e : Agg) (ys : List Agg) :
    ys.foldl (fun o x => some (DoAggReducer.update ar o x)) (some e)
      = some { e with
          NumberOfTransactions :=
            (ys.map Agg.NumberOfTransactions).foldl ar.addI e.NumberOfTransactions,
          TotalVolumeUsd := (ys.map Agg.TotalVolumeUsd).foldl ar.addF e.TotalVolumeUsd } := by
  induction ys generalizing e with
  | nil => rfl
  | cons y ys ih =>
    rw [List.foldl_cons]
    show List.foldl _ (some { e with
      NumberOfTransactions := ar.addI e.NumberOfTransactions y.NumberOfTransactions,
      TotalVolumeUsd := ar.addF e.TotalVolumeUsd y.TotalVolumeUsd }) ys = _
    rw [ih]
    rfl

theorem DoAggReducer.foldl_merge_update_none (ar : Arith) (y : Agg) (ys : List Agg) :
    (y :: ys).foldl (fun o x => some (DoAggReducer.update ar o x)) none
      = some { y with
          NumberOfTransactions := ar.sumI ((y :: ys).map Agg.NumberOfTransactions),
          TotalVolumeUsd := ar.sumF ((y :: ys).map Agg.TotalVolumeUsd) } := by
  rw [List.foldl_cons]
  show List.foldl _ (some y) ys = _
  rw [DoAggReducer.foldl_merge_update_some]
  rfl

/-- Under the key of an entry of the list, the merged map holds the accumulated entry of its date
and project, when no date of the list contains the separator of the keys. -/
theorem DoAggReducer.lookup_merged_key (ar : Arith) (xs : List Agg)
    (h : ∀ x ∈ xs, '_' ∉ x.Date.data) (y : Agg) (hy : y ∈ xs) :
    (xs.foldl (DoAggReducer.merge ar) GoMap.empty).lookup y.key
      = some (Agg.total ar y.Date y.ProjectId xs) := by
  rw [DoAggReducer.merge_eq_put, GoMap.lookup_foldl_put]
  have hfil : (xs.filter fun x => decide (x.key = y.key)) = Agg.group y.Date y.ProjectId xs := by
    unfold Agg.group
    apply List.filter_congr
    intro x hx
    simp only [decide_eq_decide]
    exact Agg.key_eq_iff (h x hx) (h y hy)
  rw [hfil]
  have hmem : y ∈ Agg.group y.Date y.ProjectId xs := Agg.mem_group.2 ⟨hy, rfl, rfl⟩
  unfold Agg.total
  cases hg : Agg.group y.Date y.ProjectId xs with
  | nil => rw [hg] at hmem; simp at hmem
  | cons z zs =>
    have hz := (Agg.mem_group.1 (show z ∈ Agg.group y.Date y.ProjectId xs by
      rw [hg]; exact List.mem_cons_self _ _)).2
    show List.foldl _ none (z :: zs) = _
    rw [DoAggReducer.foldl_merge_update_none]
    simp [hz.1, hz.2]

/-- Under a key that no entry of the list has, the merged map holds nothing. -/
theorem DoAggReducer.lookup_merged_none (ar : Arith) (xs : List Agg) (k : String)
    (hk : ∀ x ∈ xs, x.key ≠ k) :
    (xs.foldl (DoAggReducer.merge ar) GoMap.empty).lookup k = none := by
  rw [DoAggReducer.merge_eq_put, GoMap.lookup_foldl_put]
  have : (xs.filter fun x => decide (x.key = k)) = [] := by
    apply List.filter_eq_nil_iff.2
    intro x hx
    simpa using hk x hx
  rw [this]
  rfl

/-- The entries of the merged map: one per date and project of the list, holding the accumulated
entry. -/
theorem DoAggReducer.mem_values_merged (ar : Arith) (xs : List Agg)
    (h : ∀ x ∈ xs, '_' ∉ x.Date.data) (a : Agg) :
    a ∈ (xs.foldl (DoAggReducer.merge ar) GoMap.empty).values
      ↔ (∃ x ∈ xs, x.Date = a.Date ∧ x.ProjectId = a.ProjectId)
        ∧ a = Agg.total ar a.Date a.ProjectId xs := by
  have hnd : (xs.foldl (DoAggReducer.merge ar) GoMap.empty).keys.Nodup := by
    rw [DoAggReducer.merge_eq_put]
    exact GoMap.nodup_foldl_put _ _ xs GoMap.empty List.nodup_nil
  rw [GoMap.mem_values_iff _ hnd]
  constructor
  · rintro ⟨k, hk⟩
    by_cases hex : ∃ y ∈ xs, y.key = k
    · obtain ⟨y, hy, rfl⟩ := hex
      rw [DoAggReducer.lookup_merged_key ar xs h y hy] at hk
      have ha : a = Agg.total ar y.Date y.ProjectId xs := (Option.some.inj hk).symm
      have hd : a.Date = y.Date := by rw [ha]; rfl
      have hp : a.ProjectId = y.ProjectId := by rw [ha]; rfl
      exact ⟨⟨y, hy, hd.symm, hp.symm⟩, by rw [hd, hp]; exact ha⟩
    · rw [DoAggReducer.lookup_merged_none ar xs k (fun x hx hxk => hex ⟨x, hx, hxk⟩)] at hk
      cases hk
  · rintro ⟨⟨y, hy, hd, hp⟩, ha⟩
    refine ⟨y.key, ?_⟩
    rw [DoAggReducer.lookup_merged_key ar xs h y hy, hd, hp, ← ha]

theorem DoAggReducer.loop_eq_foldl_merge (ar : Arith) (rs : List AggResult) (m : GoMap Agg)
    (h : ∀ r ∈ rs, r.Err = none) :
    DoAggReducer.loop ar rs m
      = .ok ((rs.flatMap AggResult.Agg).foldl (DoAggReducer.merge ar) m) := by
  induction rs generalizing m with
  | nil => rfl
  | cons r rs ih =>
    have hr : r.Err = none := h r (List.mem_cons_self _ _)
    simp only [DoAggReducer.loop, hr, List.flatMap_cons, List.foldl_append]
    exact ih _ (fun r' hr' => h r' (List.mem_cons_of_mem _ hr'))

theorem DoAggReducer_eq_foldl_merge (ar : Arith) (rs : List AggResult)
    (h : ∀ r ∈ rs, r.Err = none) :
    DoAggReducer ar rs
      = (((rs.flatMap AggResult.Agg).foldl (DoAggReducer.merge ar) GoMap.empty).values,
          none) := by
  unfold DoAggReducer
  rw [DoAggReducer.loop_eq_foldl_merge ar rs _ h]

/-! ### DoAgg -/

theorem DoAgg.step_eq_put (ar : Arith) (cv : io.Currency2Values) (m : GoMap Agg)
    (t : Transaction) (h : cv.lookup t.CurrencySymbol ≠ none) :
    DoAgg.step ar cv m t = .ok (GoMap.put Transaction.key (DoAgg.update ar cv) m t) := by
  obtain ⟨v, hv⟩ := Option.ne_none_iff_exists'.1 h
  unfold DoAgg.step GoMap.put Transaction.key
  simp only [hv]
  cases hl : m.lookup (t.Timestamp.Format ++ "_" ++ t.ProjectID) with
  | none => simp only [DoAgg.update, Transaction.usd, rate_eq hv, zero_add]
  | some e => simp only [DoAgg.update, Transaction.usd, rate_eq hv]

theorem DoAgg.loop_eq_put (ar : Arith) (cv : io.Currency2Values) (ts : List Transaction)
    (m : GoMap Agg) (h : ∀ t ∈ ts, cv.lookup t.CurrencySymbol ≠ none) :
    DoAgg.loop ar cv ts m = .ok (ts.foldl (GoMap.put Transaction.key (DoAgg.update ar cv)) m) := by
  induction ts generalizing m with
  | nil => rfl
  | cons t ts ih =>
    simp only [DoAgg.loop, DoAgg.step_eq_put ar cv m t (h t (List.mem_cons_self _ _)),
      List.foldl_cons]
    exact ih _ (fun t' ht' => h t' (List.mem_cons_of_mem _ ht'))

theorem DoAgg_eq_put (ar : Arith) (batch : MicroBatch) (cv : io.Currency2Values)
    (h : ∀ t ∈ batch.Data, cv.lookup t.CurrencySymbol ≠ none) :
    DoAgg ar batch cv
      = ((batch.Data.foldl (GoMap.put Transaction.key (DoAgg.update ar cv)) GoMap.empty).values,
          none) := by
  unfold DoAgg
  rw [DoAgg.loop_eq_put ar cv _ _ h]

theorem DoAgg.foldl_step_update_some (ar : Arith) (cv : io.Currency2Values) (e : Agg)
    (ys : List Transaction) :
    ys.foldl (fun o t => some (DoAgg.update ar cv o t)) (some e)
      = some { e with
          NumberOfTransactions := e.NumberOfTransactions + (ys.length : Int),
          TotalVolumeUsd :=
            (ys.map (Transaction.usd ar cv)).foldl ar.addF e.TotalVolumeUsd } := by
  induction ys generalizing e with
  | nil => simp
  | cons y ys ih =>
    rw [List.foldl_cons]
    show List.foldl _ (some { e with
      NumberOfTransactions := e.NumberOfTransactions + 1,
      TotalVolumeUsd := ar.addF e.TotalVolumeUsd (y.usd ar cv) }) ys = _
    rw [ih]
    simp only [List.length_cons, List.map_cons, List.foldl_cons, Nat.cast_add, Nat.cast_one,
      Option.some.injEq, Agg.mk.injEq, and_true, true_and]
    ring

theorem DoAgg.foldl_step_update_none (ar : Arith) (cv : io.Currency2Values) (y : Transaction)
    (ys : List Transaction) :
    (y :: ys).foldl (fun o t => some (DoAgg.update ar cv o t)) none
      = some { Date := y.Timestamp.Format, ProjectId := y.ProjectID,
               NumberOfTransactions := ((y :: ys).length : Int),
               TotalVolumeUsd := ((y :: ys).map (Transaction.usd ar cv)).foldl ar.addF 0 } := by
  rw [List.foldl_cons]
  show List.foldl _
    (some (Agg.mk y.Timestamp.Format y.ProjectID (0 + 1) (ar.addF 0 (y.usd ar cv)))) ys = _
  rw [DoAgg.foldl_step_update_some]
  simp only [List.length_cons, List.map_cons, List.foldl_cons, Nat.cast_add, Nat.cast_one,
    Option.some.injEq, Agg.mk.injEq, and_true, true_and]
  ring

/-- Under the key of a transaction of the list, the map of `DoAgg` holds the entry of its date and
project. -/
theorem DoAgg.lookup_grouped_key (ar : Arith) (cv : io.Currency2Values)
    (ts : List Transaction) (u : Transaction) (hu : u ∈ ts) :
    (ts.foldl (GoMap.put Transaction.key (DoAgg.update ar cv)) GoMap.empty).lookup u.key
      = some (Transaction.total ar cv u.Timestamp.Format u.ProjectID ts) := by
  rw [GoMap.lookup_foldl_put]
  have hfil : (ts.filter fun t => decide (t.key = u.key))
      = Transaction.group u.Timestamp.Format u.ProjectID ts := by
    unfold Transaction.group
    apply List.filter_congr
    intro t _
    simp only [decide_eq_decide]
    exact Transaction.key_eq_key_iff t u
  rw [hfil]
  have hmem : u ∈ Transaction.group u.Timestamp.Format u.ProjectID ts :=
    Transaction.mem_group_iff.2 ⟨hu, rfl, rfl⟩
  unfold Transaction.total
  cases hg : Transaction.group u.Timestamp.Format u.ProjectID ts with
  | nil => rw [hg] at hmem; simp at hmem
  | cons z zs =>
    have hz := (Transaction.mem_group_iff.1
      (show z ∈ Transaction.group u.Timestamp.Format u.ProjectID ts by
        rw [hg]; exact List.mem_cons_self _ _)).2
    show List.foldl _ none (z :: zs) = _
    rw [DoAgg.foldl_step_update_none]
    simp [hz.1, hz.2]

/-- Under a key that no transaction of the list has, the map of `DoAgg` holds nothing. -/
theorem DoAgg.lookup_grouped_none (ar : Arith) (cv : io.Currency2Values)
    (ts : List Transaction) (k : String) (hk : ∀ t ∈ ts, t.key ≠ k) :
    (ts.foldl (GoMap.put Transaction.key (DoAgg.update ar cv)) GoMap.empty).lookup k = none := by
  rw [GoMap.lookup_foldl_put]
  have : (ts.filter fun t => decide (t.key = k)) = [] := by
    apply List.filter_eq_nil_iff.2
    intro t ht
    simpa using hk t ht
  rw [this]
  rfl

/-- The entries of the map of `DoAgg`: one per date and project of the batch, holding the number
of its transactions and their accumulated volume. -/
theorem DoAgg.mem_values_grouped (ar : Arith) (cv : io.Currency2Values)
    (ts : List Transaction) (a : Agg) :
    a ∈ (ts.foldl (GoMap.put Transaction.key (DoAgg.update ar cv)) GoMap.empty).values
      ↔ (∃ t ∈ ts, t.Timestamp.Format = a.Date ∧ t.ProjectID = a.ProjectId)
        ∧ a = Transaction.total ar cv a.Date a.ProjectId ts := by
  rw [GoMap.mem_values_iff _ (GoMap.nodup_foldl_put _ _ ts GoMap.empty List.nodup_nil)]
  constructor
  · rintro ⟨k, hk⟩
    by_cases hex : ∃ u ∈ ts, u.key = k
    · obtain ⟨u, hu, rfl⟩ := hex
      rw [DoAgg.lookup_grouped_key ar cv ts u hu] at hk
      have ha : a = Transaction.total ar cv u.Timestamp.Format u.ProjectID ts :=
        (Option.some.inj hk).symm
      have hd : a.Date = u.Timestamp.Format := by rw [ha]; rfl
      have hp : a.ProjectId = u.ProjectID := by rw [ha]; rfl
      exact ⟨⟨u, hu, hd.symm, hp.symm⟩, by rw [hd, hp]; exact ha⟩
    · rw [DoAgg.lookup_grouped_none ar cv ts k (fun t ht htk => hex ⟨t, ht, htk⟩)] at hk
      cases hk
  · rintro ⟨⟨u, hu, hd, hp⟩, ha⟩
    refine ⟨u.key, ?_⟩
    rw [DoAgg.lookup_grouped_key ar cv ts u hu, hd, hp, ← ha]

/-! ### Exact arithmetic -/

theorem DoAgg.step_ideal (cv : io.Currency2Values) (m : GoMap Agg) (t : Transaction) :
    DoAgg.step Arith.ideal cv m t = worker.DoAgg.step cv m t := rfl

theorem DoAgg.loop_ideal (cv : io.Currency2Values) (ts : List Transaction) (m : GoMap Agg) :
    DoAgg.loop Arith.ideal cv ts m = worker.DoAgg.loop cv ts m := by
  induction ts generalizing m with
  | nil => rfl
  | cons t ts ih =>
    simp only [DoAgg.loop, worker.DoAgg.loop, DoAgg.step_ideal]
    cases worker.DoAgg.step cv m t with
    | error e => rfl
    | ok m' => exact ih m'

/-- The function `DoAgg` of the exact arithmetic is `DoAgg` over `Arith.ideal`. -/
theorem DoAgg_ideal (batch : MicroBatch) (cv : io.Currency2Values) :
    DoAgg Arith.ideal batch cv = worker.DoAgg batch cv := by
  unfold DoAgg worker.DoAgg
  rw [DoAgg.loop_ideal]

theorem DoAggReducer.merge_ideal :
    DoAggReducer.merge Arith.ideal = worker.DoAggReducer.merge := by
  funext m x
  rfl

theorem DoAggReducer.reduce_loop_ideal (rs : List AggResult) (m : GoMap Agg) :
    DoAggReducer.loop Arith.ideal rs m = worker.DoAggReducer.loop rs m := by
  induction rs generalizing m with
  | nil => rfl
  | cons r rs ih =>
    simp only [DoAggReducer.loop, worker.DoAggReducer.loop, DoAggReducer.merge_ideal]
    cases r.Err with
    | some e => rfl
    | none => exact ih _

/-- The function `DoAggReducer` of the exact arithmetic is `DoAggReducer` over `Arith.ideal`. -/
theorem DoAggReducer_ideal (rs : List AggResult) :
    DoAggReducer Arith.ideal rs = worker.DoAggReducer rs := by
  unfold DoAggReducer worker.DoAggReducer
  rw [DoAggReducer.reduce_loop_ideal]

end machine

/-! ### Claims -/

/-- C1. When every currency symbol of the batch is a key of the currency table, `DoAgg` returns no
error; its output has an entry for a date and project exactly when some record of the batch has
that formatted date and that project; the count of an entry is the number of those records and its
volume is the sum over them of `rate(symbol) * volume`: the `float64` sum of the `float64`
products, accumulated from `0` in the order of the batch as the code does. This holds whatever
the `float64` operations round or overflow to. -/
theorem DoAgg_groups (ar : Arith) (currencyValues : io.Currency2Values) (batch : MicroBatch)
    (h : ∀ t ∈ batch.Data, currencyValues.lookup t.CurrencySymbol ≠ none) :
    (machine.DoAgg ar batch currencyValues).2 = none ∧
    (∀ d p : String,
      (∃ a ∈ (machine.DoAgg ar batch currencyValues).1, a.Date = d ∧ a.ProjectId = p)
        ↔ ∃ t ∈ batch.Data, t.Timestamp.Format = d ∧ t.ProjectID = p) ∧
    ∀ a ∈ (machine.DoAgg ar batch currencyValues).1,
      a.NumberOfTransactions
          = ((Transaction.group a.Date a.ProjectId batch.Data).length : Int) ∧
      a.TotalVolumeUsd
          = ((Transaction.group a.Date a.ProjectId batch.Data).map
              fun t => ar.mulF (rate currencyValues t.CurrencySymbol) t.Volume).foldl
              ar.addF 0 := by
  rw [machine.DoAgg_eq_put ar batch currencyValues h]
  refine ⟨rfl, ?_, ?_⟩
  · intro d p
    constructor
    · rintro ⟨a, ha, rfl, rfl⟩
      exact ((machine.DoAgg.mem_values_grouped ar currencyValues _ a).1 ha).1
    · rintro ⟨t, ht, rfl, rfl⟩
      refine ⟨machine.Transaction.total ar currencyValues t.Timestamp.Format t.ProjectID
        batch.Data, ?_, rfl, rfl⟩
      exact (machine.DoAgg.mem_values_grouped ar currencyValues _ _).2
        ⟨⟨t, ht, rfl, rfl⟩, rfl⟩
  · intro a ha
    obtain ⟨_, htot⟩ := (machine.DoAgg.mem_values_grouped ar currencyValues _ a).1 ha
    constructor
    · conv_lhs => rw [htot]
      rfl
    · conv_lhs => rw [htot]
      rfl

/-- A batch of five records in four groups, over exact arithmetic, which is the arithmetic of the
machine on these values: the first group holds two records, `100 * 1 + 50 * 1.25 = 162.5`. -/
theorem DoAgg_groups_witness :
    (∀ t ∈ dyadicTransactions, dyadicCurrencyValues.lookup t.CurrencySymbol ≠ none) ∧
    machine.DoAgg Arith.ideal { Data := dyadicTransactions, Err := none } dyadicCurrencyValues
      = (dyadicAggs, none) ∧
    ∀ a ∈ (machine.DoAgg Arith.ideal { Data := dyadicTransactions, Err := none }
        dyadicCurrencyValues).1,
      a.NumberOfTransactions
          = ((Transaction.group a.Date a.ProjectId dyadicTransactions).length : Int) ∧
      a.TotalVolumeUsd
          = ((Transaction.group a.Date a.ProjectId dyadicTransactions).map
              fun t => Arith.ideal.mulF (rate dyadicCurrencyValues t.CurrencySymbol)
                t.Volume).foldl Arith.ideal.addF 0 :=
  ⟨by decide, by decide!,
    (DoAgg_groups Arith.ideal dyadicCurrencyValues { Data := dyadicTransactions, Err := none }
      (by decide)).2.2⟩

/-- C9 (amended). For error-free results none of whose dates contains an underscore (as every date
that `DoAgg` formats), `DoAggReducer` returns no error; its output has an entry for a date and
project exactly when some partial entry has them; the count of an entry is the `int` sum of the
counts, and its volume the `float64` sum of the volumes, of the partial entries with its date and
project, both accumulated in the order of arrival from the first of them. This holds whatever the
`int` sum wraps to and the `float64` sum rounds or overflows to. -/
theorem DoAggReducer_sums (ar : Arith) (results : List AggResult)
    (hErr : ∀ r ∈ results, r.Err = none)
    (hDate : ∀ r ∈ results, ∀ x ∈ r.Agg, '_' ∉ x.Date.data) :
    (machine.DoAggReducer ar results).2 = none ∧
    (∀ d p : String,
      (∃ a ∈ (machine.DoAggReducer ar results).1, a.Date = d ∧ a.ProjectId = p)
        ↔ ∃ r ∈ results, ∃ x ∈ r.Agg, x.Date = d ∧ x.ProjectId = p) ∧
    ∀ a ∈ (machine.DoAggReducer ar results).1,
      a.NumberOfTransactions
          = ar.sumI ((Agg.group a.Date a.ProjectId (results.flatMap AggResult.Agg)).map
              Agg.NumberOfTransactions) ∧
      a.TotalVolumeUsd
          = ar.sumF ((Agg.group a.Date a.ProjectId (results.flatMap AggResult.Agg)).map
              Agg.TotalVolumeUsd) := by
  have hsep : ∀ x ∈ results.flatMap AggResult.Agg, '_' ∉ x.Date.data := by
    intro x hx
    obtain ⟨r, hr, hxr⟩ := List.mem_flatMap.1 hx
    exact hDate r hr x hxr
  rw [machine.DoAggReducer_eq_foldl_merge ar results hErr]
  refine ⟨rfl, ?_, ?_⟩
  · intro d p
    constructor
    · rintro ⟨a, ha, rfl, rfl⟩
      obtain ⟨⟨x, hx, hd, hp⟩, _⟩ := (machine.DoAggReducer.mem_values_merged ar _ hsep a).1 ha
      obtain ⟨r, hr, hxr⟩ := List.mem_flatMap.1 hx
      exact ⟨r, hr, x, hxr, hd, hp⟩
    · rintro ⟨r, hr, x, hxr, rfl, rfl⟩
      refine ⟨machine.Agg.total ar x.Date x.ProjectId (results.flatMap AggResult.Agg), ?_,
        rfl, rfl⟩
      exact (machine.DoAggReducer.mem_values_merged ar _ hsep _).2
        ⟨⟨x, List.mem_flatMap.2 ⟨r, hr, hxr⟩, rfl, rfl⟩, rfl⟩
  · intro a ha
    obtain ⟨_, htot⟩ := (machine.DoAggReducer.mem_values_merged ar _ hsep a).1 ha
    constructor
    · conv_lhs => rw [htot]
      rfl
    · conv_lhs => rw [htot]
      rfl

/-- Two partial aggregates with a common date and project, on a platform of 64 bits: the counts
`2^63 - 1` and `1` of that pair sum to `-2^63`, the volumes `160` and `200` to `360`. -/
theorem DoAggReducer_sums_witness :
    let results : List AggResult :=
      [{ Agg := [⟨"2023-10-01", "A", 9223372036854775807, F64.fin 160⟩,
                 ⟨"2023-10-01", "B", 1, F64.fin 60⟩],
         Err := none },
       { Agg := [⟨"2023-10-01", "A", 1, F64.fin 200⟩], Err := none }]
    (∀ r ∈ results, r.Err = none) ∧
    (∀ r ∈ results, ∀ x ∈ r.Agg, '_' ∉ x.Date.data) ∧
    machine.DoAggReducer Arith.wrap64 results
      = ([⟨"2023-10-01", "A", -9223372036854775808, F64.fin 360⟩,
          ⟨"2023-10-01", "B", 1, F64.fin 60⟩], none) ∧
    ((machine.DoAggReducer Arith.wrap64 results).2 = none ∧
    (∀ d p : String,
      (∃ a ∈ (machine.DoAggReducer Arith.wrap64 results).1, a.Date = d ∧ a.ProjectId = p)
        ↔ ∃ r ∈ results, ∃ x ∈ r.Agg, x.Date = d ∧ x.ProjectId = p) ∧
    ∀ a ∈ (machine.DoAggReducer Arith.wrap64 results).1,
      a.NumberOfTransactions
          = Arith.wrap64.sumI ((Agg.group a.Date a.ProjectId
              (results.flatMap AggResult.Agg)).map Agg.NumberOfTransactions) ∧
      a.TotalVolumeUsd
          = Arith.wrap64.sumF ((Agg.group a.Date a.ProjectId
              (results.flatMap AggResult.Agg)).map Agg.TotalVolumeUsd)) :=
  ⟨by decide, by decide, by decide!, DoAggReducer_sums Arith.wrap64 _ (by decide) (by decide)⟩

end worker

end Hodctl
